import Mathlib

/-!
# Address translation simulator: TLB + two-level page table + frame allocator

A shallow embedding of `src/main.cpp`, and of the TLB class of `src/tlb.cpp` (namespace
`TlbCpp`) for the comparison of the two TLBs.

* 32-bit unsigned values are natural numbers; the theorems assume `va < 2 ^ 32`
  and the one shift that can leave 32 bits (`pfn << 12`) is reduced modulo `2 ^ 32`.
* The 64-bit TLB clock is a natural number reduced modulo `2 ^ 64` at `++clock`.
* The fixed-size C arrays (`entries[16]`, `page_directory[1024]`,
  `frame_allocated[NUM_FRAMES]`) are lists; the heap table behind
  `PageDirectoryEntry::pt` is an `Option` of a list, `none` being `nullptr`.
* Accesses that C++ leaves undefined (an index outside an array, a null table,
  a remainder by zero) make the embedded function return `none`.
* The Mersenne-Twister draw `rng()` is an argument `r` of the call that may use it;
  a run pairs every address with the draw available to its call.
* The `int` counters `hits` and `misses` are natural numbers (signed overflow is
  undefined in C++ and needs more than 2^31 lookups).
* `TLB::print_stats` (a `double` rate written through `cout`) and `main`'s console
  output are not embedded.
-/

namespace Sim

/-! ## Configuration -/

def PAGE_OFFSET_BITS : Nat := 12
def L1_BITS : Nat := 10
def L2_BITS : Nat := 10
def PD_ENTRIES : Nat := 1 <<< L1_BITS
def PT_ENTRIES : Nat := 1 <<< L2_BITS
def NUM_FRAMES : Nat := 256

/-! ## Data model -/

/-- Mirror of `struct PageTableEntry`. -/
structure PageTableEntry where
  valid : Bool := false
  frame : Nat := 0
deriving DecidableEq, Repr, Inhabited

/-- Mirror of `struct PageDirectoryEntry`; `pt = none` is the null pointer. -/
structure PageDirectoryEntry where
  present : Bool := false
  pt : Option (List PageTableEntry) := none
deriving DecidableEq, Repr, Inhabited

/-- Mirror of `struct TLBEntry`. -/
structure TLBEntry where
  vpn : Nat := 0
  pfn : Nat := 0
  timestamp : Nat := 0
  valid : Bool := false
deriving DecidableEq, Repr, Inhabited

/-- Mirror of `class TLB`: the 16 slots, the clock and the two counters. -/
structure TLB where
  entries : List TLBEntry
  clock : Nat := 0
  hits : Nat := 0
  misses : Nat := 0
deriving DecidableEq, Repr

/-- The globals of `src/main.cpp`. -/
structure State where
  page_directory : List PageDirectoryEntry
  frame_allocated : List Bool
  allocated_frames : List Nat
  tlb : TLB
deriving DecidableEq, Repr

/-- What one call of `translate` hands back: its return value and the two
reference parameters `pa` and `fault`. -/
structure Translation where
  ret : Bool
  pa : Nat
  fault : Bool
deriving DecidableEq, Repr

/-- The freshly constructed `TLB tlb;`: 16 default entries, zero clock and counters. -/
def TLB.empty : TLB :=
  { entries := List.replicate 16 {}, clock := 0, hits := 0, misses := 0 }

/-- State at program start with `n` physical frames (`n = NUM_FRAMES` in the code). -/
def initState (n : Nat) : State :=
  { page_directory := List.replicate PD_ENTRIES {}
    frame_allocated := List.replicate n false
    allocated_frames := []
    tlb := TLB.empty }

/-! ## Helper functions (address decomposition) -/

def get_l1_index (va : Nat) : Nat := (va >>> 22) &&& 0x3FF

def get_l2_index (va : Nat) : Nat := (va >>> 12) &&& 0x3FF

def get_offset (va : Nat) : Nat := va &&& 0xFFF

def get_vpn (va : Nat) : Nat := va >>> 12

/-! ## TLB -/

/-- The range-for of `TLB::lookup`: the first slot, in array order, that is valid
and holds `vpn` gets timestamp `clock1` (the incremented clock) and yields its pfn. -/
def lookupScan (vpn clock1 : Nat) : List TLBEntry → Option (List TLBEntry × Nat)
  | [] => none
  | e :: es =>
    if e.valid && e.vpn == vpn then
      some ({ e with timestamp := clock1 } :: es, e.pfn)
    else
      match lookupScan vpn clock1 es with
      | some (es1, pfn) => some (e :: es1, pfn)
      | none => none

/-- Embedding of `bool TLB::lookup(uint32_t vpn, uint32_t& pfn)`: `some pfn` is a hit. -/
def TLB.lookup (t : TLB) (vpn : Nat) : TLB × Option Nat :=
  match lookupScan vpn ((t.clock + 1) % 2 ^ 64) t.entries with
  | some (es, pfn) =>
    ({ t with entries := es, clock := (t.clock + 1) % 2 ^ 64, hits := t.hits + 1 }, some pfn)
  | none => ({ t with misses := t.misses + 1 }, none)

/-- The loop `for (int i = 1; i < 16; i++)` of `TLB::insert`, run over the slots
from index `i` on, with the current `lru_idx` and `oldest`; returns the final `lru_idx`. -/
def insertScan : List TLBEntry → Nat → Nat → Nat → Nat
  | [], _, lru_idx, _ => lru_idx
  | e :: es, i, lru_idx, oldest =>
    if !e.valid then i
    else if e.timestamp < oldest then insertScan es (i + 1) i e.timestamp
    else insertScan es (i + 1) lru_idx oldest

/-- Slot chosen by `TLB::insert`: `lru_idx = 0`, `oldest = entries[0].timestamp`,
then the scan of slots 1..15. -/
def TLB.victim (t : TLB) : Nat :=
  insertScan t.entries.tail 1 0 (t.entries.headD default).timestamp

/-- Embedding of `void TLB::insert(uint32_t vpn, uint32_t pfn)`. -/
def TLB.insert (t : TLB) (vpn pfn : Nat) : TLB :=
  { t with
    entries := t.entries.set t.victim
      { vpn := vpn, pfn := pfn, timestamp := (t.clock + 1) % 2 ^ 64, valid := true }
    clock := (t.clock + 1) % 2 ^ 64 }

/-! ## Physical frame allocation -/

/-- The loop `for (int i = 0; i < NUM_FRAMES; i++)` of `allocate_frame` over
`frame_allocated` from index `i` on: the first index whose flag is false. -/
def firstFree : List Bool → Nat → Option Nat
  | [], _ => none
  | b :: bs, i => if !b then some i else firstFree bs (i + 1)

/-- Embedding of `uint32_t allocate_frame()`; `r` is the value `rng()` returns if
it is called. `none` when `rng() % allocated_frames.size()` divides by zero or the
victim index is outside the vector. -/
def allocate_frame (s : State) (r : Nat) : Option (State × Nat) :=
  match firstFree s.frame_allocated 0 with
  | some i =>
    some ({ s with
            frame_allocated := s.frame_allocated.set i true
            allocated_frames := s.allocated_frames ++ [i] }, i)
  | none =>
    if s.allocated_frames.length = 0 then none
    else
      match s.allocated_frames[r % s.allocated_frames.length]? with
      | some victim_frame => some (s, victim_frame)
      | none => none

/-! ## Translation -/

/-- Physical address `(pfn << 12) | get_offset(va)` in 32-bit arithmetic. -/
def mkPa (pfn va : Nat) : Nat := ((pfn <<< 12) % 2 ^ 32) ||| get_offset va

/-- Embedding of `bool translate(uint32_t va, uint32_t& pa, bool& fault)`.
`none` when the walk would index outside `page_directory` or the second-level
table, dereference a null table, or when `allocate_frame` is undefined. -/
def translate (s : State) (va r : Nat) : Option (State × Translation) :=
  let vpn := get_vpn va
  match s.tlb.lookup vpn with
  | (tlb1, some pfn) =>
    some ({ s with tlb := tlb1 }, { ret := true, pa := mkPa pfn va, fault := false })
  | (tlb1, none) =>
    let l1 := get_l1_index va
    let l2 := get_l2_index va
    match s.page_directory[l1]? with
    | none => none
    | some pde0 =>
      let pde : PageDirectoryEntry :=
        if !pde0.present then
          { present := true, pt := some (List.replicate PT_ENTRIES {}) }
        else pde0
      match pde.pt with
      | none => none
      | some table =>
        match table[l2]? with
        | none => none
        | some pte =>
          if !pte.valid then
            match allocate_frame
                { s with page_directory := s.page_directory.set l1 pde, tlb := tlb1 } r with
            | none => none
            | some (s1, pfn) =>
              some ({ s1 with
                      page_directory := s1.page_directory.set l1
                        { pde with pt := some (table.set l2 { valid := true, frame := pfn }) }
                      tlb := s1.tlb.insert vpn pfn },
                    { ret := true, pa := mkPa pfn va, fault := true })
          else
            some ({ s with
                    page_directory := s.page_directory.set l1 pde
                    tlb := tlb1.insert vpn pte.frame },
                  { ret := true, pa := mkPa pte.frame va, fault := false })

/-- The driver loop of `main`: translate the addresses in order, the `i`-th call
paired with the draw its `rng()` would return; collects the per-call results. -/
def run : State → List (Nat × Nat) → Option (State × List Translation)
  | s, [] => some (s, [])
  | s, (va, r) :: rest =>
    match translate s va r with
    | none => none
    | some (s1, t) =>
      match run s1 rest with
      | none => none
      | some (s2, ts) => some (s2, t :: ts)


/-! ## Reachable states -/

/-- TLB states that calls of `lookup` and `insert` can produce from the empty TLB. -/
inductive TLB.Reachable : TLB → Prop
  | empty : TLB.Reachable TLB.empty
  | lookup (t : TLB) (vpn : Nat) : TLB.Reachable t → TLB.Reachable (t.lookup vpn).1
  | insert (t : TLB) (vpn pfn : Nat) : TLB.Reachable t → TLB.Reachable (t.insert vpn pfn)

/-- Program states that calls of `translate` on 32-bit addresses can produce from
the initial state with `n` frames. -/
inductive Reachable (n : Nat) : State → Prop
  | init : Reachable n (initState n)
  | step (s s1 : State) (va r : Nat) (t : Translation) :
      Reachable n s → va < 2 ^ 32 → translate s va r = some (s1, t) → Reachable n s1

/-- Allocator states the program can be in with `n` frames: at start no flag of
`frame_allocated` is set and `allocated_frames` is empty; `allocate_frame` is the only
writer of the two; the other globals may hold anything. -/
inductive AllocReachable (n : Nat) : State → Prop
  | init (s : State) : s.frame_allocated = List.replicate n false →
      s.allocated_frames = [] → AllocReachable n s
  | alloc (s s1 : State) (r f : Nat) :
      AllocReachable n s → allocate_frame s r = some (s1, f) → AllocReachable n s1
  | other (s s1 : State) : AllocReachable n s → s1.frame_allocated = s.frame_allocated →
      s1.allocated_frames = s.allocated_frames → AllocReachable n s1

/-- Every slot of the TLB is valid. -/
def TLB.full (t : TLB) : Prop := ∀ e ∈ t.entries, e.valid = true

/-- Number of valid slots. -/
def TLB.validCount (t : TLB) : Nat := (t.entries.filter (fun e => e.valid)).length

/-- Some valid slot of the TLB holds `vpn`. -/
def TLB.holds (t : TLB) (vpn : Nat) : Prop :=
  ∃ e ∈ t.entries, e.valid = true ∧ e.vpn = vpn

instance (t : TLB) : Decidable t.full := by unfold TLB.full; infer_instance

instance (t : TLB) (vpn : Nat) : Decidable (t.holds vpn) := by unfold TLB.holds; infer_instance

/-- The TLB after inserting the mappings `k ↦ k`, ..., `1 ↦ 1` (oldest first) into
the empty TLB. -/
def filledTLB : Nat → TLB
  | 0 => TLB.empty
  | k + 1 => (filledTLB k).insert (k + 1) (k + 1)

/-- Addresses `0x1abc, 0x2abc, ...`: one address on each of the pages `1..k`, each
paired with a draw of the random generator. -/
def pageSweep (k : Nat) : List (Nat × Nat) :=
  (List.range k).map (fun p => ((p + 1) * 4096 + 0xabc, 0))

/-- The TLB after the first touches of the pages `1..k` while frames remain: the
lookup of page `p` is followed by `insert(p, p - 1)`. -/
def sweepTLB : Nat → TLB
  | 0 => TLB.empty
  | k + 1 => ((sweepTLB k).lookup (k + 1)).1.insert (k + 1) k

/-! ## Specification vocabulary -/

/-- Reading of one second-level table: the frame of entry `l2` when that entry is valid. -/
def walkTable (table : List PageTableEntry) (l2 : Nat) : Option Nat :=
  match table[l2]? with
  | none => none
  | some pte => if pte.valid then some pte.frame else none

/-- Read-only walk of the two-level table for a virtual page number: the stored
frame when the directory entry is present, its table exists and the entry is valid. -/
def walk (pd : List PageDirectoryEntry) (vpn : Nat) : Option Nat :=
  match pd[vpn / 1024]? with
  | none => none
  | some pde =>
    if pde.present then
      match pde.pt with
      | none => none
      | some table => walkTable table (vpn % 1024)
    else none

/-- Virtual page numbers of an input sequence, in order. -/
def vpnsOf (inputs : List (Nat × Nat)) : List Nat := inputs.map (fun x => get_vpn x.1)

/-- Number of distinct pages in a list of virtual page numbers. -/
def distinct (vs : List Nat) : Nat := vs.toFinset.card

/-- Number of distinct pages that appear in `vs` before the first occurrence of `v`:
`v` is the `(rank vs v + 1)`-th distinct page in order of first appearance. -/
def rank (vs : List Nat) (v : Nat) : Nat := distinct (vs.take (vs.indexOf v))

/-- Invariant of the program state after translating addresses on the pages `vs`
(in that order) with `n` physical frames. -/
structure Inv (n : Nat) (vs : List Nat) (s : State) : Prop where
  tlb_len : s.tlb.entries.length = 16
  pd_len : s.page_directory.length = 1024
  tables : ∀ (i : Nat) (pde : PageDirectoryEntry), s.page_directory[i]? = some pde →
    pde.present = true → ∃ tbl, pde.pt = some tbl ∧ tbl.length = 1024
  flags_len : s.frame_allocated.length = n
  flags : ∀ i, i < n → s.frame_allocated[i]? = some (decide (i < min (distinct vs) n))
  alloc : s.allocated_frames = List.range (min (distinct vs) n)
  mapped : ∀ v, (walk s.page_directory v).isSome = true ↔ v ∈ vs
  frames_lt : ∀ v f, walk s.page_directory v = some f → f < n
  ranked : ∀ v f, walk s.page_directory v = some f → rank vs v < n → f = rank vs v
  tlb_agrees : ∀ e ∈ s.tlb.entries, e.valid = true →
    walk s.page_directory e.vpn = some e.pfn

/-- What one call of `translate` on `va` delivers after the pages `hist` have been
translated: it returns true, faults exactly on a new page, and builds the physical
address from a frame below `n`, the frame `rank` when that is below `n`. -/
def StepSpec (n : Nat) (hist : List Nat) (va : Nat) (t : Translation) : Prop :=
  t.ret = true ∧ (t.fault = true ↔ get_vpn va ∉ hist) ∧
  ∃ pfn, pfn < n ∧ t.pa = mkPa pfn va ∧
    (rank (hist ++ [get_vpn va]) (get_vpn va) < n →
      pfn = rank (hist ++ [get_vpn va]) (get_vpn va))

/-- One call of `translate` from a state satisfying the invariant: it completes,
re-establishes the invariant for the extended history, meets `StepSpec`, and leaves
the translated page in the TLB with the frame used for the physical address. -/
def StepOK (n : Nat) (vs : List Nat) (s : State) (va r : Nat) : Prop :=
  ∃ s1 t, translate s va r = some (s1, t) ∧ Inv n (vs ++ [get_vpn va]) s1 ∧
    StepSpec n vs va t ∧
    ∃ pfn, t.pa = mkPa pfn va ∧ (s1.tlb.lookup (get_vpn va)).2 = some pfn

/-- No two valid slots of the TLB hold the same virtual page number. -/
def TLB.noDup (t : TLB) : Prop :=
  ∀ (i j : Nat) (e1 e2 : TLBEntry), t.entries[i]? = some e1 → t.entries[j]? = some e2 →
    e1.valid = true → e2.valid = true → e1.vpn = e2.vpn → i = j

/-- Further invariant of the program state after translating addresses on the pages
`vs`: a directory entry is present exactly for the first-level indices touched, every
frame handed out so far is held by some mapped page, and the TLB has no duplicates. -/
structure Inv2 (n : Nat) (vs : List Nat) (s : State) : Prop where
  dir : ∀ (d : Nat) (pde : PageDirectoryEntry), s.page_directory[d]? = some pde →
    (pde.present = true ↔ ∃ v ∈ vs, v / 1024 = d)
  held : ∀ k, k < min (distinct vs) n → ∃ v, walk s.page_directory v = some k
  nodup : s.tlb.noDup

/-- The state the program is in after translating `inputs` from the initial state
with `n` frames. -/
def stateAfter (n : Nat) (inputs : List (Nat × Nat)) : State :=
  match run (initState n) inputs with
  | some (s, _) => s
  | none => initState n

/-! ## Runs of the TLB without clock wrap-around -/

/-- TLB states that calls of `lookup` and `insert` produce from the empty TLB when
the 64-bit clock never wraps: no call leaves the clock smaller than it was. -/
inductive TLB.ReachableNoWrap : TLB → Prop
  | empty : TLB.ReachableNoWrap TLB.empty
  | lookup (t : TLB) (vpn : Nat) : TLB.ReachableNoWrap t → t.clock ≤ (t.lookup vpn).1.clock →
      TLB.ReachableNoWrap (t.lookup vpn).1
  | insert (t : TLB) (vpn pfn : Nat) : TLB.ReachableNoWrap t →
      t.clock ≤ (t.insert vpn pfn).clock → TLB.ReachableNoWrap (t.insert vpn pfn)

/-- Timestamp invariant of the TLB. -/
structure TLB.TsInv (t : TLB) : Prop where
  len : t.entries.length = 16
  clock_lt : t.clock < 2 ^ 64
  invalid_zero : ∀ e ∈ t.entries, e.valid = false → e.timestamp = 0
  valid_range : ∀ e ∈ t.entries, e.valid = true → 1 ≤ e.timestamp ∧ e.timestamp ≤ t.clock
  distinct_ts : ∀ (i j : Nat) (e1 e2 : TLBEntry), t.entries[i]? = some e1 →
    t.entries[j]? = some e2 → e1.valid = true → e2.valid = true →
    e1.timestamp = e2.timestamp → i = j

/-! ## The TLB of `src/tlb.cpp` -/

namespace TlbCpp

/-- Mirror of `class TLB` of `src/tlb.cpp`: 16 slots and the clock (no counters).
The entry type has the same four fields as in `src/main.cpp`. -/
structure TLB where
  entries : List TLBEntry
  clock : Nat := 0
deriving DecidableEq, Repr

/-- The constructor `TLB()`: it only clears the `valid` flags; `junk` stands for the
indeterminate values the other fields of the 16 slots start with. -/
def TLB.new (junk : List TLBEntry) : TLB :=
  { entries := junk.map (fun e => { e with valid := false }), clock := 0 }

/-- Embedding of `TLB::lookup` of `src/tlb.cpp`: `clock++` first, then the same scan
as in `src/main.cpp`, stamping the matched slot with the incremented clock. -/
def TLB.lookup (t : TLB) (vpn : Nat) : TLB × Option Nat :=
  match lookupScan vpn ((t.clock + 1) % 2 ^ 64) t.entries with
  | some (es, pfn) => ({ entries := es, clock := (t.clock + 1) % 2 ^ 64 }, some pfn)
  | none => ({ t with clock := (t.clock + 1) % 2 ^ 64 }, none)

/-- The first loop of `TLB::insert`: index of the first slot, from index `i` on,
that is not valid. -/
def firstInvalid : List TLBEntry → Nat → Option Nat
  | [], _ => none
  | e :: es, i => if !e.valid then some i else firstInvalid es (i + 1)

/-- The scan of `std::min_element` with the comparison `a.timestamp < b.timestamp`
over the slots from index `i` on, with the current smallest slot and its timestamp:
a later slot replaces it only when strictly smaller. -/
def minScan : List TLBEntry → Nat → Nat → Nat → Nat
  | [], _, smallest, _ => smallest
  | e :: es, i, smallest, ts =>
    if e.timestamp < ts then minScan es (i + 1) i e.timestamp
    else minScan es (i + 1) smallest ts

/-- Slot written by `TLB::insert`: the first invalid slot, else the `min_element`. -/
def TLB.slot (t : TLB) : Nat :=
  match firstInvalid t.entries 0 with
  | some i => i
  | none => minScan t.entries.tail 1 0 (t.entries.headD default).timestamp

/-- Embedding of `TLB::insert` of `src/tlb.cpp`. -/
def TLB.insert (t : TLB) (vpn pfn : Nat) : TLB :=
  { entries := t.entries.set t.slot
      { vpn := vpn, pfn := pfn, timestamp := (t.clock + 1) % 2 ^ 64, valid := true }
    clock := (t.clock + 1) % 2 ^ 64 }

end TlbCpp

/-! ## Sequences of TLB calls -/

/-- One call on a TLB. -/
inductive TLBOp where
  | lookup (vpn : Nat)
  | insert (vpn pfn : Nat)
deriving DecidableEq, Repr

/-- Run a sequence of calls on the TLB of `src/main.cpp`; collects what each
lookup answers (`some pfn` for a hit, `none` for a miss). -/
def runMain : TLB → List TLBOp → TLB × List (Option Nat)
  | t, [] => (t, [])
  | t, TLBOp.lookup vpn :: rest =>
    ((runMain (t.lookup vpn).1 rest).1, (t.lookup vpn).2 :: (runMain (t.lookup vpn).1 rest).2)
  | t, TLBOp.insert vpn pfn :: rest => runMain (t.insert vpn pfn) rest

/-- Run a sequence of calls on the TLB of `src/tlb.cpp`. -/
def runCpp : TlbCpp.TLB → List TLBOp → TlbCpp.TLB × List (Option Nat)
  | t, [] => (t, [])
  | t, TLBOp.lookup vpn :: rest =>
    ((runCpp (t.lookup vpn).1 rest).1, (t.lookup vpn).2 :: (runCpp (t.lookup vpn).1 rest).2)
  | t, TLBOp.insert vpn pfn :: rest => runCpp (t.insert vpn pfn) rest

/-- The discipline of `translate`: along the run on the TLB of `src/main.cpp`,
`insert(vpn, _)` is called only when no valid entry holds `vpn`. -/
def Disciplined : TLB → List TLBOp → Prop
  | _, [] => True
  | t, TLBOp.lookup vpn :: rest => Disciplined (t.lookup vpn).1 rest
  | t, TLBOp.insert vpn pfn :: rest => ¬ t.holds vpn ∧ Disciplined (t.insert vpn pfn) rest

/-- Slot of `src/tlb.cpp` that plays the part of slot `i` of `src/main.cpp`:
`main.cpp` fills slots 1, ..., 15, 0 in that order, `tlb.cpp` slots 0, ..., 15. -/
def slotMap (i : Nat) : Nat := (i + 15) % 16

/-- Simulation relation between the two TLBs: corresponding slots agree on validity
and, when valid, on the mapping; valid slots are ordered by timestamp the same way;
timestamps of valid slots are at most the clock, and neither clock has wrapped. -/
structure TlbSim (m : TLB) (c : TlbCpp.TLB) : Prop where
  ts : m.TsInv
  nodup : m.noDup
  clen : c.entries.length = 16
  cclock : c.clock < 2 ^ 64
  clock_le : m.clock ≤ c.clock
  crange : ∀ e ∈ c.entries, e.valid = true → e.timestamp ≤ c.clock
  slots : ∀ (i : Nat) (a b : TLBEntry), m.entries[i]? = some a →
    c.entries[slotMap i]? = some b →
    a.valid = b.valid ∧ (a.valid = true → a.vpn = b.vpn ∧ a.pfn = b.pfn)
  order : ∀ (i j : Nat) (a1 a2 b1 b2 : TLBEntry), m.entries[i]? = some a1 →
    m.entries[j]? = some a2 → c.entries[slotMap i]? = some b1 →
    c.entries[slotMap j]? = some b2 → a1.valid = true → a2.valid = true →
    (a1.timestamp < a2.timestamp ↔ b1.timestamp < b2.timestamp)

/-- Sixteen inserts, of the pages 1..16. -/
def fillOps : List TLBOp := (List.range 16).map (fun p => TLBOp.insert (p + 1) (p + 1))

/-- Sixteen slots with all fields zero, as one possible start of `src/tlb.cpp`. -/
def zeroSlots : List TLBEntry := List.replicate 16 {}

instance (t : TLB) (ops : List TLBOp) : Decidable (Disciplined t ops) := by
  induction ops generalizing t with
  | nil => exact isTrue trivial
  | cons op rest ih =>
    cases op with
    | lookup vpn => exact ih (t.lookup vpn).1
    | insert vpn pfn =>
      have := ih (t.insert vpn pfn)
      unfold Disciplined
      infer_instance

/-! ## Arithmetic of the address fields -/

theorem and_3FF (x : Nat) : x &&& 0x3FF = x % 1024 :=
  Nat.and_pow_two_sub_one_eq_mod x 10

theorem and_FFF (x : Nat) : x &&& 0xFFF = x % 4096 :=
  Nat.and_pow_two_sub_one_eq_mod x 12

theorem get_l1_index_eq (va : Nat) : get_l1_index va = va / 4194304 % 1024 := by
  simp [get_l1_index, and_3FF, Nat.shiftRight_eq_div_pow]

theorem get_l2_index_eq (va : Nat) : get_l2_index va = va / 4096 % 1024 := by
  simp [get_l2_index, and_3FF, Nat.shiftRight_eq_div_pow]

theorem get_offset_eq (va : Nat) : get_offset va = va % 4096 := by
  simp [get_offset, and_FFF]

theorem get_vpn_eq (va : Nat) : get_vpn va = va / 4096 := by
  simp [get_vpn, Nat.shiftRight_eq_div_pow]

theorem get_vpn_lt (va : Nat) (h : va < 2 ^ 32) : get_vpn va < 2 ^ 20 := by
  rw [get_vpn_eq]; omega

theorem get_l1_index_vpn (va : Nat) (h : va < 2 ^ 32) :
    get_l1_index va = get_vpn va / 1024 := by
  rw [get_l1_index_eq, get_vpn_eq]; omega

theorem get_l2_index_vpn (va : Nat) : get_l2_index va = get_vpn va % 1024 := by
  rw [get_l2_index_eq, get_vpn_eq]

/-- Without overflow of the shift, the physical address is frame * 4096 + offset. -/
theorem mkPa_eq (pfn va : Nat) (h : pfn < 2 ^ 20) :
    mkPa pfn va = pfn * 4096 + va % 4096 := by
  unfold mkPa
  rw [get_offset_eq, Nat.shiftLeft_eq, Nat.mod_eq_of_lt (by omega)]
  have h1 : va % 4096 < 2 ^ 12 := Nat.mod_lt va (by norm_num)
  have h2 := Nat.mul_add_lt_is_or h1 pfn
  rw [Nat.mul_comm] at h2
  simpa using h2.symm

/-! ## The TLB scans -/

theorem lookupScan_eq_none (vpn c : Nat) (es : List TLBEntry) :
    lookupScan vpn c es = none ↔ ∀ e ∈ es, ¬ (e.valid = true ∧ e.vpn = vpn) := by
  induction es with
  | nil => simp [lookupScan]
  | cons e es ih =>
    unfold lookupScan
    by_cases h : e.valid = true ∧ e.vpn = vpn
    · simp [h]
    · have h1 : ¬ ((e.valid && e.vpn == vpn) = true) := by simpa using h
      rw [if_neg h1]
      cases hs : lookupScan vpn c es with
      | none =>
        have := ih.mp hs
        simp only [List.mem_cons, forall_eq_or_imp, true_iff]
        exact ⟨h, this⟩
      | some p =>
        have hne : ¬ (∀ e ∈ es, ¬ (e.valid = true ∧ e.vpn = vpn)) := fun hc => by
          rw [ih.mpr hc] at hs; cases hs
        simp only [List.mem_cons, forall_eq_or_imp, false_iff, reduceCtorEq]
        exact fun hc => hne hc.2

/-- A hit of the scan: slot `i` is the first valid slot holding `vpn`; only its
timestamp is rewritten, and its pfn is returned. -/
theorem lookupScan_eq_some (vpn c : Nat) (es es1 : List TLBEntry) (pfn : Nat)
    (h : lookupScan vpn c es = some (es1, pfn)) :
    ∃ i e, es[i]? = some e ∧ e.valid = true ∧ e.vpn = vpn ∧ pfn = e.pfn ∧
      es1 = es.set i { e with timestamp := c } ∧
      ∀ j e1, j < i → es[j]? = some e1 → ¬ (e1.valid = true ∧ e1.vpn = vpn) := by
  induction es generalizing es1 with
  | nil => simp [lookupScan] at h
  | cons e es ih =>
    unfold lookupScan at h
    by_cases hp : e.valid = true ∧ e.vpn = vpn
    · have h1 : (e.valid && e.vpn == vpn) = true := by simpa using hp
      rw [if_pos h1] at h
      simp only [Option.some.injEq, Prod.mk.injEq] at h
      refine ⟨0, e, by simp, hp.1, hp.2, h.2.symm, by simp [h.1], ?_⟩
      intro j e1 hj; omega
    · have h1 : ¬ ((e.valid && e.vpn == vpn) = true) := by simpa using hp
      rw [if_neg h1] at h
      cases hs : lookupScan vpn c es with
      | none => rw [hs] at h; cases h
      | some p =>
        obtain ⟨es2, pfn2⟩ := p
        rw [hs] at h
        simp only [Option.some.injEq, Prod.mk.injEq] at h
        obtain ⟨i, e2, hi, hv, hvpn, hpfn, hset, hfirst⟩ := ih es2 (by rw [hs, h.2])
        refine ⟨i + 1, e2, by simpa using hi, hv, hvpn, hpfn, ?_, ?_⟩
        · rw [← h.1, hset]; simp
        · intro j e1 hj hje
          cases j with
          | zero => simp at hje; rw [← hje]; exact hp
          | succ j => exact hfirst j e1 (by omega) (by simpa using hje)

/-- The scan hits at the first valid slot holding `vpn`. -/
theorem lookupScan_of_first (vpn c : Nat) (es : List TLBEntry) (i : Nat) (e : TLBEntry)
    (hi : es[i]? = some e) (hv : e.valid = true) (hvpn : e.vpn = vpn)
    (hfirst : ∀ j e1, j < i → es[j]? = some e1 → ¬ (e1.valid = true ∧ e1.vpn = vpn)) :
    lookupScan vpn c es = some (es.set i { e with timestamp := c }, e.pfn) := by
  induction es generalizing i with
  | nil => simp at hi
  | cons e0 es ih =>
    unfold lookupScan
    cases i with
    | zero =>
      simp only [List.getElem?_cons_zero, Option.some.injEq] at hi
      subst hi
      have h1 : (e0.valid && e0.vpn == vpn) = true := by simp [hv, hvpn]
      rw [if_pos h1]; simp
    | succ i =>
      have hp := hfirst 0 e0 (by omega) (by simp)
      have h1 : ¬ ((e0.valid && e0.vpn == vpn) = true) := by simpa using hp
      rw [if_neg h1]
      rw [ih i (by simpa using hi) (fun j e1 hj hje => hfirst (j + 1) e1 (by omega) (by simpa using hje))]
      simp

theorem lookupScan_length (vpn c : Nat) (es es1 : List TLBEntry) (pfn : Nat)
    (h : lookupScan vpn c es = some (es1, pfn)) : es1.length = es.length := by
  obtain ⟨i, e, _, _, _, _, hset, _⟩ := lookupScan_eq_some vpn c es es1 pfn h
  rw [hset]; simp

/-- The scan of `TLB::insert` stops at the first invalid slot it meets. -/
theorem insertScan_invalid (es : List TLBEntry) (i lru oldest : Nat)
    (h : ∃ e ∈ es, e.valid = false) :
    ∃ k e, insertScan es i lru oldest = i + k ∧ es[k]? = some e ∧ e.valid = false ∧
      ∀ j e1, j < k → es[j]? = some e1 → e1.valid = true := by
  induction es generalizing i lru oldest with
  | nil => simp at h
  | cons e es ih =>
    unfold insertScan
    by_cases hv : e.valid = true
    · have hrest : ∃ e1 ∈ es, e1.valid = false := by
        obtain ⟨e1, hm, hf⟩ := h
        rcases List.mem_cons.mp hm with rfl | hm
        · rw [hv] at hf; cases hf
        · exact ⟨e1, hm, hf⟩
      simp only [hv, Bool.not_true, Bool.false_eq_true, if_false]
      have key : ∀ l o, ∃ k e1, insertScan es (i + 1) l o = i + k ∧
          (e :: es)[k]? = some e1 ∧ e1.valid = false ∧
          ∀ j e2, j < k → (e :: es)[j]? = some e2 → e2.valid = true := by
        intro l o
        obtain ⟨k, e1, hk, hke, hf, hb⟩ := ih (i + 1) l o hrest
        refine ⟨k + 1, e1, by omega, by simpa using hke, hf, ?_⟩
        intro j e2 hj hje
        cases j with
        | zero => simp at hje; rw [← hje]; exact hv
        | succ j => exact hb j e2 (by omega) (by simpa using hje)
      split
      · exact key _ _
      · exact key _ _
    · have hf : e.valid = false := by simpa using hv
      simp only [hf, Bool.not_false, if_true]
      exact ⟨0, e, rfl, by simp, hf, fun j e1 hj => by omega⟩

/-- When every scanned slot is valid, the scan keeps the incoming candidate unless
some slot is strictly older, and then returns the first slot of least timestamp. -/
theorem insertScan_valid (es : List TLBEntry) (i lru oldest : Nat)
    (h : ∀ e ∈ es, e.valid = true) :
    (insertScan es i lru oldest = lru ∧ ∀ e ∈ es, oldest ≤ e.timestamp) ∨
    (∃ k e, insertScan es i lru oldest = i + k ∧ es[k]? = some e ∧ e.timestamp < oldest ∧
      (∀ e1 ∈ es, e.timestamp ≤ e1.timestamp) ∧
      ∀ j e1, j < k → es[j]? = some e1 → e.timestamp < e1.timestamp) := by
  induction es generalizing i lru oldest with
  | nil => left; simp [insertScan]
  | cons e es ih =>
    have hv : e.valid = true := h e (by simp)
    have hrest : ∀ e1 ∈ es, e1.valid = true := fun e1 hm => h e1 (by simp [hm])
    unfold insertScan
    simp only [hv, Bool.not_true, Bool.false_eq_true, if_false]
    by_cases hlt : e.timestamp < oldest
    · rw [if_pos hlt]
      right
      rcases ih (i + 1) i e.timestamp hrest with ⟨hr, hall⟩ | ⟨k, e1, hr, hke, hlt1, hmin, hb⟩
      · refine ⟨0, e, by simpa using hr, by simp, hlt, ?_, fun j e1 hj => by omega⟩
        intro e1 hm
        rcases List.mem_cons.mp hm with rfl | hm
        · exact le_refl _
        · exact hall e1 hm
      · refine ⟨k + 1, e1, by omega, by simpa using hke, by omega, ?_, ?_⟩
        · intro e2 hm
          rcases List.mem_cons.mp hm with rfl | hm
          · omega
          · exact hmin e2 hm
        · intro j e2 hj hje
          cases j with
          | zero => simp at hje; rw [← hje]; exact hlt1
          | succ j => exact hb j e2 (by omega) (by simpa using hje)
    · rw [if_neg hlt]
      rcases ih (i + 1) lru oldest hrest with ⟨hr, hall⟩ | ⟨k, e1, hr, hke, hlt1, hmin, hb⟩
      · left
        refine ⟨hr, ?_⟩
        intro e1 hm
        rcases List.mem_cons.mp hm with rfl | hm
        · omega
        · exact hall e1 hm
      · right
        refine ⟨k + 1, e1, by omega, by simpa using hke, hlt1, ?_, ?_⟩
        · intro e2 hm
          rcases List.mem_cons.mp hm with rfl | hm
          · omega
          · exact hmin e2 hm
        · intro j e2 hj hje
          cases j with
          | zero => simp at hje; rw [← hje]; omega
          | succ j => exact hb j e2 (by omega) (by simpa using hje)

/-! ## The slot chosen by `TLB::insert` -/

theorem insertScan_range (es : List TLBEntry) (i lru oldest : Nat) :
    insertScan es i lru oldest = lru ∨
      (i ≤ insertScan es i lru oldest ∧ insertScan es i lru oldest < i + es.length) := by
  induction es generalizing i lru oldest with
  | nil => left; simp [insertScan]
  | cons e es ih =>
    unfold insertScan
    simp only [List.length_cons]
    split
    · right; omega
    · split
      · rcases ih (i + 1) i e.timestamp with h | h
        · right; omega
        · right; omega
      · rcases ih (i + 1) lru oldest with h | h
        · left; exact h
        · right; omega

theorem victim_lt (t : TLB) (h : t.entries ≠ []) : t.victim < t.entries.length := by
  unfold TLB.victim
  cases ht : t.entries with
  | nil => exact absurd ht h
  | cons e0 rest =>
    simp only [List.tail_cons, List.length_cons]
    rcases insertScan_range rest 1 0 ((e0 :: rest).headD default).timestamp with h1 | h1
    · omega
    · omega

/-- With every slot valid the chosen slot has the least timestamp, and every slot
before it is strictly younger (ties go to the lowest index). -/
theorem victim_full (t : TLB) (hne : t.entries ≠ []) (hfull : t.full) :
    ∃ e, t.entries[t.victim]? = some e ∧ (∀ e1 ∈ t.entries, e.timestamp ≤ e1.timestamp) ∧
      ∀ j e1, j < t.victim → t.entries[j]? = some e1 → e.timestamp < e1.timestamp := by
  unfold TLB.victim
  unfold TLB.full at hfull
  cases ht : t.entries with
  | nil => exact absurd ht hne
  | cons e0 rest =>
    rw [ht] at hfull
    simp only [List.tail_cons, List.headD_cons]
    have hrest : ∀ e ∈ rest, e.valid = true := fun e hm => hfull e (by simp [hm])
    rcases insertScan_valid rest 1 0 e0.timestamp hrest with ⟨hr, hall⟩ | ⟨k, e, hr, hke, hlt, hmin, hb⟩
    · rw [hr]
      refine ⟨e0, by simp, ?_, fun j e1 hj => by omega⟩
      intro e1 hm
      rcases List.mem_cons.mp hm with rfl | hm
      · exact le_refl _
      · exact hall e1 hm
    · rw [hr]
      refine ⟨e, ?_, ?_, ?_⟩
      · rw [Nat.add_comm]; simpa using hke
      · intro e1 hm
        rcases List.mem_cons.mp hm with rfl | hm
        · omega
        · exact hmin e1 hm
      · intro j e1 hj hje
        cases j with
        | zero => simp at hje; rw [← hje]; exact hlt
        | succ j => exact hb j e1 (by omega) (by simpa using hje)

/-- If invalid slots carry timestamp 0 and some slot is invalid, the chosen slot
is invalid. -/
theorem victim_invalid (t : TLB) (hz : ∀ e ∈ t.entries, e.valid = false → e.timestamp = 0)
    (hinv : ∃ e ∈ t.entries, e.valid = false) :
    ∃ e, t.entries[t.victim]? = some e ∧ e.valid = false := by
  unfold TLB.victim
  cases ht : t.entries with
  | nil => rw [ht] at hinv; simp at hinv
  | cons e0 rest =>
    rw [ht] at hinv hz
    simp only [List.tail_cons, List.headD_cons]
    by_cases hrest : ∃ e ∈ rest, e.valid = false
    · obtain ⟨k, e, hr, hke, hf, _⟩ := insertScan_invalid rest 1 0 e0.timestamp hrest
      rw [hr]
      exact ⟨e, by rw [Nat.add_comm]; simpa using hke, hf⟩
    · have hall : ∀ e ∈ rest, e.valid = true := by
        intro e hm
        by_contra hc
        exact hrest ⟨e, hm, by simpa using hc⟩
      have h0 : e0.valid = false := by
        obtain ⟨e, hm, hf⟩ := hinv
        rcases List.mem_cons.mp hm with rfl | hm
        · exact hf
        · rw [hall e hm] at hf; cases hf
      have hts : e0.timestamp = 0 := hz e0 (by simp) h0
      rcases insertScan_valid rest 1 0 e0.timestamp hall with ⟨hr, _⟩ | ⟨k, e, _, _, hlt, _, _⟩
      · rw [hr]; exact ⟨e0, by simp, h0⟩
      · omega

/-! ## Invariant of the TLB class -/

/-- Lookup and insert keep 16 slots, and a slot that is still invalid has never
been written, so its timestamp is the initial 0. -/
theorem TLB.Reachable.inv {t : TLB} (h : TLB.Reachable t) :
    t.entries.length = 16 ∧ ∀ e ∈ t.entries, e.valid = false → e.timestamp = 0 := by
  induction h with
  | empty =>
    refine ⟨by simp [TLB.empty], ?_⟩
    intro e hm _
    simp only [TLB.empty, List.mem_replicate] at hm
    rw [hm.2]
  | lookup t vpn _ ih =>
    unfold TLB.lookup
    cases hs : lookupScan vpn ((t.clock + 1) % 2 ^ 64) t.entries with
    | none => exact ih
    | some p =>
      obtain ⟨es, pfn⟩ := p
      obtain ⟨i, e, hi, hv, _, _, hset, _⟩ := lookupScan_eq_some _ _ _ _ _ hs
      simp only
      refine ⟨by rw [hset]; simpa using ih.1, ?_⟩
      intro e1 hm hf
      rw [hset] at hm
      rcases List.mem_or_eq_of_mem_set hm with hm | rfl
      · exact ih.2 e1 hm hf
      · simp only at hf; rw [hv] at hf; cases hf
  | insert t vpn pfn _ ih =>
    unfold TLB.insert
    simp only
    refine ⟨by simpa using ih.1, ?_⟩
    intro e1 hm hf
    rcases List.mem_or_eq_of_mem_set hm with hm | rfl
    · exact ih.2 e1 hm hf
    · simp at hf

/-! ## The allocator scan -/

theorem firstFree_eq_none (bs : List Bool) (i : Nat) :
    firstFree bs i = none ↔ ∀ b ∈ bs, b = true := by
  induction bs generalizing i with
  | nil => simp [firstFree]
  | cons b bs ih =>
    unfold firstFree
    cases b with
    | false => simp
    | true => simp [ih]

/-- The scan returns the smallest free index. -/
theorem firstFree_of_first (bs : List Bool) (i k : Nat) (hk : bs[k]? = some false)
    (hb : ∀ j, j < k → bs[j]? = some true) : firstFree bs i = some (i + k) := by
  induction bs generalizing i k with
  | nil => simp at hk
  | cons b bs ih =>
    unfold firstFree
    cases k with
    | zero =>
      simp only [List.getElem?_cons_zero, Option.some.injEq] at hk
      simp [hk]
    | succ k =>
      have h0 := hb 0 (by omega)
      simp only [List.getElem?_cons_zero, Option.some.injEq] at h0
      simp only [h0, Bool.not_true, Bool.false_eq_true, if_false]
      rw [ih (i + 1) k (by simpa using hk) (fun j hj => by simpa using hb (j + 1) (by omega))]
      congr 1; omega

theorem firstFree_eq_some (bs : List Bool) (i r : Nat) (h : firstFree bs i = some r) :
    ∃ k, r = i + k ∧ bs[k]? = some false ∧ ∀ j, j < k → bs[j]? = some true := by
  induction bs generalizing i with
  | nil => simp [firstFree] at h
  | cons b bs ih =>
    unfold firstFree at h
    cases b with
    | false =>
      simp only [Bool.not_false, if_true, Option.some.injEq] at h
      exact ⟨0, by omega, by simp, fun j hj => by omega⟩
    | true =>
      simp only [Bool.not_true, Bool.false_eq_true, if_false] at h
      obtain ⟨k, hr, hk, hb⟩ := ih (i + 1) h
      refine ⟨k + 1, by omega, by simpa using hk, ?_⟩
      intro j hj
      cases j with
      | zero => simp
      | succ j => simpa using hb j (by omega)

/-! ## `TLB::lookup` as a whole -/

theorem lookup_hit (t : TLB) (vpn i : Nat) (e : TLBEntry)
    (hi : t.entries[i]? = some e) (hv : e.valid = true) (hvpn : e.vpn = vpn)
    (hfirst : ∀ j e1, j < i → t.entries[j]? = some e1 → ¬ (e1.valid = true ∧ e1.vpn = vpn)) :
    t.lookup vpn =
      ({ t with
         entries := t.entries.set i { e with timestamp := (t.clock + 1) % 2 ^ 64 }
         clock := (t.clock + 1) % 2 ^ 64
         hits := t.hits + 1 }, some e.pfn) := by
  unfold TLB.lookup
  rw [lookupScan_of_first vpn _ t.entries i e hi hv hvpn hfirst]

theorem lookup_miss (t : TLB) (vpn : Nat)
    (h : ∀ e ∈ t.entries, ¬ (e.valid = true ∧ e.vpn = vpn)) :
    t.lookup vpn = ({ t with misses := t.misses + 1 }, none) := by
  unfold TLB.lookup
  rw [(lookupScan_eq_none vpn _ t.entries).mpr h]

/-- Either the lookup misses (no valid slot holds `vpn`) or it hits at the first
valid slot holding `vpn`. -/
theorem lookup_cases (t : TLB) (vpn : Nat) :
    ((∀ e ∈ t.entries, ¬ (e.valid = true ∧ e.vpn = vpn)) ∧
      t.lookup vpn = ({ t with misses := t.misses + 1 }, none)) ∨
    (∃ i e, t.entries[i]? = some e ∧ e.valid = true ∧ e.vpn = vpn ∧
      (∀ j e1, j < i → t.entries[j]? = some e1 → ¬ (e1.valid = true ∧ e1.vpn = vpn)) ∧
      t.lookup vpn =
        ({ t with
           entries := t.entries.set i { e with timestamp := (t.clock + 1) % 2 ^ 64 }
           clock := (t.clock + 1) % 2 ^ 64
           hits := t.hits + 1 }, some e.pfn)) := by
  cases hs : lookupScan vpn ((t.clock + 1) % 2 ^ 64) t.entries with
  | none =>
    left
    have h := (lookupScan_eq_none vpn _ t.entries).mp hs
    exact ⟨h, lookup_miss t vpn h⟩
  | some p =>
    right
    obtain ⟨es, pfn⟩ := p
    obtain ⟨i, e, hi, hv, hvpn, _, _, hfirst⟩ := lookupScan_eq_some _ _ _ _ _ hs
    exact ⟨i, e, hi, hv, hvpn, hfirst, lookup_hit t vpn i e hi hv hvpn hfirst⟩

/-- On a TLB hit `translate` returns at once, replacing only the TLB. -/
theorem translate_of_hit (s : State) (va r : Nat) (tlb1 : TLB) (pfn : Nat)
    (h : s.tlb.lookup (get_vpn va) = (tlb1, some pfn)) :
    translate s va r =
      some ({ s with tlb := tlb1 }, { ret := true, pa := mkPa pfn va, fault := false }) := by
  unfold translate
  simp only [h]

/-! ## Counting distinct pages -/

theorem distinct_append_mem (vs : List Nat) (v : Nat) (h : v ∈ vs) :
    distinct (vs ++ [v]) = distinct vs := by
  unfold distinct
  congr 1
  ext x
  simp only [List.toFinset_append, List.toFinset_cons, List.toFinset_nil, Finset.mem_union,
    List.mem_toFinset, Finset.mem_insert, Finset.not_mem_empty, or_false]
  constructor
  · rintro (hx | rfl)
    · exact hx
    · exact h
  · intro hx; exact Or.inl hx

theorem distinct_append_not_mem (vs : List Nat) (v : Nat) (h : v ∉ vs) :
    distinct (vs ++ [v]) = distinct vs + 1 := by
  unfold distinct
  have h1 : (vs ++ [v]).toFinset = insert v vs.toFinset := by
    ext x
    simp only [List.toFinset_append, List.toFinset_cons, List.toFinset_nil, Finset.mem_union,
      List.mem_toFinset, Finset.mem_insert, Finset.not_mem_empty, or_false]
    tauto
  rw [h1, Finset.card_insert_of_not_mem (by simpa using h)]

theorem rank_append_mem (vs : List Nat) (v w : Nat) (h : v ∈ vs) :
    rank (vs ++ [w]) v = rank vs v := by
  unfold rank
  rw [List.indexOf_append_of_mem h]
  rw [List.take_append_of_le_length (le_of_lt (List.indexOf_lt_length.mpr h))]

theorem rank_append_self (vs : List Nat) (v : Nat) (h : v ∉ vs) :
    rank (vs ++ [v]) v = distinct vs := by
  unfold rank
  rw [List.indexOf_append_of_not_mem h]
  simp

theorem rank_take (l : List Nat) (i : Nat) (v : Nat) (hi : l[i]? = some v)
    (hnew : v ∉ l.take i) : rank l v = distinct (l.take i) := by
  have hlt : i < l.length := by
    by_contra hc
    rw [List.getElem?_eq_none (by omega)] at hi
    cases hi
  have hsplit : l = l.take i ++ v :: l.drop (i + 1) := by
    have h1 : l[i] = v := by
      rw [List.getElem?_eq_getElem hlt] at hi
      exact Option.some.inj hi
    rw [← h1, ← List.drop_eq_getElem_cons hlt, List.take_append_drop]
  have hidx : l.indexOf v = i := by
    conv_lhs => rw [hsplit]
    rw [List.indexOf_append_of_not_mem hnew]
    simp [List.length_take, Nat.min_eq_left (le_of_lt hlt)]
  unfold rank
  rw [hidx]

/-! ## Page-table reads after a write -/

theorem walkTable_replicate (m : Nat) : walkTable (List.replicate PT_ENTRIES {}) m = none := by
  unfold walkTable
  by_cases h : m < PT_ENTRIES
  · rw [List.getElem?_eq_getElem (by simpa using h)]
    simp
  · rw [List.getElem?_eq_none (by simpa using h)]

theorem walkTable_set (table : List PageTableEntry) (l2 f m : Nat) (h : l2 < table.length) :
    walkTable (table.set l2 { valid := true, frame := f }) m =
      if m = l2 then some f else walkTable table m := by
  unfold walkTable
  by_cases hm : m = l2
  · subst hm
    rw [List.getElem?_set_self h]
    simp
  · rw [List.getElem?_set_ne (Ne.symm hm), if_neg hm]

theorem walk_set (pd : List PageDirectoryEntry) (l1 : Nat) (table : List PageTableEntry)
    (v : Nat) (h : l1 < pd.length) :
    walk (pd.set l1 { present := true, pt := some table }) v =
      if v / 1024 = l1 then walkTable table (v % 1024) else walk pd v := by
  unfold walk
  by_cases hv : v / 1024 = l1
  · rw [hv, List.getElem?_set_self h, if_pos rfl]
    simp
  · rw [List.getElem?_set_ne (Ne.symm hv), if_neg hv]

theorem set_getElem?_self {α : Type} (l : List α) (i : Nat) (a : α) (h : l[i]? = some a) :
    l.set i a = l := by
  apply List.ext_getElem?
  intro j
  by_cases hj : i = j
  · subst hj
    have hlt : i < l.length := by
      by_contra hc
      rw [List.getElem?_eq_none (by omega)] at h
      cases h
    rw [List.getElem?_set_self hlt, h]
  · rw [List.getElem?_set_ne hj]

/-! ## `allocate_frame` by cases -/

theorem allocate_frame_of_free (s : State) (r i : Nat) (hi : s.frame_allocated[i]? = some false)
    (hb : ∀ j, j < i → s.frame_allocated[j]? = some true) :
    allocate_frame s r =
      some ({ s with
              frame_allocated := s.frame_allocated.set i true
              allocated_frames := s.allocated_frames ++ [i] }, i) := by
  unfold allocate_frame
  rw [firstFree_of_first s.frame_allocated 0 i hi hb]
  simp

theorem allocate_frame_of_full (s : State) (r : Nat) (hall : ∀ b ∈ s.frame_allocated, b = true)
    (hne : s.allocated_frames ≠ []) :
    ∃ v, s.allocated_frames[r % s.allocated_frames.length]? = some v ∧
      v ∈ s.allocated_frames ∧ allocate_frame s r = some (s, v) := by
  have hpos : 0 < s.allocated_frames.length := List.length_pos.mpr hne
  have hlt : r % s.allocated_frames.length < s.allocated_frames.length := Nat.mod_lt _ hpos
  refine ⟨s.allocated_frames[r % s.allocated_frames.length], ?_, ?_, ?_⟩
  · exact List.getElem?_eq_getElem hlt
  · exact List.getElem_mem hlt
  · unfold allocate_frame
    rw [(firstFree_eq_none s.frame_allocated 0).mpr hall]
    simp only [List.getElem?_eq_getElem hlt]
    rw [if_neg (by omega)]

/-- While fewer than `n` frames are out (`k < n`, frames `0..k-1` allocated) the
allocator hands out frame `k`. -/
theorem allocate_frame_next (s : State) (r n k : Nat) (hk : k < n)
    (hflags : ∀ i, i < n → s.frame_allocated[i]? = some (decide (i < k))) :
    allocate_frame s r =
      some ({ s with
              frame_allocated := s.frame_allocated.set k true
              allocated_frames := s.allocated_frames ++ [k] }, k) := by
  apply allocate_frame_of_free
  · rw [hflags k hk]; simp
  · intro j hj
    rw [hflags j (by omega)]; simp [hj]

/-- With all `n` frames out and `allocated_frames = [0, ..., n-1]` the allocator
returns frame `r % n` and changes nothing. -/
theorem allocate_frame_reuse (s : State) (r n : Nat) (hn : 0 < n)
    (hlen : s.frame_allocated.length = n)
    (hflags : ∀ i, i < n → s.frame_allocated[i]? = some true)
    (halloc : s.allocated_frames = List.range n) :
    allocate_frame s r = some (s, r % n) := by
  have hall : ∀ b ∈ s.frame_allocated, b = true := by
    intro b hb
    obtain ⟨i, hi, hib⟩ := List.getElem_of_mem hb
    have h1 := hflags i (by omega)
    rw [List.getElem?_eq_getElem hi, hib] at h1
    exact Option.some.inj h1
  have hne : s.allocated_frames ≠ [] := by
    rw [halloc]
    intro hc
    have := congrArg List.length hc
    simp at this
    omega
  obtain ⟨v, hv, _, ha⟩ := allocate_frame_of_full s r hall hne
  rw [ha]
  have hlt : r % n < n := Nat.mod_lt _ hn
  rw [halloc] at hv
  simp only [List.length_range] at hv
  rw [List.getElem?_range hlt] at hv
  rw [← Option.some.inj hv]

/-! ## `translate` by cases -/

theorem translate_of_miss_fault (s : State) (va r : Nat) (tlb1 : TLB)
    (pde0 : PageDirectoryEntry) (table : List PageTableEntry) (pte : PageTableEntry)
    (s1 : State) (pfn : Nat)
    (hl : s.tlb.lookup (get_vpn va) = (tlb1, none))
    (hpd : s.page_directory[get_l1_index va]? = some pde0)
    (hpt : (if !pde0.present then
              ({ present := true, pt := some (List.replicate PT_ENTRIES {}) } : PageDirectoryEntry)
            else pde0).pt = some table)
    (hpte : table[get_l2_index va]? = some pte) (hv : pte.valid = false)
    (ha : allocate_frame
        { s with
          page_directory := s.page_directory.set (get_l1_index va)
            (if !pde0.present then
              ({ present := true, pt := some (List.replicate PT_ENTRIES {}) } : PageDirectoryEntry)
            else pde0)
          tlb := tlb1 } r = some (s1, pfn)) :
    translate s va r =
      some ({ s1 with
              page_directory := s1.page_directory.set (get_l1_index va)
                { (if !pde0.present then
                    ({ present := true, pt := some (List.replicate PT_ENTRIES {}) } :
                      PageDirectoryEntry)
                  else pde0) with
                  pt := some (table.set (get_l2_index va) { valid := true, frame := pfn }) }
              tlb := s1.tlb.insert (get_vpn va) pfn },
            { ret := true, pa := mkPa pfn va, fault := true }) := by
  unfold translate
  simp only [hl, hpd, hpt, hpte, hv, ha, Bool.not_false, if_true]

theorem translate_of_miss_valid (s : State) (va r : Nat) (tlb1 : TLB)
    (pde0 : PageDirectoryEntry) (table : List PageTableEntry) (pte : PageTableEntry)
    (hl : s.tlb.lookup (get_vpn va) = (tlb1, none))
    (hpd : s.page_directory[get_l1_index va]? = some pde0)
    (hpt : (if !pde0.present then
              ({ present := true, pt := some (List.replicate PT_ENTRIES {}) } : PageDirectoryEntry)
            else pde0).pt = some table)
    (hpte : table[get_l2_index va]? = some pte) (hv : pte.valid = true) :
    translate s va r =
      some ({ s with
              page_directory := s.page_directory.set (get_l1_index va)
                (if !pde0.present then
                  ({ present := true, pt := some (List.replicate PT_ENTRIES {}) } :
                    PageDirectoryEntry)
                else pde0)
              tlb := tlb1.insert (get_vpn va) pte.frame },
            { ret := true, pa := mkPa pte.frame va, fault := false }) := by
  unfold translate
  simp only [hl, hpd, hpt, hpte, hv, Bool.not_true, Bool.false_eq_true, if_false]

/-! ## Lookups that follow a lookup or an insert -/

theorem lookup_after_hit (t : TLB) (vpn i : Nat) (e : TLBEntry)
    (hi : t.entries[i]? = some e) (hv : e.valid = true) (hvpn : e.vpn = vpn)
    (hfirst : ∀ j e1, j < i → t.entries[j]? = some e1 → ¬ (e1.valid = true ∧ e1.vpn = vpn)) :
    ((t.lookup vpn).1.lookup vpn).2 = some e.pfn := by
  rw [lookup_hit t vpn i e hi hv hvpn hfirst]
  have hlt : i < t.entries.length := by
    by_contra hc
    rw [List.getElem?_eq_none (by omega)] at hi
    cases hi
  simp only
  rw [lookup_hit _ vpn i { e with timestamp := (t.clock + 1) % 2 ^ 64 }]
  · simp only [List.getElem?_set_self hlt]
  · exact hv
  · exact hvpn
  · intro j e1 hj hje
    simp only at hje
    rw [List.getElem?_set_ne (by omega)] at hje
    exact hfirst j e1 hj hje

theorem lookup_after_insert (t : TLB) (vpn pfn : Nat) (hne : t.entries ≠ [])
    (hmiss : ∀ e ∈ t.entries, ¬ (e.valid = true ∧ e.vpn = vpn)) :
    ((t.insert vpn pfn).lookup vpn).2 = some pfn := by
  have hlt := victim_lt t hne
  rw [lookup_hit _ vpn t.victim
    { vpn := vpn, pfn := pfn, timestamp := (t.clock + 1) % 2 ^ 64, valid := true }]
  · simp only [TLB.insert, List.getElem?_set_self hlt]
  · rfl
  · rfl
  · intro j e1 hj hje
    simp only [TLB.insert] at hje
    rw [List.getElem?_set_ne (by omega)] at hje
    exact hmiss e1 (List.getElem?_mem hje)

theorem mem_insert_entries (t : TLB) (vpn pfn : Nat) (e : TLBEntry)
    (h : e ∈ (t.insert vpn pfn).entries) :
    e ∈ t.entries ∨
      e = { vpn := vpn, pfn := pfn, timestamp := (t.clock + 1) % 2 ^ 64, valid := true } :=
  List.mem_or_eq_of_mem_set h

/-! ## The invariant along `translate` -/

theorem inv_init (n : Nat) : Inv n [] (initState n) where
  tlb_len := by simp [initState, TLB.empty]
  pd_len := by
    show (List.replicate PD_ENTRIES _).length = 1024
    rw [List.length_replicate]
    rfl
  tables := by
    intro i pde hi hp
    have hm := List.getElem?_mem hi
    simp only [initState, List.mem_replicate] at hm
    rw [hm.2] at hp
    cases hp
  flags_len := by simp [initState]
  flags := by
    intro i hi
    simp [initState, distinct, hi]
  alloc := by simp [initState, distinct]
  mapped := by
    intro v
    have h : walk (initState n).page_directory v = none := by
      unfold walk
      cases hg : (initState n).page_directory[v / 1024]? with
      | none => rfl
      | some pde =>
        have hm := List.getElem?_mem hg
        simp only [initState, List.mem_replicate] at hm
        rw [hm.2]
        rfl
    simp [h]
  frames_lt := by
    intro v f h
    have h0 : walk (initState n).page_directory v = none := by
      unfold walk
      cases hg : (initState n).page_directory[v / 1024]? with
      | none => rfl
      | some pde =>
        have hm := List.getElem?_mem hg
        simp only [initState, List.mem_replicate] at hm
        rw [hm.2]
        rfl
    rw [h0] at h
    cases h
  ranked := by
    intro v f h
    have h0 : walk (initState n).page_directory v = none := by
      unfold walk
      cases hg : (initState n).page_directory[v / 1024]? with
      | none => rfl
      | some pde =>
        have hm := List.getElem?_mem hg
        simp only [initState, List.mem_replicate] at hm
        rw [hm.2]
        rfl
    rw [h0] at h
    cases h
  tlb_agrees := by
    intro e he hv
    simp only [initState, TLB.empty, List.mem_replicate] at he
    rw [he.2] at hv
    cases hv

theorem inv_append_mem (n : Nat) (vs : List Nat) (s : State) (v : Nat) (h : Inv n vs s)
    (hv : v ∈ vs) : Inv n (vs ++ [v]) s where
  tlb_len := h.tlb_len
  pd_len := h.pd_len
  tables := h.tables
  flags_len := h.flags_len
  flags := by rw [distinct_append_mem vs v hv]; exact h.flags
  alloc := by rw [distinct_append_mem vs v hv]; exact h.alloc
  mapped := by
    intro w
    rw [h.mapped w]
    simp only [List.mem_append, List.mem_singleton]
    constructor
    · intro hw; exact Or.inl hw
    · rintro (hw | rfl)
      · exact hw
      · exact hv
  frames_lt := h.frames_lt
  ranked := by
    intro w f hw
    have hmem : w ∈ vs := (h.mapped w).mp (by rw [hw]; rfl)
    rw [rank_append_mem vs w v hmem]
    exact h.ranked w f hw
  tlb_agrees := h.tlb_agrees

theorem inv_tlb (n : Nat) (vs : List Nat) (s : State) (tlb1 : TLB) (h : Inv n vs s)
    (hlen : tlb1.entries.length = 16)
    (hag : ∀ e ∈ tlb1.entries, e.valid = true → walk s.page_directory e.vpn = some e.pfn) :
    Inv n vs { s with tlb := tlb1 } where
  tlb_len := hlen
  pd_len := h.pd_len
  tables := h.tables
  flags_len := h.flags_len
  flags := h.flags
  alloc := h.alloc
  mapped := h.mapped
  frames_lt := h.frames_lt
  ranked := h.ranked
  tlb_agrees := hag

/-- A TLB hit keeps the invariant and delivers the frame the page table stores. -/
theorem step_hit (n : Nat) (vs : List Nat) (s : State) (va r i : Nat) (e : TLBEntry)
    (h : Inv n vs s)
    (hi : s.tlb.entries[i]? = some e) (hv : e.valid = true) (hvpn : e.vpn = get_vpn va)
    (hfirst : ∀ j e1, j < i → s.tlb.entries[j]? = some e1 →
      ¬ (e1.valid = true ∧ e1.vpn = get_vpn va)) :
    StepOK n vs s va r := by
  have hl := lookup_hit s.tlb (get_vpn va) i e hi hv hvpn hfirst
  have hw : walk s.page_directory (get_vpn va) = some e.pfn := by
    rw [← hvpn]; exact h.tlb_agrees e (List.getElem?_mem hi) hv
  have hmem : get_vpn va ∈ vs := (h.mapped _).mp (by rw [hw]; rfl)
  refine ⟨_, _, translate_of_hit s va r _ _ hl, ?_, ?_, e.pfn, rfl, ?_⟩
  · apply inv_tlb
    · exact inv_append_mem n vs s _ h hmem
    · simp only [List.length_set]; exact h.tlb_len
    · intro e1 he1 hv1
      rcases List.mem_or_eq_of_mem_set he1 with he1 | rfl
      · exact h.tlb_agrees e1 he1 hv1
      · exact h.tlb_agrees e (List.getElem?_mem hi) hv
  · refine ⟨rfl, ?_, e.pfn, h.frames_lt _ _ hw, rfl, ?_⟩
    · simp [hmem]
    · rw [rank_append_mem vs _ _ hmem]
      exact h.ranked _ _ hw
  · have h2 := lookup_after_hit s.tlb (get_vpn va) i e hi hv hvpn hfirst
    rw [hl] at h2
    exact h2

theorem PT_ENTRIES_eq : PT_ENTRIES = 1024 := by decide

/-- The directory entry `translate` works with after its presence check: it is
present, owns a 1024-entry table that reads like the old page table, and storing
it back does not change any page-table read. -/
theorem effective_table (n : Nat) (vs : List Nat) (s : State) (l1 : Nat)
    (pde0 : PageDirectoryEntry) (h : Inv n vs s) (hpd : s.page_directory[l1]? = some pde0) :
    ∃ table,
      (if !pde0.present then
          ({ present := true, pt := some (List.replicate PT_ENTRIES {}) } : PageDirectoryEntry)
        else pde0) = { present := true, pt := some table } ∧
      table.length = 1024 ∧
      (∀ v, v / 1024 = l1 → walk s.page_directory v = walkTable table (v % 1024)) ∧
      (∀ v, walk (s.page_directory.set l1 { present := true, pt := some table }) v =
        walk s.page_directory v) := by
  have hlt : l1 < s.page_directory.length := by
    by_contra hc
    rw [List.getElem?_eq_none (by omega)] at hpd
    cases hpd
  cases hp : pde0.present with
  | false =>
    have hold : ∀ v, v / 1024 = l1 → walk s.page_directory v = none := by
      intro v hv
      unfold walk
      rw [hv, hpd]
      simp [hp]
    refine ⟨List.replicate PT_ENTRIES {}, if_pos rfl,
      by rw [List.length_replicate]; exact PT_ENTRIES_eq, ?_, ?_⟩
    · intro v hv
      rw [hold v hv, walkTable_replicate]
    · intro v
      rw [walk_set _ _ _ _ hlt]
      by_cases hv : v / 1024 = l1
      · rw [if_pos hv, hold v hv, walkTable_replicate]
      · rw [if_neg hv]
  | true =>
    obtain ⟨tbl, hpt, hlen⟩ := h.tables l1 pde0 hpd hp
    have heq : pde0 = { present := true, pt := some tbl } := by
      cases pde0
      simp only at hp hpt
      simp [hp, hpt]
    refine ⟨tbl, by simpa using heq, hlen, ?_, ?_⟩
    · intro v hv
      unfold walk
      rw [hv, hpd]
      simp [hp, hpt]
    · intro v
      rw [← heq, set_getElem?_self _ _ _ hpd]

theorem walk_after_fault (pd : List PageDirectoryEntry) (table : List PageTableEntry)
    (vpn f v : Nat) (h1 : vpn / 1024 < pd.length) (h2 : vpn % 1024 < table.length)
    (hT : ∀ w, w / 1024 = vpn / 1024 → walk pd w = walkTable table (w % 1024)) :
    walk (pd.set (vpn / 1024)
        { present := true, pt := some (table.set (vpn % 1024) { valid := true, frame := f }) }) v =
      if v = vpn then some f else walk pd v := by
  rw [walk_set _ _ _ _ h1]
  by_cases hv : v / 1024 = vpn / 1024
  · rw [if_pos hv, walkTable_set _ _ _ _ h2]
    by_cases hv2 : v % 1024 = vpn % 1024
    · have : v = vpn := by omega
      rw [if_pos hv2, if_pos this]
    · have : v ≠ vpn := fun hc => hv2 (by rw [hc])
      rw [if_neg hv2, if_neg this, hT v hv]
  · have : v ≠ vpn := fun hc => hv (by rw [hc])
    rw [if_neg hv, if_neg this]

/-- The invariant after a page fault on a new page `vpn` that is given frame `pfn`. -/
theorem inv_fault (n : Nat) (vs : List Nat) (s : State) (vpn pfn : Nat)
    (table : List PageTableEntry) (fa : List Bool) (al : List Nat) (tlb1 : TLB)
    (h : Inv n vs s) (hnew : vpn ∉ vs)
    (h1 : vpn / 1024 < 1024) (hlen : table.length = 1024)
    (hT : ∀ w, w / 1024 = vpn / 1024 → walk s.page_directory w = walkTable table (w % 1024))
    (hfa : fa.length = n)
    (hflags : ∀ i, i < n → fa[i]? = some (decide (i < min (distinct vs + 1) n)))
    (hal : al = List.range (min (distinct vs + 1) n))
    (hpfn : pfn < n) (hpfn2 : distinct vs < n → pfn = distinct vs)
    (htlb : tlb1.entries = s.tlb.entries)
    (hmiss : ∀ e ∈ s.tlb.entries, ¬ (e.valid = true ∧ e.vpn = vpn)) :
    Inv n (vs ++ [vpn])
      { page_directory := s.page_directory.set (vpn / 1024)
          { present := true,
            pt := some (table.set (vpn % 1024) { valid := true, frame := pfn }) }
        frame_allocated := fa
        allocated_frames := al
        tlb := tlb1.insert vpn pfn } := by
  have hw := fun v => walk_after_fault s.page_directory table vpn pfn v
    (by rw [h.pd_len]; exact h1) (by rw [hlen]; exact Nat.mod_lt _ (by norm_num)) hT
  have hd := distinct_append_not_mem vs vpn hnew
  exact {
    tlb_len := by simp [TLB.insert, htlb, h.tlb_len]
    pd_len := by simp [h.pd_len]
    tables := by
      intro i pde hi hp
      simp only at hi
      by_cases hil : vpn / 1024 = i
      · subst hil
        rw [List.getElem?_set_self (by rw [h.pd_len]; exact h1)] at hi
        rw [← Option.some.inj hi]
        exact ⟨_, rfl, by simp [hlen]⟩
      · rw [List.getElem?_set_ne hil] at hi
        exact h.tables i pde hi hp
    flags_len := hfa
    flags := by rw [hd]; exact hflags
    alloc := by rw [hd]; exact hal
    mapped := by
      intro v
      simp only [hw v, List.mem_append, List.mem_singleton]
      by_cases hv : v = vpn
      · simp [hv]
      · rw [if_neg hv, h.mapped v]
        simp [hv]
    frames_lt := by
      intro v f hf
      simp only [hw v] at hf
      by_cases hv : v = vpn
      · rw [if_pos hv] at hf
        rw [← Option.some.inj hf]; exact hpfn
      · rw [if_neg hv] at hf
        exact h.frames_lt v f hf
    ranked := by
      intro v f hf hr
      simp only [hw v] at hf
      by_cases hv : v = vpn
      · rw [if_pos hv] at hf
        subst hv
        rw [rank_append_self vs v hnew] at hr ⊢
        rw [← Option.some.inj hf]
        exact hpfn2 hr
      · rw [if_neg hv] at hf
        have hmem : v ∈ vs := (h.mapped v).mp (by rw [hf]; rfl)
        rw [rank_append_mem vs v vpn hmem] at hr ⊢
        exact h.ranked v f hf hr
    tlb_agrees := by
      intro e he hv
      simp only [hw e.vpn]
      rcases mem_insert_entries tlb1 vpn pfn e he with he | rfl
      · rw [htlb] at he
        have hne : e.vpn ≠ vpn := fun hc => hmiss e he ⟨hv, hc⟩
        rw [if_neg hne]
        exact h.tlb_agrees e he hv
      · simp }

theorem inv_walk_same (n : Nat) (vs : List Nat) (s : State) (pd1 : List PageDirectoryEntry)
    (tlb1 : TLB) (h : Inv n vs s) (hlen : pd1.length = 1024)
    (htab : ∀ (i : Nat) (pde : PageDirectoryEntry), pd1[i]? = some pde →
      pde.present = true → ∃ tbl, pde.pt = some tbl ∧ tbl.length = 1024)
    (hsame : ∀ v, walk pd1 v = walk s.page_directory v)
    (htlb : tlb1.entries.length = 16)
    (hag : ∀ e ∈ tlb1.entries, e.valid = true → walk s.page_directory e.vpn = some e.pfn) :
    Inv n vs { s with page_directory := pd1, tlb := tlb1 } where
  tlb_len := htlb
  pd_len := hlen
  tables := htab
  flags_len := h.flags_len
  flags := h.flags
  alloc := h.alloc
  mapped := by intro v; simp only [hsame v]; exact h.mapped v
  frames_lt := by intro v f hf; simp only [hsame v] at hf; exact h.frames_lt v f hf
  ranked := by intro v f hf; simp only [hsame v] at hf; exact h.ranked v f hf
  tlb_agrees := by intro e he hv; simp only [hsame e.vpn]; exact hag e he hv

/-- A TLB miss keeps the invariant: the walk either finds the stored frame or
faults on a new page and stores the allocator's frame. -/
theorem step_miss (n : Nat) (vs : List Nat) (s : State) (va r : Nat) (hn : 0 < n)
    (h : Inv n vs s) (hva : va < 2 ^ 32)
    (hmiss : ∀ e ∈ s.tlb.entries, ¬ (e.valid = true ∧ e.vpn = get_vpn va)) :
    StepOK n vs s va r := by
  have hl := lookup_miss s.tlb (get_vpn va) hmiss
  have hl1 : get_l1_index va = get_vpn va / 1024 := get_l1_index_vpn va hva
  have hl2 : get_l2_index va = get_vpn va % 1024 := get_l2_index_vpn va
  have hvpn : get_vpn va / 1024 < 1024 := by
    have := get_vpn_lt va hva
    omega
  have hlt : get_vpn va / 1024 < s.page_directory.length := by rw [h.pd_len]; exact hvpn
  have hpd := List.getElem?_eq_getElem hlt
  obtain ⟨table, hpde, hTlen, hT, hsame⟩ := effective_table n vs s _ _ h hpd
  have hlt2 : get_vpn va % 1024 < table.length := by
    rw [hTlen]; exact Nat.mod_lt _ (by norm_num)
  have hpte := List.getElem?_eq_getElem hlt2
  have hne : s.tlb.entries ≠ [] := by
    intro hc
    have := h.tlb_len
    rw [hc] at this
    simp at this
  have hwalk : walk s.page_directory (get_vpn va) = walkTable table (get_vpn va % 1024) :=
    hT _ rfl
  have htabs : ∀ (i : Nat) (pde : PageDirectoryEntry),
      (s.page_directory.set (get_vpn va / 1024) { present := true, pt := some table })[i]? =
        some pde → pde.present = true → ∃ tbl, pde.pt = some tbl ∧ tbl.length = 1024 := by
    intro i pde hi hp
    by_cases hil : get_vpn va / 1024 = i
    · subst hil
      rw [List.getElem?_set_self hlt] at hi
      rw [← Option.some.inj hi]
      exact ⟨_, rfl, hTlen⟩
    · rw [List.getElem?_set_ne hil] at hi
      exact h.tables i pde hi hp
  cases hv : (table[get_vpn va % 1024]).valid with
  | true =>
    have hw : walk s.page_directory (get_vpn va) = some (table[get_vpn va % 1024]).frame := by
      rw [hwalk]; unfold walkTable; rw [hpte]; simp [hv]
    have hmem : get_vpn va ∈ vs := (h.mapped _).mp (by rw [hw]; rfl)
    have ht := translate_of_miss_valid s va r _ _ table _ hl (by rw [hl1]; exact hpd)
      (by rw [hpde]) (by rw [hl2]; exact hpte) hv
    rw [hl1, hpde] at ht
    refine ⟨_, _, ht, ?_, ?_, _, rfl, ?_⟩
    · apply inv_walk_same n _ s _ _ (inv_append_mem n vs s _ h hmem)
      · simp [h.pd_len]
      · exact htabs
      · exact hsame
      · simp [TLB.insert, h.tlb_len]
      · intro e he hve
        rcases mem_insert_entries _ _ _ e he with he | rfl
        · exact h.tlb_agrees e he hve
        · exact hw
    · refine ⟨rfl, ?_, _, h.frames_lt _ _ hw, rfl, ?_⟩
      · simp [hmem]
      · rw [rank_append_mem vs _ _ hmem]
        exact h.ranked _ _ hw
    · exact lookup_after_insert _ _ _ hne hmiss
  | false =>
    have hw : walk s.page_directory (get_vpn va) = none := by
      rw [hwalk]; unfold walkTable; rw [hpte]; simp [hv]
    have hnew : get_vpn va ∉ vs := by
      intro hc
      have := (h.mapped _).mpr hc
      rw [hw] at this
      cases this
    have hfin : ∀ (s1 : State) (pfn : Nat),
        allocate_frame
          { s with
            page_directory := s.page_directory.set (get_vpn va / 1024)
              { present := true, pt := some table }
            tlb := { s.tlb with misses := s.tlb.misses + 1 } } r = some (s1, pfn) →
        s1.page_directory = s.page_directory.set (get_vpn va / 1024)
              { present := true, pt := some table } →
        s1.tlb = { s.tlb with misses := s.tlb.misses + 1 } →
        s1.frame_allocated.length = n →
        (∀ i, i < n →
          s1.frame_allocated[i]? = some (decide (i < min (distinct vs + 1) n))) →
        s1.allocated_frames = List.range (min (distinct vs + 1) n) →
        pfn < n → (distinct vs < n → pfn = distinct vs) → StepOK n vs s va r := by
      intro s1 pfn ha hpd1 htlb1 hfa hflags hal hpfn hpfn2
      have ht := translate_of_miss_fault s va r _ _ table _ s1 pfn hl (by rw [hl1]; exact hpd)
        (by rw [hpde]) (by rw [hl2]; exact hpte) hv (by rw [hl1, hpde]; exact ha)
      rw [hl1, hl2, hpde, hpd1, htlb1, List.set_set] at ht
      have hI := inv_fault n vs s (get_vpn va) pfn table s1.frame_allocated
        s1.allocated_frames { s.tlb with misses := s.tlb.misses + 1 } h hnew hvpn hTlen hT
        hfa hflags hal hpfn hpfn2 rfl hmiss
      refine ⟨_, _, ht, hI, ?_, pfn, rfl, ?_⟩
      · refine ⟨rfl, ?_, pfn, hpfn, rfl, ?_⟩
        · simp [hnew]
        · rw [rank_append_self vs _ hnew]
          exact hpfn2
      · exact lookup_after_insert _ _ _ hne hmiss
    by_cases hd : distinct vs < n
    · have hmin : min (distinct vs) n = distinct vs := Nat.min_eq_left (le_of_lt hd)
      have hmin1 : min (distinct vs + 1) n = distinct vs + 1 := Nat.min_eq_left hd
      have hfl : ∀ i, i < n → s.frame_allocated[i]? = some (decide (i < distinct vs)) := by
        intro i hi; rw [h.flags i hi, hmin]
      refine hfin _ _ (allocate_frame_next _ r n (distinct vs) hd hfl) rfl rfl ?_ ?_ ?_ hd
        (fun _ => rfl)
      · simp [h.flags_len]
      · intro i hi
        simp only [hmin1]
        by_cases hid : distinct vs = i
        · subst hid
          rw [List.getElem?_set_self (by rw [h.flags_len]; exact hd)]
          simp
        · rw [List.getElem?_set_ne hid, hfl i hi]
          congr 1
          simp only [decide_eq_decide]
          omega
      · simp only [hmin1, h.alloc, hmin, List.range_succ]
    · have hmin : min (distinct vs) n = n := Nat.min_eq_right (by omega)
      have hmin1 : min (distinct vs + 1) n = n := Nat.min_eq_right (by omega)
      have hfl : ∀ i, i < n → s.frame_allocated[i]? = some true := by
        intro i hi; rw [h.flags i hi, hmin]; simp [hi]
      have hal : s.allocated_frames = List.range n := by rw [h.alloc, hmin]
      refine hfin _ _ (allocate_frame_reuse _ r n hn h.flags_len hfl hal) rfl rfl h.flags_len
        ?_ ?_ (Nat.mod_lt _ hn) (fun hc => absurd hc hd)
      · intro i hi
        rw [hmin1]
        simp only [hfl i hi, hi, decide_True]
      · rw [hmin1]; exact hal

/-- Every call of `translate` on a 32-bit address from a state satisfying the
invariant (with at least one frame) completes and re-establishes it. -/
theorem translate_step (n : Nat) (vs : List Nat) (s : State) (va r : Nat) (hn : 0 < n)
    (h : Inv n vs s) (hva : va < 2 ^ 32) : StepOK n vs s va r := by
  rcases lookup_cases s.tlb (get_vpn va) with ⟨hmiss, _⟩ | ⟨i, e, hi, hv, hvpn, hfirst, _⟩
  · exact step_miss n vs s va r hn h hva hmiss
  · exact step_hit n vs s va r i e h hi hv hvpn hfirst

/-! ## The invariant in reachable states and along a run -/

theorem reachable_inv (n : Nat) (s : State) (hn : 0 < n) (h : Reachable n s) :
    ∃ vs, Inv n vs s := by
  induction h with
  | init => exact ⟨[], inv_init n⟩
  | step s s1 va r t _ hva ht ih =>
    obtain ⟨vs, hinv⟩ := ih
    obtain ⟨s2, t2, ht2, hinv2, _⟩ := translate_step n vs s va r hn hinv hva
    rw [ht] at ht2
    simp only [Option.some.injEq, Prod.mk.injEq] at ht2
    rw [ht2.1]
    exact ⟨_, hinv2⟩

theorem vpnsOf_cons (va r : Nat) (rest : List (Nat × Nat)) :
    vpnsOf ((va, r) :: rest) = get_vpn va :: vpnsOf rest := rfl

/-- A run from a state satisfying the invariant completes; every call meets
`StepSpec` against the pages translated before it, and the faults are counted by
the growth of the number of distinct pages. -/
theorem run_spec (n : Nat) (hn : 0 < n) (inputs : List (Nat × Nat)) :
    ∀ (vs : List Nat) (s : State), Inv n vs s → (∀ x ∈ inputs, x.1 < 2 ^ 32) →
    ∃ s1 ts, run s inputs = some (s1, ts) ∧ Inv n (vs ++ vpnsOf inputs) s1 ∧
      ts.length = inputs.length ∧
      (∀ (i : Nat) (x : Nat × Nat) (t : Translation), inputs[i]? = some x → ts[i]? = some t →
        StepSpec n (vs ++ vpnsOf (inputs.take i)) x.1 t) ∧
      (ts.filter (fun t => t.fault)).length + distinct vs = distinct (vs ++ vpnsOf inputs) := by
  induction inputs with
  | nil =>
    intro vs s hinv _
    refine ⟨s, [], rfl, by simpa [vpnsOf] using hinv, rfl, ?_, by simp [vpnsOf]⟩
    intro i x t hx
    simp at hx
  | cons x0 rest ih =>
    intro vs s hinv h32
    obtain ⟨va, r⟩ := x0
    have hva : va < 2 ^ 32 := h32 (va, r) (by simp)
    obtain ⟨s1, t, ht, hinv1, hspec, _⟩ := translate_step n vs s va r hn hinv hva
    obtain ⟨s2, ts, hrun, hinv2, hlen, hidx, hcount⟩ :=
      ih (vs ++ [get_vpn va]) s1 hinv1 (fun x hx => h32 x (by simp [hx]))
    have happ : ∀ l : List Nat, vs ++ [get_vpn va] ++ l = vs ++ get_vpn va :: l := by
      intro l; simp
    refine ⟨s2, t :: ts, ?_, ?_, by simp [hlen], ?_, ?_⟩
    · simp only [run, ht, hrun]
    · rw [vpnsOf_cons, ← happ]; exact hinv2
    · intro i x t1 hx ht1
      cases i with
      | zero =>
        simp only [List.getElem?_cons_zero, Option.some.injEq] at hx ht1
        subst hx; subst ht1
        simpa [vpnsOf] using hspec
      | succ i =>
        simp only [List.getElem?_cons_succ] at hx ht1
        have := hidx i x t1 hx ht1
        rw [List.take_succ_cons, vpnsOf_cons, ← happ]
        exact this
    · rw [vpnsOf_cons, ← happ, ← hcount]
      by_cases hf : t.fault = true
      · have hnew : get_vpn va ∉ vs := hspec.2.1.mp hf
        rw [distinct_append_not_mem vs _ hnew]
        simp only [List.filter_cons, hf, if_true, List.length_cons]
        omega
      · have hmem : get_vpn va ∈ vs := by
          by_contra hc
          exact hf (hspec.2.1.mpr hc)
        rw [distinct_append_mem vs _ hmem]
        have hf1 : t.fault = false := by simpa using hf
        simp only [List.filter_cons, hf1, Bool.false_eq_true, if_false]

/-- A lookup that hits counts one hit. -/
theorem lookup_hits (t : TLB) (vpn pfn : Nat) (h : (t.lookup vpn).2 = some pfn) :
    (t.lookup vpn).1.hits = t.hits + 1 := by
  rcases lookup_cases t vpn with ⟨_, hl⟩ | ⟨i, e, _, _, _, _, hl⟩
  · rw [hl] at h; cases h
  · rw [hl]

/-! ## The three ways a call of `translate` can go -/

/-- The entry `translate` works with after its presence check is either the present
entry it found, or a fresh entry with an all-invalid table. -/
theorem effective_table_shape (n : Nat) (vs : List Nat) (s : State) (l1 : Nat)
    (pde0 : PageDirectoryEntry) (h : Inv n vs s) (hpd : s.page_directory[l1]? = some pde0) :
    ∃ table,
      (if !pde0.present then
          ({ present := true, pt := some (List.replicate PT_ENTRIES {}) } : PageDirectoryEntry)
        else pde0) = { present := true, pt := some table } ∧
      table.length = 1024 ∧
      (∀ v, v / 1024 = l1 → walk s.page_directory v = walkTable table (v % 1024)) ∧
      ((pde0 = { present := true, pt := some table }) ∨
        (pde0.present = false ∧ table = List.replicate PT_ENTRIES {})) := by
  cases hp : pde0.present with
  | false =>
    have hold : ∀ v, v / 1024 = l1 → walk s.page_directory v = none := by
      intro v hv
      unfold walk
      rw [hv, hpd]
      simp [hp]
    refine ⟨List.replicate PT_ENTRIES {}, if_pos rfl,
      by rw [List.length_replicate]; exact PT_ENTRIES_eq, ?_, Or.inr ⟨rfl, rfl⟩⟩
    intro v hv
    rw [hold v hv, walkTable_replicate]
  | true =>
    obtain ⟨tbl, hpt, hlen⟩ := h.tables l1 pde0 hpd hp
    have heq : pde0 = { present := true, pt := some tbl } := by
      cases pde0
      simp only at hp hpt
      simp [hp, hpt]
    refine ⟨tbl, by simpa using heq, hlen, ?_, Or.inl heq⟩
    intro v hv
    unfold walk
    rw [hv, hpd]
    simp [hp, hpt]

/-- From a state satisfying the invariant, `translate(va)` is a TLB hit, or a miss
that finds the page mapped, or a miss that faults; in each case the new state and
the result are given in closed form for every draw `r`. -/
theorem translate_cases (n : Nat) (vs : List Nat) (s : State) (va : Nat) (hn : 0 < n)
    (h : Inv n vs s) (hva : va < 2 ^ 32) :
    (∃ i e, s.tlb.entries[i]? = some e ∧ e.valid = true ∧ e.vpn = get_vpn va ∧
      (∀ j e1, j < i → s.tlb.entries[j]? = some e1 →
        ¬ (e1.valid = true ∧ e1.vpn = get_vpn va)) ∧
      get_vpn va ∈ vs ∧ walk s.page_directory (get_vpn va) = some e.pfn ∧
      ∀ r, translate s va r =
        some ({ s with
                tlb := { s.tlb with
                  entries := s.tlb.entries.set i
                    { e with timestamp := (s.tlb.clock + 1) % 2 ^ 64 }
                  clock := (s.tlb.clock + 1) % 2 ^ 64
                  hits := s.tlb.hits + 1 } },
              { ret := true, pa := mkPa e.pfn va, fault := false })) ∨
    ((∀ e ∈ s.tlb.entries, ¬ (e.valid = true ∧ e.vpn = get_vpn va)) ∧
      ∃ f, walk s.page_directory (get_vpn va) = some f ∧ get_vpn va ∈ vs ∧
      ∀ r, translate s va r =
        some ({ s with
                tlb := TLB.insert { s.tlb with misses := s.tlb.misses + 1 } (get_vpn va) f },
              { ret := true, pa := mkPa f va, fault := false })) ∨
    ((∀ e ∈ s.tlb.entries, ¬ (e.valid = true ∧ e.vpn = get_vpn va)) ∧
      walk s.page_directory (get_vpn va) = none ∧ get_vpn va ∉ vs ∧
      ∃ table pde0, table.length = 1024 ∧
        s.page_directory[get_vpn va / 1024]? = some pde0 ∧
        ((pde0 = { present := true, pt := some table }) ∨
          (pde0.present = false ∧ table = List.replicate PT_ENTRIES {})) ∧
        (∀ w, w / 1024 = get_vpn va / 1024 →
          walk s.page_directory w = walkTable table (w % 1024)) ∧
        ∀ r, translate s va r =
          some ({ page_directory := s.page_directory.set (get_vpn va / 1024)
                    { present := true,
                      pt := some (table.set (get_vpn va % 1024)
                        { valid := true,
                          frame := if distinct vs < n then distinct vs else r % n }) }
                  frame_allocated :=
                    if distinct vs < n then s.frame_allocated.set (distinct vs) true
                    else s.frame_allocated
                  allocated_frames :=
                    if distinct vs < n then s.allocated_frames ++ [distinct vs]
                    else s.allocated_frames
                  tlb := TLB.insert { s.tlb with misses := s.tlb.misses + 1 } (get_vpn va)
                    (if distinct vs < n then distinct vs else r % n) },
                { ret := true
                  pa := mkPa (if distinct vs < n then distinct vs else r % n) va
                  fault := true })) := by
  rcases lookup_cases s.tlb (get_vpn va) with ⟨hmiss, hl⟩ | ⟨i, e, hi, hv, hvpn, hfirst, hl⟩
  · right
    have hl1 : get_l1_index va = get_vpn va / 1024 := get_l1_index_vpn va hva
    have hl2 : get_l2_index va = get_vpn va % 1024 := get_l2_index_vpn va
    have hvpn : get_vpn va / 1024 < 1024 := by
      have := get_vpn_lt va hva
      omega
    have hlt : get_vpn va / 1024 < s.page_directory.length := by rw [h.pd_len]; exact hvpn
    have hpd := List.getElem?_eq_getElem hlt
    obtain ⟨table, hpde, hTlen, hT, hshape⟩ := effective_table_shape n vs s _ _ h hpd
    have hlt2 : get_vpn va % 1024 < table.length := by
      rw [hTlen]; exact Nat.mod_lt _ (by norm_num)
    have hpte := List.getElem?_eq_getElem hlt2
    have hwalk : walk s.page_directory (get_vpn va) = walkTable table (get_vpn va % 1024) :=
      hT _ rfl
    cases hv : (table[get_vpn va % 1024]).valid with
    | true =>
      left
      have hw : walk s.page_directory (get_vpn va) = some (table[get_vpn va % 1024]).frame := by
        rw [hwalk]; unfold walkTable; rw [hpte]; simp [hv]
      have hmem : get_vpn va ∈ vs := (h.mapped _).mp (by rw [hw]; rfl)
      have hpres : s.page_directory[get_vpn va / 1024] =
          { present := true, pt := some table } := by
        rcases hshape with hs | ⟨_, hs⟩
        · exact hs
        · exfalso
          have : walkTable table (get_vpn va % 1024) = none := by
            rw [hs]; exact walkTable_replicate _
          rw [hwalk, this] at hw
          cases hw
      refine ⟨hmiss, _, hw, hmem, ?_⟩
      intro r
      have ht := translate_of_miss_valid s va r _ _ table _ hl (by rw [hl1]; exact hpd)
        (by rw [hpde]) (by rw [hl2]; exact hpte) hv
      rw [hl1, hpde, ← hpres, set_getElem?_self _ _ _ hpd] at ht
      exact ht
    | false =>
      right
      have hw : walk s.page_directory (get_vpn va) = none := by
        rw [hwalk]; unfold walkTable; rw [hpte]; simp [hv]
      have hnew : get_vpn va ∉ vs := by
        intro hc
        have := (h.mapped _).mpr hc
        rw [hw] at this
        cases this
      refine ⟨hmiss, hw, hnew, table, _, hTlen, hpd, hshape, hT, ?_⟩
      intro r
      by_cases hd : distinct vs < n
      · have hmin : min (distinct vs) n = distinct vs := Nat.min_eq_left (le_of_lt hd)
        have hfl : ∀ i, i < n → s.frame_allocated[i]? = some (decide (i < distinct vs)) := by
          intro i hi; rw [h.flags i hi, hmin]
        have ha := allocate_frame_next
          { s with
            page_directory := s.page_directory.set (get_vpn va / 1024)
              { present := true, pt := some table }
            tlb := { s.tlb with misses := s.tlb.misses + 1 } } r n (distinct vs) hd hfl
        have ht := translate_of_miss_fault s va r _ _ table _ _ _ hl (by rw [hl1]; exact hpd)
          (by rw [hpde]) (by rw [hl2]; exact hpte) hv (by rw [hl1, hpde]; exact ha)
        rw [hl1, hl2, hpde, List.set_set] at ht
        simp only [if_pos hd]
        exact ht
      · have hmin : min (distinct vs) n = n := Nat.min_eq_right (by omega)
        have hfl : ∀ i, i < n → s.frame_allocated[i]? = some true := by
          intro i hi; rw [h.flags i hi, hmin]; simp [hi]
        have hal : s.allocated_frames = List.range n := by rw [h.alloc, hmin]
        have ha := allocate_frame_reuse
          { s with
            page_directory := s.page_directory.set (get_vpn va / 1024)
              { present := true, pt := some table }
            tlb := { s.tlb with misses := s.tlb.misses + 1 } } r n hn h.flags_len hfl hal
        have ht := translate_of_miss_fault s va r _ _ table _ _ _ hl (by rw [hl1]; exact hpd)
          (by rw [hpde]) (by rw [hl2]; exact hpte) hv (by rw [hl1, hpde]; exact ha)
        rw [hl1, hl2, hpde, List.set_set] at ht
        simp only [if_neg hd]
        exact ht
  · left
    have hw : walk s.page_directory (get_vpn va) = some e.pfn := by
      rw [← hvpn]; exact h.tlb_agrees e (List.getElem?_mem hi) hv
    have hmem : get_vpn va ∈ vs := (h.mapped _).mp (by rw [hw]; rfl)
    exact ⟨i, e, hi, hv, hvpn, hfirst, hmem, hw, fun r => translate_of_hit s va r _ _ hl⟩

/-! ## Consequences of the case analysis -/

theorem walk_eq_some (pd : List PageDirectoryEntry) (v f : Nat) :
    walk pd v = some f ↔
      ∃ pde table pte, pd[v / 1024]? = some pde ∧ pde.present = true ∧
        pde.pt = some table ∧ table[v % 1024]? = some pte ∧ pte.valid = true ∧
        pte.frame = f := by
  unfold walk walkTable
  constructor
  · intro h
    cases hpd : pd[v / 1024]? with
    | none => rw [hpd] at h; cases h
    | some pde =>
      rw [hpd] at h
      simp only at h
      cases hp : pde.present with
      | false => rw [hp] at h; simp at h
      | true =>
        rw [hp] at h
        simp only [if_true] at h
        cases hpt : pde.pt with
        | none => rw [hpt] at h; cases h
        | some table =>
          rw [hpt] at h
          simp only at h
          cases hte : table[v % 1024]? with
          | none => rw [hte] at h; cases h
          | some pte =>
            rw [hte] at h
            simp only at h
            cases hv : pte.valid with
            | false => rw [hv] at h; simp at h
            | true =>
              rw [hv] at h
              simp only [if_true, Option.some.injEq] at h
              exact ⟨pde, table, pte, rfl, hp, hpt, hte, hv, h⟩
  · rintro ⟨pde, table, pte, hpd, hp, hpt, hte, hv, hf⟩
    rw [hpd]
    simp only [hp, if_true, hpt, hte, hv, hf]

/-- How the page table reads after a call: nothing changes unless the call faults,
and then only the faulting page gains a frame. -/
theorem translate_walk (n : Nat) (vs : List Nat) (s s1 : State) (va r : Nat)
    (t : Translation) (hn : 0 < n) (h : Inv n vs s) (hva : va < 2 ^ 32)
    (ht : translate s va r = some (s1, t)) :
    (t.fault = false ∧ ∀ v, walk s1.page_directory v = walk s.page_directory v) ∨
    (t.fault = true ∧ walk s.page_directory (get_vpn va) = none ∧
      ∃ pfn, pfn < n ∧ (distinct vs < n → pfn = distinct vs) ∧
        (n ≤ distinct vs → pfn = r % n) ∧
        ∀ v, walk s1.page_directory v =
          if v = get_vpn va then some pfn else walk s.page_directory v) := by
  rcases translate_cases n vs s va hn h hva with
    ⟨i, e, _, _, _, _, _, _, hA⟩ | ⟨_, f, _, _, hB⟩ | ⟨_, hw, _, table, pde0, hlen, _, _, hT, hC⟩
  · rw [hA r] at ht
    simp only [Option.some.injEq, Prod.mk.injEq] at ht
    left
    rw [← ht.1, ← ht.2]
    exact ⟨rfl, fun v => rfl⟩
  · rw [hB r] at ht
    simp only [Option.some.injEq, Prod.mk.injEq] at ht
    left
    rw [← ht.1, ← ht.2]
    exact ⟨rfl, fun v => rfl⟩
  · rw [hC r] at ht
    simp only [Option.some.injEq, Prod.mk.injEq] at ht
    right
    rw [← ht.1, ← ht.2]
    refine ⟨rfl, hw, (if distinct vs < n then distinct vs else r % n), ?_, ?_, ?_, ?_⟩
    · by_cases hd : distinct vs < n
      · rw [if_pos hd]; exact hd
      · rw [if_neg hd]; exact Nat.mod_lt _ hn
    · intro hd; rw [if_pos hd]
    · intro hd; rw [if_neg (by omega)]
    · intro v
      have hvl : get_vpn va / 1024 < s.page_directory.length := by
        rw [h.pd_len]
        have := get_vpn_lt va hva
        omega
      exact walk_after_fault s.page_directory table (get_vpn va) _ v hvl
        (by rw [hlen]; exact Nat.mod_lt _ (by norm_num)) hT

/-! ## Duplicates in the TLB -/

theorem noDup_touch (t t1 : TLB) (i c : Nat) (e : TLBEntry) (hi : t.entries[i]? = some e)
    (h1 : t1.entries = t.entries.set i { e with timestamp := c }) (h : t.noDup) :
    t1.noDup := by
  have key : ∀ (a : Nat) (x : TLBEntry), t1.entries[a]? = some x →
      ∃ y, t.entries[a]? = some y ∧ y.valid = x.valid ∧ y.vpn = x.vpn := by
    intro a x hx
    rw [h1] at hx
    by_cases ha : i = a
    · subst ha
      have hlt : i < t.entries.length := by
        by_contra hc
        rw [List.getElem?_eq_none (by omega)] at hi
        cases hi
      rw [List.getElem?_set_self hlt] at hx
      rw [← Option.some.inj hx]
      exact ⟨e, hi, rfl, rfl⟩
    · rw [List.getElem?_set_ne ha] at hx
      exact ⟨x, hx, rfl, rfl⟩
  intro a b x1 x2 hx1 hx2 hv1 hv2 hvpn
  obtain ⟨y1, hy1, hyv1, hyp1⟩ := key a x1 hx1
  obtain ⟨y2, hy2, hyv2, hyp2⟩ := key b x2 hx2
  exact h a b y1 y2 hy1 hy2 (by rw [hyv1, hv1]) (by rw [hyv2, hv2]) (by rw [hyp1, hyp2, hvpn])

theorem noDup_insert (t t1 : TLB) (vpn pfn j c : Nat)
    (h1 : t1.entries = t.entries.set j { vpn := vpn, pfn := pfn, timestamp := c, valid := true })
    (hmiss : ∀ e ∈ t.entries, ¬ (e.valid = true ∧ e.vpn = vpn)) (h : t.noDup) :
    t1.noDup := by
  intro a b x1 x2 hx1 hx2 hv1 hv2 hvpn
  rw [h1] at hx1 hx2
  by_cases ha : j = a
  · by_cases hb : j = b
    · rw [← ha, ← hb]
    · exfalso
      subst ha
      rw [List.getElem?_set_ne hb] at hx2
      have hx := List.mem_or_eq_of_mem_set (List.getElem?_mem hx1)
      rcases hx with hx | hx
      · exact hmiss x2 (List.getElem?_mem hx2)
          ⟨hv2, by
            have hlt : j < t.entries.length := by
              by_contra hc
              rw [List.set_eq_of_length_le (by omega)] at hx1
              rw [List.getElem?_eq_none (by omega)] at hx1
              cases hx1
            rw [List.getElem?_set_self hlt] at hx1
            rw [← hvpn, ← Option.some.inj hx1]⟩
      · exact hmiss x2 (List.getElem?_mem hx2) ⟨hv2, by rw [← hvpn, hx]⟩
  · by_cases hb : j = b
    · exfalso
      subst hb
      rw [List.getElem?_set_ne ha] at hx1
      have hlt : j < t.entries.length := by
        by_contra hc
        rw [List.set_eq_of_length_le (by omega)] at hx2
        rw [List.getElem?_eq_none (by omega)] at hx2
        cases hx2
      rw [List.getElem?_set_self hlt] at hx2
      exact hmiss x1 (List.getElem?_mem hx1) ⟨hv1, by rw [hvpn, ← Option.some.inj hx2]⟩
    · rw [List.getElem?_set_ne ha] at hx1
      rw [List.getElem?_set_ne hb] at hx2
      exact h a b x1 x2 hx1 hx2 hv1 hv2 hvpn

/-! ## The further invariant along `translate` -/

theorem inv2_init (n : Nat) : Inv2 n [] (initState n) where
  dir := by
    intro d pde hd
    have hm := List.getElem?_mem hd
    simp only [initState, List.mem_replicate] at hm
    rw [hm.2]
    simp
  held := by
    intro k hk
    simp [distinct] at hk
  nodup := by
    intro i j e1 e2 h1 _ hv1
    have hm := List.getElem?_mem h1
    simp only [initState, TLB.empty, List.mem_replicate] at hm
    rw [hm.2] at hv1
    cases hv1

theorem inv2_step (n : Nat) (vs : List Nat) (s s1 : State) (va r : Nat) (t : Translation)
    (hn : 0 < n) (h : Inv n vs s) (h2 : Inv2 n vs s) (hva : va < 2 ^ 32)
    (ht : translate s va r = some (s1, t)) : Inv2 n (vs ++ [get_vpn va]) s1 := by
  have hwalk := translate_walk n vs s s1 va r t hn h hva ht
  have hvl : get_vpn va / 1024 < s.page_directory.length := by
    rw [h.pd_len]
    have := get_vpn_lt va hva
    omega
  have hheld : ∀ k, k < min (distinct (vs ++ [get_vpn va])) n →
      ∃ v, walk s1.page_directory v = some k := by
    intro k hk
    rcases hwalk with ⟨hf, hsame⟩ | ⟨hf, hnone, pfn, hlt, hpfn, _, hnew⟩
    · have hmem : get_vpn va ∈ vs := by
        rcases translate_step n vs s va r hn h hva with ⟨s2, t2, ht2, _, hspec, _⟩
        rw [ht] at ht2
        simp only [Option.some.injEq, Prod.mk.injEq] at ht2
        by_contra hc
        have := hspec.2.1.mpr hc
        rw [← ht2.2, hf] at this
        cases this
      rw [distinct_append_mem vs _ hmem] at hk
      obtain ⟨v, hv⟩ := h2.held k hk
      exact ⟨v, by rw [hsame v]; exact hv⟩
    · have hnmem : get_vpn va ∉ vs := by
        intro hc
        have := (h.mapped _).mpr hc
        rw [hnone] at this
        cases this
      rw [distinct_append_not_mem vs _ hnmem] at hk
      by_cases hk2 : k < min (distinct vs) n
      · obtain ⟨v, hv⟩ := h2.held k hk2
        have hne : v ≠ get_vpn va := by
          intro hc; rw [hc, hnone] at hv; cases hv
        exact ⟨v, by rw [hnew v, if_neg hne]; exact hv⟩
      · have hkd : k = distinct vs := by omega
        have hd : distinct vs < n := by omega
        exact ⟨get_vpn va, by rw [hnew _, if_pos rfl, hpfn hd, hkd]⟩
  rcases translate_cases n vs s va hn h hva with
    ⟨i, e, hi, _, _, _, hmem, _, hA⟩ | ⟨hmiss, f, _, hmem, hB⟩ |
    ⟨hmiss, _, hnmem, table, pde0, _, hpd0, _, _, hC⟩
  · rw [hA r] at ht
    simp only [Option.some.injEq, Prod.mk.injEq] at ht
    refine ⟨?_, hheld, ?_⟩
    · intro d pde hd
      rw [← ht.1] at hd
      rw [h2.dir d pde hd]
      constructor
      · rintro ⟨v, hv, hvd⟩; exact ⟨v, by simp [hv], hvd⟩
      · rintro ⟨v, hv, hvd⟩
        simp only [List.mem_append, List.mem_singleton] at hv
        rcases hv with hv | rfl
        · exact ⟨v, hv, hvd⟩
        · exact ⟨_, hmem, hvd⟩
    · rw [← ht.1]
      exact noDup_touch s.tlb _ i _ e hi rfl h2.nodup
  · rw [hB r] at ht
    simp only [Option.some.injEq, Prod.mk.injEq] at ht
    refine ⟨?_, hheld, ?_⟩
    · intro d pde hd
      rw [← ht.1] at hd
      rw [h2.dir d pde hd]
      constructor
      · rintro ⟨v, hv, hvd⟩; exact ⟨v, by simp [hv], hvd⟩
      · rintro ⟨v, hv, hvd⟩
        simp only [List.mem_append, List.mem_singleton] at hv
        rcases hv with hv | rfl
        · exact ⟨v, hv, hvd⟩
        · exact ⟨_, hmem, hvd⟩
    · rw [← ht.1]
      exact noDup_insert s.tlb _ (get_vpn va) f _ _ rfl hmiss h2.nodup
  · rw [hC r] at ht
    simp only [Option.some.injEq, Prod.mk.injEq] at ht
    refine ⟨?_, hheld, ?_⟩
    · intro d pde hd
      rw [← ht.1] at hd
      simp only at hd
      by_cases hdl : get_vpn va / 1024 = d
      · subst hdl
        rw [List.getElem?_set_self hvl] at hd
        rw [← Option.some.inj hd]
        simp only [true_iff]
        exact ⟨get_vpn va, by simp, rfl⟩
      · rw [List.getElem?_set_ne hdl] at hd
        rw [h2.dir d pde hd]
        constructor
        · rintro ⟨v, hv, hvd⟩; exact ⟨v, by simp [hv], hvd⟩
        · rintro ⟨v, hv, hvd⟩
          simp only [List.mem_append, List.mem_singleton] at hv
          rcases hv with hv | rfl
          · exact ⟨v, hv, hvd⟩
          · exact absurd hvd hdl
    · rw [← ht.1]
      exact noDup_insert s.tlb _ (get_vpn va) _ _ _ rfl hmiss h2.nodup

/-- Both invariants hold, for some history of pages, in every reachable state. -/
theorem reachable_inv2 (n : Nat) (s : State) (hn : 0 < n) (h : Reachable n s) :
    ∃ vs, Inv n vs s ∧ Inv2 n vs s := by
  induction h with
  | init => exact ⟨[], inv_init n, inv2_init n⟩
  | step s s1 va r t _ hva ht ih =>
    obtain ⟨vs, hinv, hinv2⟩ := ih
    obtain ⟨s2, t2, ht2, hinv1, _⟩ := translate_step n vs s va r hn hinv hva
    have h2 := inv2_step n vs s s1 va r t hn hinv hinv2 hva ht
    rw [ht] at ht2
    simp only [Option.some.injEq, Prod.mk.injEq] at ht2
    rw [ht2.1]
    rw [ht2.1] at h2
    exact ⟨_, hinv1, h2⟩

/-- Both invariants hold at the end of a run, for the pages of the run. -/
theorem run_inv2 (n : Nat) (hn : 0 < n) (inputs : List (Nat × Nat)) :
    ∀ (vs : List Nat) (s : State), Inv n vs s → Inv2 n vs s →
      (∀ x ∈ inputs, x.1 < 2 ^ 32) →
      ∃ s1 ts, run s inputs = some (s1, ts) ∧ Inv n (vs ++ vpnsOf inputs) s1 ∧
        Inv2 n (vs ++ vpnsOf inputs) s1 := by
  induction inputs with
  | nil =>
    intro vs s hinv hinv2 _
    exact ⟨s, [], rfl, by simpa [vpnsOf] using hinv, by simpa [vpnsOf] using hinv2⟩
  | cons x0 rest ih =>
    intro vs s hinv hinv2 h32
    obtain ⟨va, r⟩ := x0
    have hva : va < 2 ^ 32 := h32 (va, r) (by simp)
    obtain ⟨s1, t, ht, hinv1, _⟩ := translate_step n vs s va r hn hinv hva
    have h2 := inv2_step n vs s s1 va r t hn hinv hinv2 hva ht
    obtain ⟨s2, ts, hrun, hi1, hi2⟩ :=
      ih (vs ++ [get_vpn va]) s1 hinv1 h2 (fun x hx => h32 x (by simp [hx]))
    have happ : vs ++ [get_vpn va] ++ vpnsOf rest = vs ++ vpnsOf ((va, r) :: rest) := by
      simp [vpnsOf]
    refine ⟨s2, t :: ts, by simp only [run, ht, hrun], ?_, ?_⟩
    · rw [← happ]; exact hi1
    · rw [← happ]; exact hi2

/-! ## States after a run are reachable -/

theorem run_reachable (n : Nat) (hn : 0 < n) (inputs : List (Nat × Nat)) :
    ∀ s : State, Reachable n s → (∀ x ∈ inputs, x.1 < 2 ^ 32) →
      ∃ s1 ts, run s inputs = some (s1, ts) ∧ Reachable n s1 := by
  induction inputs with
  | nil => intro s hs _; exact ⟨s, [], rfl, hs⟩
  | cons x rest ih =>
    intro s hs h32
    obtain ⟨va, r⟩ := x
    have hva : va < 2 ^ 32 := h32 (va, r) (by simp)
    obtain ⟨vs, hinv⟩ := reachable_inv n s hn hs
    obtain ⟨s1, t, ht, _⟩ := translate_step n vs s va r hn hinv hva
    obtain ⟨s2, ts, hrun, hr⟩ := ih s1 (Reachable.step s s1 va r t hs hva ht)
      (fun x hx => h32 x (by simp [hx]))
    exact ⟨s2, t :: ts, by simp only [run, ht, hrun], hr⟩

theorem stateAfter_reachable (n : Nat) (hn : 0 < n) (inputs : List (Nat × Nat))
    (h32 : ∀ x ∈ inputs, x.1 < 2 ^ 32) : Reachable n (stateAfter n inputs) := by
  obtain ⟨s1, ts, hrun, hr⟩ := run_reachable n hn inputs (initState n) Reachable.init h32
  unfold stateAfter
  rw [hrun]
  exact hr

/-- What a call does to the page directory: an entry that is present stays present
with its table, which at most gains the faulting entry; an absent entry stays as it
is unless it is the entry indexed by `va`, which then gets a fresh table holding
only the faulting entry. -/
theorem translate_dir (n : Nat) (vs : List Nat) (s s1 : State) (va r : Nat)
    (t : Translation) (hn : 0 < n) (h : Inv n vs s) (hva : va < 2 ^ 32)
    (ht : translate s va r = some (s1, t)) (d : Nat) (pde : PageDirectoryEntry)
    (hd : s.page_directory[d]? = some pde) :
    (pde.present = true → ∃ table table1, pde.pt = some table ∧
      s1.page_directory[d]? = some { present := true, pt := some table1 } ∧
      (table1 = table ∨
        ∃ pfn pte, d = get_l1_index va ∧ t.fault = true ∧
          table[get_l2_index va]? = some pte ∧ pte.valid = false ∧
          table1 = table.set (get_l2_index va) { valid := true, frame := pfn })) ∧
    (pde.present = false →
      s1.page_directory[d]? = some pde ∨
      (d = get_l1_index va ∧ t.fault = true ∧
        ∃ pfn, s1.page_directory[d]? =
          some { present := true,
                 pt := some ((List.replicate PT_ENTRIES {}).set (get_l2_index va)
                   { valid := true, frame := pfn }) })) := by
  have hl1 : get_l1_index va = get_vpn va / 1024 := get_l1_index_vpn va hva
  have hl2 : get_l2_index va = get_vpn va % 1024 := get_l2_index_vpn va
  have hvl : get_vpn va / 1024 < s.page_directory.length := by
    rw [h.pd_len]
    have := get_vpn_lt va hva
    omega
  have hsame : s1.page_directory = s.page_directory →
      (pde.present = true → ∃ table table1, pde.pt = some table ∧
        s1.page_directory[d]? = some { present := true, pt := some table1 } ∧
        (table1 = table ∨
          ∃ pfn pte, d = get_l1_index va ∧ t.fault = true ∧
            table[get_l2_index va]? = some pte ∧ pte.valid = false ∧
            table1 = table.set (get_l2_index va) { valid := true, frame := pfn })) ∧
      (pde.present = false →
        s1.page_directory[d]? = some pde ∨
        (d = get_l1_index va ∧ t.fault = true ∧
          ∃ pfn, s1.page_directory[d]? =
            some { present := true,
                   pt := some ((List.replicate PT_ENTRIES {}).set (get_l2_index va)
                     { valid := true, frame := pfn }) })) := by
    intro hpd
    constructor
    · intro hp
      obtain ⟨tbl, hpt, _⟩ := h.tables d pde hd hp
      refine ⟨tbl, tbl, hpt, ?_, Or.inl rfl⟩
      rw [hpd, hd]
      cases pde
      simp only at hp hpt
      simp [hp, hpt]
    · intro _
      left
      rw [hpd]; exact hd
  rcases translate_cases n vs s va hn h hva with
    ⟨i, e, _, _, _, _, _, _, hA⟩ | ⟨_, f, _, _, hB⟩ |
    ⟨_, hw, _, table, pde0, hlen, hpd0, hshape, hT, hC⟩
  · rw [hA r] at ht
    simp only [Option.some.injEq, Prod.mk.injEq] at ht
    exact hsame (by rw [← ht.1])
  · rw [hB r] at ht
    simp only [Option.some.injEq, Prod.mk.injEq] at ht
    exact hsame (by rw [← ht.1])
  · rw [hC r] at ht
    simp only [Option.some.injEq, Prod.mk.injEq] at ht
    have hfault : t.fault = true := by rw [← ht.2]
    have hpd1 : s1.page_directory = s.page_directory.set (get_vpn va / 1024)
        { present := true,
          pt := some (table.set (get_vpn va % 1024)
            { valid := true,
              frame := if distinct vs < n then distinct vs else r % n }) } := by
      rw [← ht.1]
    by_cases hdl : get_vpn va / 1024 = d
    · subst hdl
      rw [hpd0] at hd
      have hpde : pde0 = pde := Option.some.inj hd
      subst hpde
      have hnew : s1.page_directory[get_vpn va / 1024]? =
          some { present := true,
                 pt := some (table.set (get_vpn va % 1024)
                   { valid := true,
                     frame := if distinct vs < n then distinct vs else r % n }) } := by
        rw [hpd1, List.getElem?_set_self hvl]
      have hlt2 : get_vpn va % 1024 < table.length := by
        rw [hlen]; exact Nat.mod_lt _ (by norm_num)
      constructor
      · intro hp
        rcases hshape with hs | ⟨hs, _⟩
        · refine ⟨table, _, by rw [hs], hnew,
            Or.inr ⟨(if distinct vs < n then distinct vs else r % n),
              table[get_vpn va % 1024], hl1.symm,
            hfault, by rw [hl2]; exact List.getElem?_eq_getElem hlt2, ?_, by rw [hl2]⟩⟩
          have hwt := hT (get_vpn va) rfl
          rw [hw] at hwt
          unfold walkTable at hwt
          rw [List.getElem?_eq_getElem hlt2] at hwt
          simp only at hwt
          cases hv : (table[get_vpn va % 1024]).valid with
          | false => rfl
          | true => rw [hv] at hwt; simp at hwt
        · rw [hs] at hp; cases hp
      · intro hp
        right
        rcases hshape with hs | ⟨_, hs⟩
        · rw [hs] at hp; cases hp
        · refine ⟨hl1.symm, hfault, (if distinct vs < n then distinct vs else r % n), ?_⟩
          rw [hnew, hs, hl2]
    · have hold : s1.page_directory[d]? = s.page_directory[d]? := by
        rw [hpd1, List.getElem?_set_ne hdl]
      constructor
      · intro hp
        obtain ⟨tbl, hpt, _⟩ := h.tables d pde hd hp
        refine ⟨tbl, tbl, hpt, ?_, Or.inl rfl⟩
        rw [hold, hd]
        cases pde
        simp only at hp hpt
        simp [hp, hpt]
      · intro _
        left
        rw [hold]; exact hd

/-! ## Independence of the draws while frames remain -/

theorem distinct_prefix_le (vs rest : List Nat) (v : Nat) :
    distinct (vs ++ [v]) ≤ distinct (vs ++ v :: rest) := by
  unfold distinct
  apply Finset.card_le_card
  intro x hx
  simp only [List.mem_toFinset, List.mem_append, List.mem_cons, List.not_mem_nil,
    or_false] at hx ⊢
  rcases hx with hx | hx
  · exact Or.inl hx
  · exact Or.inr (Or.inl hx)

/-- While the pages seen, the translated one included, number at most `n`, the
draw has no influence on the call. -/
theorem translate_draw_irrelevant (n : Nat) (vs : List Nat) (s : State) (va r1 r2 : Nat)
    (hn : 0 < n) (h : Inv n vs s) (hva : va < 2 ^ 32)
    (hd : distinct (vs ++ [get_vpn va]) ≤ n) :
    translate s va r1 = translate s va r2 := by
  rcases translate_cases n vs s va hn h hva with
    ⟨i, e, _, _, _, _, _, _, hA⟩ | ⟨_, f, _, _, hB⟩ | ⟨_, _, hnew, table, pde0, _, _, _, _, hC⟩
  · rw [hA r1, hA r2]
  · rw [hB r1, hB r2]
  · rw [distinct_append_not_mem vs _ hnew] at hd
    have hlt : distinct vs < n := by omega
    rw [hC r1, hC r2]
    simp only [if_pos hlt]

theorem run_draw_irrelevant (n : Nat) (hn : 0 < n) (inputs1 : List (Nat × Nat)) :
    ∀ (inputs2 : List (Nat × Nat)) (vs : List Nat) (s : State), Inv n vs s →
      inputs1.map (fun x => x.1) = inputs2.map (fun x => x.1) →
      (∀ x ∈ inputs1, x.1 < 2 ^ 32) → distinct (vs ++ vpnsOf inputs1) ≤ n →
      run s inputs1 = run s inputs2 := by
  induction inputs1 with
  | nil =>
    intro inputs2 vs s _ hmap _ _
    cases inputs2 with
    | nil => rfl
    | cons y rest2 => simp at hmap
  | cons x rest ih =>
    intro inputs2 vs s hinv hmap h32 hd
    cases inputs2 with
    | nil => simp at hmap
    | cons y rest2 =>
      obtain ⟨va, r1⟩ := x
      obtain ⟨va2, r2⟩ := y
      simp only [List.map_cons, List.cons.injEq] at hmap
      obtain ⟨hva2, hrest⟩ := hmap
      subst hva2
      have hva : va < 2 ^ 32 := h32 (va, r1) (by simp)
      have hd1 : distinct (vs ++ [get_vpn va]) ≤ n :=
        le_trans (distinct_prefix_le vs (vpnsOf rest) (get_vpn va)) hd
      obtain ⟨s1, t, ht, hinv1, _⟩ := translate_step n vs s va r1 hn hinv hva
      have ht2 : translate s va r2 = some (s1, t) := by
        rw [← translate_draw_irrelevant n vs s va r1 r2 hn hinv hva hd1]; exact ht
      have hrun := ih rest2 (vs ++ [get_vpn va]) s1 hinv1 hrest
        (fun x hx => h32 x (by simp [hx])) (by
          have : vs ++ [get_vpn va] ++ vpnsOf rest = vs ++ vpnsOf ((va, r1) :: rest) := by
            simp [vpnsOf]
          rw [this]; exact hd)
      simp only [run, ht, ht2, hrun]

/-! ## Exhaustion of the frame pool -/

/-- More distinct pages than frames: two mapped pages share a frame. -/
theorem shared_frame (n : Nat) (vs : List Nat) (s : State) (h : Inv n vs s)
    (hmore : n < distinct vs) :
    ∃ v w f, v ≠ w ∧ walk s.page_directory v = some f ∧ walk s.page_directory w = some f := by
  have hmaps : ∀ v ∈ vs.toFinset,
      (walk s.page_directory v).getD 0 ∈ Finset.range n := by
    intro v hv
    have hmem : v ∈ vs := List.mem_toFinset.mp hv
    have hsome := (h.mapped v).mpr hmem
    cases hw : walk s.page_directory v with
    | none => rw [hw] at hsome; cases hsome
    | some f =>
      simp only [Option.getD_some, Finset.mem_range]
      exact h.frames_lt v f hw
  have hcard : (Finset.range n).card < vs.toFinset.card := by
    rw [Finset.card_range]; exact hmore
  obtain ⟨v, hv, w, hw, hne, heq⟩ := Finset.exists_ne_map_eq_of_card_lt_of_maps_to hcard hmaps
  have hv1 := (h.mapped v).mpr (List.mem_toFinset.mp hv)
  have hw1 := (h.mapped w).mpr (List.mem_toFinset.mp hw)
  cases hwv : walk s.page_directory v with
  | none => rw [hwv] at hv1; cases hv1
  | some f =>
    cases hww : walk s.page_directory w with
    | none => rw [hww] at hw1; cases hw1
    | some g =>
      rw [hwv, hww] at heq
      simp only [Option.getD_some] at heq
      exact ⟨v, w, f, hne, hwv, by rw [hww, heq]⟩

/-- When every frame is marked allocated, at least `n` distinct pages have been seen. -/
theorem exhausted_distinct (n : Nat) (vs : List Nat) (s : State) (hn : 0 < n)
    (h : Inv n vs s) (hfull : ∀ b ∈ s.frame_allocated, b = true) : n ≤ distinct vs := by
  have hlast := h.flags (n - 1) (by omega)
  have h1 := hfull _ (List.getElem?_mem hlast)
  have hmin : n - 1 < min (distinct vs) n := by simpa using h1
  omega

/-- A fault with the pool exhausted: the new page gets frame `r % n`, which some
other page already holds and keeps; the TLB changes only in the slot that `insert`
selects. -/
theorem fault_when_exhausted (n : Nat) (vs : List Nat) (s : State) (va r : Nat) (hn : 0 < n)
    (h : Inv n vs s) (h2 : Inv2 n vs s) (hva : va < 2 ^ 32)
    (hfull : ∀ b ∈ s.frame_allocated, b = true)
    (hnew : walk s.page_directory (get_vpn va) = none) :
    ∃ s1 t, translate s va r = some (s1, t) ∧ t.fault = true ∧ t.pa = mkPa (r % n) va ∧
      walk s1.page_directory (get_vpn va) = some (r % n) ∧
      (∃ p, p ≠ get_vpn va ∧ walk s.page_directory p = some (r % n) ∧
        walk s1.page_directory p = some (r % n)) ∧
      s1.tlb.entries = s.tlb.entries.set s.tlb.victim
        { vpn := get_vpn va, pfn := r % n, timestamp := (s.tlb.clock + 1) % 2 ^ 64,
          valid := true } ∧
      s1.frame_allocated = s.frame_allocated ∧ s1.allocated_frames = s.allocated_frames := by
  have hd := exhausted_distinct n vs s hn h hfull
  have hnd : ¬ distinct vs < n := by omega
  have hvl : get_vpn va / 1024 < s.page_directory.length := by
    rw [h.pd_len]
    have := get_vpn_lt va hva
    omega
  rcases translate_cases n vs s va hn h hva with
    ⟨i, e, _, _, _, _, _, hw, _⟩ | ⟨_, f, hw, _, _⟩ | ⟨_, _, _, table, pde0, hlen, _, _, hT, hC⟩
  · rw [hnew] at hw; cases hw
  · rw [hnew] at hw; cases hw
  · have hwalk : ∀ v, walk (s.page_directory.set (get_vpn va / 1024)
          { present := true,
            pt := some (table.set (get_vpn va % 1024) { valid := true, frame := r % n }) }) v =
        if v = get_vpn va then some (r % n) else walk s.page_directory v := fun v =>
      walk_after_fault s.page_directory table (get_vpn va) _ v hvl
        (by rw [hlen]; exact Nat.mod_lt _ (by norm_num)) hT
    have ht := hC r
    simp only [if_neg hnd] at ht
    obtain ⟨p, hp⟩ := h2.held (r % n) (by
      rw [Nat.min_eq_right hd]; exact Nat.mod_lt _ hn)
    have hpne : p ≠ get_vpn va := by
      intro hc; rw [hc, hnew] at hp; cases hp
    refine ⟨_, _, ht, rfl, rfl, ?_, ⟨p, hpne, hp, ?_⟩, rfl, rfl, rfl⟩
    · simp only [hwalk, if_pos]
    · simp only [hwalk, if_neg hpne]; exact hp

/-! ## Timestamps without wrap-around -/

/-- Writing a valid entry stamped `clock + 1` into any slot keeps the timestamp
invariant, with the clock advanced to `clock + 1`. -/
theorem tsInv_write (t t1 : TLB) (j : Nat) (x : TLBEntry) (h : t.TsInv)
    (hnw : t.clock + 1 < 2 ^ 64) (hx : x.valid = true) (hts : x.timestamp = t.clock + 1)
    (he : t1.entries = t.entries.set j x) (hc : t1.clock = t.clock + 1) : t1.TsInv where
  len := by rw [he, List.length_set]; exact h.len
  clock_lt := by rw [hc]; exact hnw
  invalid_zero := by
    intro e hm hv
    rw [he] at hm
    rcases List.mem_or_eq_of_mem_set hm with hm | rfl
    · exact h.invalid_zero e hm hv
    · rw [hx] at hv; cases hv
  valid_range := by
    intro e hm hv
    rw [he] at hm
    rw [hc]
    rcases List.mem_or_eq_of_mem_set hm with hm | rfl
    · have := h.valid_range e hm hv
      omega
    · omega
  distinct_ts := by
    intro a b e1 e2 h1 h2 hv1 hv2 hts12
    rw [he] at h1 h2
    have hslot : ∀ (c : Nat) (e : TLBEntry), (t.entries.set j x)[c]? = some e →
        (c = j ∧ e = x) ∨ (c ≠ j ∧ t.entries[c]? = some e) := by
      intro c e hce
      by_cases hcj : j = c
      · subst hcj
        have hlt : j < t.entries.length := by
          by_contra hcon
          rw [List.set_eq_of_length_le (by omega)] at hce
          rw [List.getElem?_eq_none (by omega)] at hce
          cases hce
        rw [List.getElem?_set_self hlt] at hce
        exact Or.inl ⟨rfl, (Option.some.inj hce).symm⟩
      · rw [List.getElem?_set_ne hcj] at hce
        exact Or.inr ⟨Ne.symm hcj, hce⟩
    rcases hslot a e1 h1 with ⟨ha, rfl⟩ | ⟨ha, h1o⟩
    · rcases hslot b e2 h2 with ⟨hb, _⟩ | ⟨_, h2o⟩
      · rw [ha, hb]
      · have := (h.valid_range e2 (List.getElem?_mem h2o) hv2).2
        omega
    · rcases hslot b e2 h2 with ⟨_, rfl⟩ | ⟨_, h2o⟩
      · have := (h.valid_range e1 (List.getElem?_mem h1o) hv1).2
        omega
      · exact h.distinct_ts a b e1 e2 h1o h2o hv1 hv2 hts12

theorem tsInv_empty : TLB.empty.TsInv where
  len := by simp [TLB.empty]
  clock_lt := by simp [TLB.empty]
  invalid_zero := by
    intro e hm _
    simp only [TLB.empty, List.mem_replicate] at hm
    rw [hm.2]
  valid_range := by
    intro e hm hv
    simp only [TLB.empty, List.mem_replicate] at hm
    rw [hm.2] at hv
    cases hv
  distinct_ts := by
    intro i j e1 e2 h1 _ hv1
    have hm := List.getElem?_mem h1
    simp only [TLB.empty, List.mem_replicate] at hm
    rw [hm.2] at hv1
    cases hv1

/-- A clock that did not go down in a call that increments it was below its maximum. -/
theorem no_wrap_of_le (c : Nat) (hc : c < 2 ^ 64) (h : c ≤ (c + 1) % 2 ^ 64) :
    c + 1 < 2 ^ 64 := by
  by_contra hcon
  have : c + 1 = 2 ^ 64 := by omega
  rw [this] at h
  simp at h
  omega

theorem tsInv_lookup (t : TLB) (vpn : Nat) (h : t.TsInv)
    (hnw : t.clock ≤ (t.lookup vpn).1.clock) : (t.lookup vpn).1.TsInv := by
  rcases lookup_cases t vpn with ⟨_, hl⟩ | ⟨i, e, hi, hv, _, _, hl⟩
  · rw [hl]
    exact ⟨h.len, h.clock_lt, h.invalid_zero, h.valid_range, h.distinct_ts⟩
  · rw [hl] at hnw ⊢
    have hlt := no_wrap_of_le t.clock h.clock_lt hnw
    exact tsInv_write t _ i { e with timestamp := (t.clock + 1) % 2 ^ 64 } h hlt hv
      (Nat.mod_eq_of_lt hlt) rfl (Nat.mod_eq_of_lt hlt)

theorem tsInv_insert (t : TLB) (vpn pfn : Nat) (h : t.TsInv)
    (hnw : t.clock ≤ (t.insert vpn pfn).clock) : (t.insert vpn pfn).TsInv := by
  have hlt := no_wrap_of_le t.clock h.clock_lt hnw
  exact tsInv_write t _ t.victim
    { vpn := vpn, pfn := pfn, timestamp := (t.clock + 1) % 2 ^ 64, valid := true } h hlt rfl
    (Nat.mod_eq_of_lt hlt) rfl (Nat.mod_eq_of_lt hlt)

theorem TLB.ReachableNoWrap.tsInv {t : TLB} (h : TLB.ReachableNoWrap t) : t.TsInv := by
  induction h with
  | empty => exact tsInv_empty
  | lookup t vpn _ hnw ih => exact tsInv_lookup t vpn ih hnw
  | insert t vpn pfn _ hnw ih => exact tsInv_insert t vpn pfn ih hnw

theorem filledTLB_noWrap (k : Nat) (hk : k ≤ 100) :
    TLB.ReachableNoWrap (filledTLB k) ∧ (filledTLB k).clock = k := by
  induction k with
  | zero => exact ⟨TLB.ReachableNoWrap.empty, rfl⟩
  | succ k ih =>
    obtain ⟨hr, hc⟩ := ih (by omega)
    have hc1 : ((filledTLB k).insert (k + 1) (k + 1)).clock = k + 1 := by
      simp only [TLB.insert, hc]
      exact Nat.mod_eq_of_lt (by omega)
    exact ⟨TLB.ReachableNoWrap.insert _ _ _ hr (by rw [hc1, hc]; omega), hc1⟩

/-! ## The slot chosen by `insert` of `src/tlb.cpp` -/

theorem firstInvalid_eq_none (es : List TLBEntry) (i : Nat) :
    TlbCpp.firstInvalid es i = none ↔ ∀ e ∈ es, e.valid = true := by
  induction es generalizing i with
  | nil => simp [TlbCpp.firstInvalid]
  | cons e es ih =>
    unfold TlbCpp.firstInvalid
    cases hv : e.valid with
    | false => simp [hv]
    | true => simp [hv, ih]

theorem firstInvalid_of_first (es : List TLBEntry) (i k : Nat) (e : TLBEntry)
    (hk : es[k]? = some e) (hv : e.valid = false)
    (hb : ∀ (j : Nat) (e1 : TLBEntry), j < k → es[j]? = some e1 → e1.valid = true) :
    TlbCpp.firstInvalid es i = some (i + k) := by
  induction es generalizing i k with
  | nil => simp at hk
  | cons e0 es ih =>
    unfold TlbCpp.firstInvalid
    cases k with
    | zero =>
      simp only [List.getElem?_cons_zero, Option.some.injEq] at hk
      subst hk
      simp [hv]
    | succ k =>
      have h0 := hb 0 e0 (by omega) (by simp)
      simp only [h0, Bool.not_true, Bool.false_eq_true, if_false]
      rw [ih (i + 1) k (by simpa using hk)
        (fun j e1 hj hje => hb (j + 1) e1 (by omega) (by simpa using hje))]
      congr 1; omega

/-- On slots that are all valid the scan of `min_element` and the scan of
`TLB::insert` of `src/main.cpp` select the same slot. -/
theorem minScan_eq_insertScan (es : List TLBEntry) (i sm ts : Nat)
    (h : ∀ e ∈ es, e.valid = true) :
    TlbCpp.minScan es i sm ts = insertScan es i sm ts := by
  induction es generalizing i sm ts with
  | nil => rfl
  | cons e es ih =>
    have hv : e.valid = true := h e (by simp)
    have hrest : ∀ e1 ∈ es, e1.valid = true := fun e1 hm => h e1 (by simp [hm])
    unfold TlbCpp.minScan insertScan
    simp only [hv, Bool.not_true, Bool.false_eq_true, if_false]
    rw [ih _ _ _ hrest, ih _ _ _ hrest]

/-- With every slot valid, `insert` of `src/tlb.cpp` writes the slot that `insert`
of `src/main.cpp` would select on the same entries. -/
theorem cpp_slot_full (c : TlbCpp.TLB) (m : TLB) (he : m.entries = c.entries)
    (hfull : ∀ e ∈ c.entries, e.valid = true) : c.slot = m.victim := by
  unfold TlbCpp.TLB.slot TLB.victim
  rw [(firstInvalid_eq_none c.entries 0).mpr hfull, he]
  apply minScan_eq_insertScan
  intro e hm
  exact hfull e (List.mem_of_mem_tail hm)

/-! ## The slot chosen by `insert` of `src/main.cpp` when a slot is free -/

theorem victim_rest_invalid (t : TLB) (h : ∃ e ∈ t.entries.tail, e.valid = false) :
    ∃ k e, t.victim = k + 1 ∧ t.entries[k + 1]? = some e ∧ e.valid = false ∧
      ∀ (j : Nat) (e1 : TLBEntry), j < k → t.entries[j + 1]? = some e1 → e1.valid = true := by
  unfold TLB.victim
  cases ht : t.entries with
  | nil => rw [ht] at h; simp at h
  | cons e0 rest =>
    rw [ht] at h
    simp only [List.tail_cons] at h
    obtain ⟨k, e, hr, hke, hf, hb⟩ := insertScan_invalid rest 1 0
      ((e0 :: rest).headD default).timestamp h
    refine ⟨k, e, by simp only [List.tail_cons]; omega, by simpa using hke, hf, ?_⟩
    intro j e1 hj hje
    exact hb j e1 hj (by simpa using hje)

theorem victim_rest_valid (t : TLB) (hz : ∀ e ∈ t.entries, e.valid = false → e.timestamp = 0)
    (hrest : ∀ e ∈ t.entries.tail, e.valid = true)
    (h0 : ∃ e, t.entries[0]? = some e ∧ e.valid = false) : t.victim = 0 := by
  unfold TLB.victim
  cases ht : t.entries with
  | nil => rw [ht] at h0; simp at h0
  | cons e0 rest =>
    rw [ht] at h0 hz hrest
    simp only [List.tail_cons] at hrest
    simp only [List.tail_cons, List.headD_cons]
    obtain ⟨e, he, hf⟩ := h0
    simp only [List.getElem?_cons_zero, Option.some.injEq] at he
    subst he
    have hts : e0.timestamp = 0 := hz e0 (by simp) hf
    rcases insertScan_valid rest 1 0 e0.timestamp hrest with ⟨hr, _⟩ | ⟨k, e, _, _, hlt, _, _⟩
    · exact hr
    · omega

/-! ## Corresponding slots of the two TLBs -/

theorem slotMap_succ (k : Nat) (hk : k < 15) : slotMap (k + 1) = k := by
  unfold slotMap; omega

theorem slotMap_zero : slotMap 0 = 15 := by decide

theorem slotMap_inv (k : Nat) (hk : k < 16) : slotMap ((k + 1) % 16) = k := by
  unfold slotMap; omega

theorem slotMap_lt (i : Nat) : slotMap i < 16 := by
  unfold slotMap; omega

theorem slotMap_inj (i j : Nat) (hi : i < 16) (hj : j < 16) (h : slotMap i = slotMap j) :
    i = j := by
  unfold slotMap at h; omega

theorem lt_of_getElem?_some {α : Type} (l : List α) (i : Nat) (a : α) (h : l[i]? = some a) :
    i < l.length := by
  by_contra hc
  rw [List.getElem?_eq_none (by omega)] at h
  cases h

theorem mem_tail_of_succ {α : Type} (l : List α) (j : Nat) (a : α) (h : l[j + 1]? = some a) :
    a ∈ l.tail := by
  cases l with
  | nil => simp at h
  | cons x xs =>
    simp only [List.getElem?_cons_succ] at h
    exact List.getElem?_mem h

theorem succ_of_mem_tail {α : Type} (l : List α) (a : α) (h : a ∈ l.tail) :
    ∃ j, l[j + 1]? = some a := by
  cases l with
  | nil => simp at h
  | cons x xs =>
    simp only [List.tail_cons] at h
    obtain ⟨j, hj, hja⟩ := List.getElem_of_mem h
    exact ⟨j, by simp [List.getElem?_eq_getElem hj, hja]⟩

/-- Under the simulation relation, the slot `insert` of `src/tlb.cpp` writes is the
counterpart of the slot `insert` of `src/main.cpp` writes. -/
theorem slot_corresponds (m : TLB) (c : TlbCpp.TLB) (h : TlbSim m c) :
    c.slot = slotMap m.victim := by
  have mlen := h.ts.len
  have clen := h.clen
  have hne : m.entries ≠ [] := by
    intro hc; rw [hc] at mlen; simp at mlen
  by_cases hfull : ∀ e ∈ m.entries, e.valid = true
  · have hcfull : ∀ e ∈ c.entries, e.valid = true := by
      intro b hb
      obtain ⟨k, hk, hkb⟩ := List.getElem_of_mem hb
      have hk16 : k < 16 := by omega
      have hi : (k + 1) % 16 < m.entries.length := by omega
      have hs := h.slots ((k + 1) % 16) _ b (List.getElem?_eq_getElem hi)
        (by rw [slotMap_inv k hk16, List.getElem?_eq_getElem hk, hkb])
      rw [← hs.1]
      exact hfull _ (List.getElem_mem hi)
    have hcne : c.entries ≠ [] := by
      intro hc; rw [hc] at clen; simp at clen
    have hslot := cpp_slot_full c { entries := c.entries } rfl hcfull
    obtain ⟨eb, hjb, hbmin, _⟩ := victim_full { entries := c.entries } hcne hcfull
    have hjc := victim_lt { entries := c.entries } hcne
    obtain ⟨em, hjm, hmmin, _⟩ := victim_full m hne hfull
    have hjm16 := victim_lt m hne
    rw [hslot]
    have hjc16 : TLB.victim { entries := c.entries } < 16 := by
      have : ({ entries := c.entries } : TLB).entries.length = 16 := clen
      omega
    have hi : (TLB.victim { entries := c.entries } + 1) % 16 < m.entries.length := by omega
    have hinv := slotMap_inv _ hjc16
    by_cases heq : (TLB.victim { entries := c.entries } + 1) % 16 = m.victim
    · rw [← heq, hinv]
    · exfalso
      have ha := List.getElem?_eq_getElem hi
      have hle := hmmin _ (List.getElem_mem hi)
      have hv1 := hfull em (List.getElem?_mem hjm)
      have hv2 := hfull _ (List.getElem_mem hi)
      have hneq : em.timestamp ≠
          (m.entries[(TLB.victim { entries := c.entries } + 1) % 16]).timestamp := by
        intro hc
        exact heq (h.ts.distinct_ts _ _ _ _ ha hjm hv2 hv1 hc.symm)
      have hlt : em.timestamp <
          (m.entries[(TLB.victim { entries := c.entries } + 1) % 16]).timestamp := by omega
      have hsl : slotMap m.victim < c.entries.length := by
        rw [clen]; exact slotMap_lt _
      have hord := (h.order m.victim _ em _ _ eb hjm ha (List.getElem?_eq_getElem hsl)
        (by rw [hinv]; exact hjb) hv1 hv2).mp hlt
      have := hbmin _ (List.getElem_mem hsl)
      omega
  · have hinvalid : ∃ e ∈ m.entries, e.valid = false := by
      by_contra hc
      apply hfull
      intro e he
      by_contra hv
      exact hc ⟨e, he, by simpa using hv⟩
    by_cases hrest : ∃ e ∈ m.entries.tail, e.valid = false
    · obtain ⟨k, e, hvic, hke, hf, hb⟩ := victim_rest_invalid m hrest
      have hk : k + 1 < 16 := by
        have := lt_of_getElem?_some _ _ _ hke
        omega
      have hkc : k < c.entries.length := by omega
      have hs := h.slots (k + 1) e _ hke
        (by rw [slotMap_succ k (by omega)]; exact List.getElem?_eq_getElem hkc)
      have hfirst := firstInvalid_of_first c.entries 0 k _ (List.getElem?_eq_getElem hkc)
        (by rw [← hs.1]; exact hf) (by
          intro j e1 hj hje
          have hjm : j + 1 < m.entries.length := by omega
          have hs1 := h.slots (j + 1) _ e1 (List.getElem?_eq_getElem hjm)
            (by rw [slotMap_succ j (by omega)]; exact hje)
          rw [← hs1.1]
          exact hb j _ hj (List.getElem?_eq_getElem hjm))
      unfold TlbCpp.TLB.slot
      rw [hfirst, hvic, slotMap_succ k (by omega)]
      simp
    · have hrv : ∀ e ∈ m.entries.tail, e.valid = true := by
        intro e he
        by_contra hv
        exact hrest ⟨e, he, by simpa using hv⟩
      have h0lt : 0 < m.entries.length := by omega
      have h0 : (m.entries[0]).valid = false := by
        obtain ⟨e, he, hf⟩ := hinvalid
        obtain ⟨i, hi, hie⟩ := List.getElem_of_mem he
        cases i with
        | zero => rw [hie]; exact hf
        | succ i =>
          have := hrv e (mem_tail_of_succ _ i e (by rw [List.getElem?_eq_getElem hi, hie]))
          rw [this] at hf; cases hf
      have hvic := victim_rest_valid m h.ts.invalid_zero hrv
        ⟨_, List.getElem?_eq_getElem h0lt, h0⟩
      have h15 : 15 < c.entries.length := by omega
      have hs := h.slots 0 _ _ (List.getElem?_eq_getElem h0lt)
        (by rw [slotMap_zero]; exact List.getElem?_eq_getElem h15)
      have hfirst := firstInvalid_of_first c.entries 0 15 _ (List.getElem?_eq_getElem h15)
        (by rw [← hs.1]; exact h0) (by
          intro j e1 hj hje
          have hjm : j + 1 < m.entries.length := by omega
          have hs1 := h.slots (j + 1) _ e1 (List.getElem?_eq_getElem hjm)
            (by rw [slotMap_succ j (by omega)]; exact hje)
          rw [← hs1.1]
          exact hrv _ (mem_tail_of_succ _ j _ (List.getElem?_eq_getElem hjm)))
      unfold TlbCpp.TLB.slot
      rw [hfirst, hvic, slotMap_zero]

/-! ## The simulation relation along the calls -/

theorem getElem?_set_cases {α : Type} (l : List α) (j c : Nat) (x e : α)
    (h : (l.set j x)[c]? = some e) : (c = j ∧ e = x) ∨ (c ≠ j ∧ l[c]? = some e) := by
  by_cases hcj : j = c
  · subst hcj
    have hlt : j < l.length := by
      by_contra hcon
      rw [List.set_eq_of_length_le (by omega)] at h
      rw [List.getElem?_eq_none (by omega)] at h
      cases h
    rw [List.getElem?_set_self hlt] at h
    exact Or.inl ⟨rfl, (Option.some.inj h).symm⟩
  · rw [List.getElem?_set_ne hcj] at h
    exact Or.inr ⟨Ne.symm hcj, h⟩

theorem tlbSim_empty (junk : List TLBEntry) (hj : junk.length = 16) :
    TlbSim TLB.empty (TlbCpp.TLB.new junk) where
  ts := tsInv_empty
  nodup := by
    intro i j e1 e2 h1 _ hv1
    have hm := List.getElem?_mem h1
    simp only [TLB.empty, List.mem_replicate] at hm
    rw [hm.2] at hv1
    cases hv1
  clen := by simp [TlbCpp.TLB.new, hj]
  cclock := by simp [TlbCpp.TLB.new]
  clock_le := by simp [TlbCpp.TLB.new, TLB.empty]
  crange := by
    intro e he hv
    simp only [TlbCpp.TLB.new, List.mem_map] at he
    obtain ⟨e0, _, rfl⟩ := he
    simp at hv
  slots := by
    intro i a b ha hb
    have hma := List.getElem?_mem ha
    have hmb := List.getElem?_mem hb
    simp only [TLB.empty, List.mem_replicate] at hma
    simp only [TlbCpp.TLB.new, List.mem_map] at hmb
    obtain ⟨e0, _, rfl⟩ := hmb
    rw [hma.2]
    simp
  order := by
    intro i j a1 a2 b1 b2 h1 _ _ _ hv1
    have hm := List.getElem?_mem h1
    simp only [TLB.empty, List.mem_replicate] at hm
    rw [hm.2] at hv1
    cases hv1

/-- Stamping corresponding slots with the two incremented clocks keeps the
simulation relation. -/
theorem tlbSim_stamp (m m1 : TLB) (c c1 : TlbCpp.TLB) (i : Nat) (x y : TLBEntry)
    (h : TlbSim m c) (hi : i < 16) (hcw : c.clock + 1 < 2 ^ 64)
    (hxv : x.valid = true) (hyv : y.valid = true) (hvpn : x.vpn = y.vpn)
    (hpfn : x.pfn = y.pfn) (hxt : x.timestamp = m.clock + 1)
    (hyt : y.timestamp = c.clock + 1)
    (hm1 : m1.entries = m.entries.set i x) (hmc : m1.clock = m.clock + 1)
    (hc1 : c1.entries = c.entries.set (slotMap i) y) (hcc : c1.clock = c.clock + 1)
    (hnd : m1.noDup) : TlbSim m1 c1 := by
  have hmle := h.clock_le
  have key : ∀ (k : Nat) (a b : TLBEntry), m1.entries[k]? = some a →
      c1.entries[slotMap k]? = some b →
      (k = i ∧ a = x ∧ b = y) ∨
      (k ≠ i ∧ m.entries[k]? = some a ∧ c.entries[slotMap k]? = some b) := by
    intro k a b ha hb
    rw [hm1] at ha
    rw [hc1] at hb
    have hk : k < 16 := by
      have := lt_of_getElem?_some _ _ _ ha
      rw [List.length_set, h.ts.len] at this
      exact this
    rcases getElem?_set_cases _ _ _ _ _ ha with ⟨hki, hax⟩ | ⟨hki, hao⟩
    · rcases getElem?_set_cases _ _ _ _ _ hb with ⟨_, hby⟩ | ⟨hne, _⟩
      · exact Or.inl ⟨hki, hax, hby⟩
      · rw [hki] at hne; exact absurd rfl hne
    · rcases getElem?_set_cases _ _ _ _ _ hb with ⟨hsk, _⟩ | ⟨_, hbo⟩
      · exact absurd (slotMap_inj k i hk hi hsk) hki
      · exact Or.inr ⟨hki, hao, hbo⟩
  exact {
    ts := tsInv_write m m1 i x h.ts (by omega) hxv hxt hm1 hmc
    nodup := hnd
    clen := by rw [hc1, List.length_set]; exact h.clen
    cclock := by rw [hcc]; exact hcw
    clock_le := by rw [hmc, hcc]; omega
    crange := by
      intro e he hv
      rw [hc1] at he
      rw [hcc]
      rcases List.mem_or_eq_of_mem_set he with he | rfl
      · have := h.crange e he hv
        omega
      · omega
    slots := by
      intro k a b ha hb
      rcases key k a b ha hb with ⟨_, rfl, rfl⟩ | ⟨_, hao, hbo⟩
      · exact ⟨by rw [hxv, hyv], fun _ => ⟨hvpn, hpfn⟩⟩
      · exact h.slots k a b hao hbo
    order := by
      intro k l a1 a2 b1 b2 ha1 ha2 hb1 hb2 hv1 hv2
      rcases key k a1 b1 ha1 hb1 with ⟨_, rfl, rfl⟩ | ⟨_, hao1, hbo1⟩
      · rcases key l a2 b2 ha2 hb2 with ⟨_, rfl, rfl⟩ | ⟨_, hao2, hbo2⟩
        · simp
        · have h1 := (h.ts.valid_range a2 (List.getElem?_mem hao2) hv2).2
          have hbv : b2.valid = true := by
            rw [← (h.slots l a2 b2 hao2 hbo2).1]; exact hv2
          have h2 := h.crange b2 (List.getElem?_mem hbo2) hbv
          constructor
          · intro hc; omega
          · intro hc; omega
      · have h1 := (h.ts.valid_range a1 (List.getElem?_mem hao1) hv1).2
        have hbv : b1.valid = true := by
          rw [← (h.slots k a1 b1 hao1 hbo1).1]; exact hv1
        have h2 := h.crange b1 (List.getElem?_mem hbo1) hbv
        rcases key l a2 b2 ha2 hb2 with ⟨_, rfl, rfl⟩ | ⟨_, hao2, hbo2⟩
        · constructor
          · intro _; omega
          · intro _; omega
        · exact h.order k l a1 a2 b1 b2 hao1 hao2 hbo1 hbo2 hv1 hv2 }

/-- A lookup that misses in `src/main.cpp` changes only the miss counter there and
only the clock in `src/tlb.cpp`. -/
theorem tlbSim_miss (m m1 : TLB) (c c1 : TlbCpp.TLB) (h : TlbSim m c)
    (hcw : c.clock + 1 < 2 ^ 64) (hm1 : m1.entries = m.entries) (hmc : m1.clock = m.clock)
    (hc1 : c1.entries = c.entries) (hcc : c1.clock = c.clock + 1) : TlbSim m1 c1 where
  ts := {
    len := by rw [hm1]; exact h.ts.len
    clock_lt := by rw [hmc]; exact h.ts.clock_lt
    invalid_zero := by rw [hm1]; exact h.ts.invalid_zero
    valid_range := by rw [hm1, hmc]; exact h.ts.valid_range
    distinct_ts := by rw [hm1]; exact h.ts.distinct_ts }
  nodup := by
    intro i j e1 e2 h1 h2
    rw [hm1] at h1 h2
    exact h.nodup i j e1 e2 h1 h2
  clen := by rw [hc1]; exact h.clen
  cclock := by rw [hcc]; exact hcw
  clock_le := by rw [hmc, hcc]; have := h.clock_le; omega
  crange := by
    intro e he hv
    rw [hc1] at he
    rw [hcc]
    have := h.crange e he hv
    omega
  slots := by rw [hm1, hc1]; exact h.slots
  order := by rw [hm1, hc1]; exact h.order

theorem sim_lookup (m : TLB) (c : TlbCpp.TLB) (vpn : Nat) (h : TlbSim m c)
    (hcw : c.clock + 1 < 2 ^ 64) :
    (m.lookup vpn).2 = (c.lookup vpn).2 ∧ TlbSim (m.lookup vpn).1 (c.lookup vpn).1 ∧
      (c.lookup vpn).1.clock = c.clock + 1 := by
  have hcmod : (c.clock + 1) % 2 ^ 64 = c.clock + 1 := Nat.mod_eq_of_lt hcw
  have hmw : m.clock + 1 < 2 ^ 64 := by have := h.clock_le; omega
  have hmmod : (m.clock + 1) % 2 ^ 64 = m.clock + 1 := Nat.mod_eq_of_lt hmw
  have mlen := h.ts.len
  have clen := h.clen
  rcases lookup_cases m vpn with ⟨hmiss, hl⟩ | ⟨i, e, hi, hv, hvpn, hfirst, hl⟩
  · have hcmiss : ∀ b ∈ c.entries, ¬ (b.valid = true ∧ b.vpn = vpn) := by
      intro b hb hhit
      obtain ⟨k, hk, hkb⟩ := List.getElem_of_mem hb
      have hk16 : k < 16 := by omega
      have hik : (k + 1) % 16 < m.entries.length := by omega
      have hs := h.slots ((k + 1) % 16) _ b (List.getElem?_eq_getElem hik)
        (by rw [slotMap_inv k hk16, List.getElem?_eq_getElem hk, hkb])
      have hav : (m.entries[(k + 1) % 16]).valid = true := by rw [hs.1]; exact hhit.1
      exact hmiss _ (List.getElem_mem hik) ⟨hav, by rw [(hs.2 hav).1]; exact hhit.2⟩
    have hcl : c.lookup vpn = ({ c with clock := (c.clock + 1) % 2 ^ 64 }, none) := by
      unfold TlbCpp.TLB.lookup
      rw [(lookupScan_eq_none vpn _ c.entries).mpr hcmiss]
    rw [hl, hcl]
    exact ⟨rfl, tlbSim_miss m _ c _ h hcw rfl rfl rfl hcmod, hcmod⟩
  · have hi16 : i < 16 := by
      have := lt_of_getElem?_some _ _ _ hi
      omega
    have hsl : slotMap i < c.entries.length := by rw [clen]; exact slotMap_lt i
    have hb := List.getElem?_eq_getElem hsl
    have hs := h.slots i e _ hi hb
    have hbv : (c.entries[slotMap i]).valid = true := by rw [← hs.1]; exact hv
    have hbvpn : (c.entries[slotMap i]).vpn = vpn := by rw [← (hs.2 hv).1]; exact hvpn
    cases hsc : lookupScan vpn ((c.clock + 1) % 2 ^ 64) c.entries with
    | none =>
      exfalso
      exact (lookupScan_eq_none vpn _ c.entries).mp hsc _ (List.getElem_mem hsl) ⟨hbv, hbvpn⟩
    | some p =>
      obtain ⟨es, pfn⟩ := p
      obtain ⟨k, ek, hk, hkv, hkvpn, hpfn, hset, _⟩ := lookupScan_eq_some _ _ _ _ _ hsc
      have hk16 : k < 16 := by
        have := lt_of_getElem?_some _ _ _ hk
        omega
      have hik : (k + 1) % 16 < m.entries.length := by omega
      have hs1 := h.slots ((k + 1) % 16) _ ek (List.getElem?_eq_getElem hik)
        (by rw [slotMap_inv k hk16]; exact hk)
      have hav : (m.entries[(k + 1) % 16]).valid = true := by rw [hs1.1]; exact hkv
      have hii : (k + 1) % 16 = i :=
        h.nodup _ _ _ e (List.getElem?_eq_getElem hik) hi hav hv
          (by rw [(hs1.2 hav).1, hkvpn, hvpn])
      have hki : k = slotMap i := by rw [← hii, slotMap_inv k hk16]
      subst hki
      have hek : ek = c.entries[slotMap i] := by
        rw [hb] at hk; exact (Option.some.inj hk).symm
      have hcl : c.lookup vpn =
          ({ entries := c.entries.set (slotMap i)
               { ek with timestamp := (c.clock + 1) % 2 ^ 64 },
             clock := (c.clock + 1) % 2 ^ 64 }, some ek.pfn) := by
        unfold TlbCpp.TLB.lookup
        rw [hsc, hset, hpfn]
      rw [hl, hcl]
      refine ⟨by simp only [Option.some.injEq]; rw [hek]; exact (hs.2 hv).2, ?_, hcmod⟩
      apply tlbSim_stamp m _ c _ i { e with timestamp := (m.clock + 1) % 2 ^ 64 }
        { ek with timestamp := (c.clock + 1) % 2 ^ 64 } h hi16 hcw hv hkv
      · simp only; rw [hek]; exact (hs.2 hv).1
      · simp only; rw [hek]; exact (hs.2 hv).2
      · exact hmmod
      · exact hcmod
      · rfl
      · exact hmmod
      · rfl
      · exact hcmod
      · exact noDup_touch m _ i _ e hi rfl h.nodup

theorem sim_insert (m : TLB) (c : TlbCpp.TLB) (vpn pfn : Nat) (h : TlbSim m c)
    (hcw : c.clock + 1 < 2 ^ 64) (hnh : ¬ m.holds vpn) :
    TlbSim (m.insert vpn pfn) (c.insert vpn pfn) ∧ (c.insert vpn pfn).clock = c.clock + 1 := by
  have hcmod : (c.clock + 1) % 2 ^ 64 = c.clock + 1 := Nat.mod_eq_of_lt hcw
  have hmw : m.clock + 1 < 2 ^ 64 := by have := h.clock_le; omega
  have hmmod : (m.clock + 1) % 2 ^ 64 = m.clock + 1 := Nat.mod_eq_of_lt hmw
  have hne : m.entries ≠ [] := by
    intro hc
    have := h.ts.len
    rw [hc] at this
    simp at this
  have hvic : m.victim < 16 := by
    have := victim_lt m hne
    have := h.ts.len
    omega
  have hmiss : ∀ e ∈ m.entries, ¬ (e.valid = true ∧ e.vpn = vpn) := by
    intro e he hhit
    exact hnh ⟨e, he, hhit⟩
  refine ⟨?_, hcmod⟩
  apply tlbSim_stamp m _ c _ m.victim
    { vpn := vpn, pfn := pfn, timestamp := (m.clock + 1) % 2 ^ 64, valid := true }
    { vpn := vpn, pfn := pfn, timestamp := (c.clock + 1) % 2 ^ 64, valid := true }
    h hvic hcw rfl rfl rfl rfl hmmod hcmod rfl hmmod
  · simp only [TlbCpp.TLB.insert, slot_corresponds m c h]
  · exact hcmod
  · exact noDup_insert m _ vpn pfn _ _ rfl hmiss h.nodup

/-- Under the discipline and without clock wrap-around, the two TLBs answer every
lookup of a call sequence alike. -/
theorem runs_agree (ops : List TLBOp) :
    ∀ (m : TLB) (c : TlbCpp.TLB), TlbSim m c → c.clock + ops.length < 2 ^ 64 →
      Disciplined m ops → (runMain m ops).2 = (runCpp c ops).2 := by
  induction ops with
  | nil => intro m c _ _ _; rfl
  | cons op rest ih =>
    intro m c h hlen hd
    simp only [List.length_cons] at hlen
    cases op with
    | lookup vpn =>
      obtain ⟨hres, hsim, hclk⟩ := sim_lookup m c vpn h (by omega)
      simp only [runMain, runCpp]
      rw [hres, ih _ _ hsim (by rw [hclk]; omega) hd]
    | insert vpn pfn =>
      obtain ⟨hsim, hclk⟩ := sim_insert m c vpn pfn h (by omega) hd.1
      simp only [runMain, runCpp]
      exact ih _ _ hsim (by rw [hclk]; omega) hd.2

/-! ## Reachable allocator states -/

theorem NUM_FRAMES_pos : 0 < NUM_FRAMES := by decide

/-- In every allocator state the program can be in, `frame_allocated` has `n` flags
and every frame whose flag is set is in `allocated_frames`. -/
theorem allocReachable_inv (n : Nat) (s : State) (h : AllocReachable n s) :
    s.frame_allocated.length = n ∧
    ∀ i, s.frame_allocated[i]? = some true → i ∈ s.allocated_frames := by
  induction h with
  | init s hf _ =>
    refine ⟨by rw [hf, List.length_replicate], ?_⟩
    intro i hi
    rw [hf, List.getElem?_replicate] at hi
    split at hi <;> simp at hi
  | alloc s s1 r f _ ha ih =>
    obtain ⟨hlen, hmem⟩ := ih
    unfold allocate_frame at ha
    cases hff : firstFree s.frame_allocated 0 with
    | some i =>
      rw [hff] at ha
      simp only [Option.some.injEq, Prod.mk.injEq] at ha
      obtain ⟨rfl, _⟩ := ha
      refine ⟨by simp only [List.length_set]; exact hlen, ?_⟩
      intro j hj
      simp only at hj ⊢
      by_cases hji : i = j
      · subst hji
        exact List.mem_append_right _ (List.mem_singleton_self _)
      · rw [List.getElem?_set_ne hji] at hj
        exact List.mem_append_left _ (hmem j hj)
    | none =>
      rw [hff] at ha
      simp only at ha
      split at ha
      · cases ha
      · split at ha
        · simp only [Option.some.injEq, Prod.mk.injEq] at ha
          obtain ⟨rfl, _⟩ := ha
          exact ⟨hlen, hmem⟩
        · cases ha
  | other s s1 _ hf ha ih =>
    rw [hf, ha]
    exact ih

/-- With at least one frame, an allocator state the program can be in that has no
free frame has a non-empty `allocated_frames`. -/
theorem allocReachable_nonempty (n : Nat) (s : State) (hn : 0 < n) (h : AllocReachable n s)
    (hall : ∀ b ∈ s.frame_allocated, b = true) : s.allocated_frames ≠ [] := by
  obtain ⟨hlen, hmem⟩ := allocReachable_inv n s h
  have h0 : s.frame_allocated[0]? = some s.frame_allocated[0] :=
    List.getElem?_eq_getElem (by omega)
  have ht := hall _ (List.getElem?_mem h0)
  rw [ht] at h0
  exact List.ne_nil_of_mem (hmem 0 h0)

/-- A call of `translate` leaves the allocator state as it was or as one call of
`allocate_frame` made it. -/
theorem translate_allocator (s s1 : State) (va r : Nat) (t : Translation)
    (h : translate s va r = some (s1, t)) :
    (s1.frame_allocated = s.frame_allocated ∧ s1.allocated_frames = s.allocated_frames) ∨
    ∃ s2 s3 f, s2.frame_allocated = s.frame_allocated ∧
      s2.allocated_frames = s.allocated_frames ∧ allocate_frame s2 r = some (s3, f) ∧
      s1.frame_allocated = s3.frame_allocated ∧ s1.allocated_frames = s3.allocated_frames := by
  unfold translate at h
  simp only at h
  split at h
  · simp only [Option.some.injEq, Prod.mk.injEq] at h
    obtain ⟨rfl, _⟩ := h
    exact Or.inl ⟨rfl, rfl⟩
  · split at h
    · cases h
    · split at h
      · cases h
      · split at h
        · cases h
        · split at h
          · split at h
            · cases h
            · rename_i s3 f ha
              simp only [Option.some.injEq, Prod.mk.injEq] at h
              obtain ⟨rfl, _⟩ := h
              refine Or.inr ⟨_, s3, f, ?_, ?_, ha, rfl, rfl⟩ <;> rfl
          · simp only [Option.some.injEq, Prod.mk.injEq] at h
            obtain ⟨rfl, _⟩ := h
            exact Or.inl ⟨rfl, rfl⟩

/-- The allocator state of every reachable program state is one the allocator can
be in. -/
theorem reachable_allocReachable (n : Nat) (s : State) (h : Reachable n s) :
    AllocReachable n s := by
  induction h with
  | init => exact AllocReachable.init _ rfl rfl
  | step s s1 va r t _ _ ht ih =>
    rcases translate_allocator s s1 va r t ht with ⟨hf, ha⟩ | ⟨s2, s3, f, hf, ha, hal, hf1, ha1⟩
    · exact AllocReachable.other s s1 ih hf ha
    · exact AllocReachable.other s3 s1
        (AllocReachable.alloc s2 s3 r f (AllocReachable.other s s2 ih hf ha) hal) hf1 ha1

/-! ## The state after first touches of pages 1..k -/

theorem run_snoc (a : List (Nat × Nat)) (va r : Nat) :
    ∀ (s s1 s2 : State) (ts : List Translation) (t : Translation),
      run s a = some (s1, ts) → translate s1 va r = some (s2, t) →
      run s (a ++ [(va, r)]) = some (s2, ts ++ [t]) := by
  induction a with
  | nil =>
    intro s s1 s2 ts t h1 h2
    simp only [run, Option.some.injEq, Prod.mk.injEq] at h1
    obtain ⟨rfl, rfl⟩ := h1
    simp only [List.nil_append, run, h2]
  | cons x rest ih =>
    intro s s1 s2 ts t h1 h2
    obtain ⟨va0, r0⟩ := x
    rw [List.cons_append]
    simp only [run] at h1 ⊢
    cases h0 : translate s va0 r0 with
    | none => rw [h0] at h1; cases h1
    | some p =>
      obtain ⟨s0, t0⟩ := p
      rw [h0] at h1
      simp only at h1 ⊢
      cases hr : run s0 rest with
      | none => rw [hr] at h1; cases h1
      | some q =>
        obtain ⟨s3, ts3⟩ := q
        rw [hr] at h1
        simp only [Option.some.injEq, Prod.mk.injEq] at h1
        obtain ⟨rfl, rfl⟩ := h1
        rw [ih s0 s3 s2 ts3 t hr h2]
        simp

theorem stateAfter_of_run (n : Nat) (inputs : List (Nat × Nat)) (s : State)
    (ts : List Translation) (h : run (initState n) inputs = some (s, ts)) :
    stateAfter n inputs = s := by
  unfold stateAfter
  rw [h]

theorem pageSweep_succ (k : Nat) :
    pageSweep (k + 1) = pageSweep k ++ [((k + 1) * 4096 + 0xabc, 0)] := by
  simp [pageSweep, List.range_succ]

theorem sweep_inputs (k : Nat) (hk : k ≤ 256) : ∀ x ∈ pageSweep k, x.1 < 2 ^ 32 := by
  intro x hx
  simp only [pageSweep, List.mem_map, List.mem_range] at hx
  obtain ⟨p, hp, rfl⟩ := hx
  simp only
  omega

/-- First touches of the pages `1..k`, `k ≤ 256`, with 256 frames: the run completes,
the invariant holds for the pages `1..k`, which are `k` distinct pages, and the TLB is
`sweepTLB k`. -/
theorem sweep_state (k : Nat) (hk : k ≤ 256) :
    ∃ s ts, run (initState NUM_FRAMES) (pageSweep k) = some (s, ts) ∧
      Inv NUM_FRAMES (vpnsOf (pageSweep k)) s ∧ distinct (vpnsOf (pageSweep k)) = k ∧
      (∀ v, v ∈ vpnsOf (pageSweep k) ↔ 1 ≤ v ∧ v ≤ k) ∧ s.tlb = sweepTLB k := by
  induction k with
  | zero =>
    refine ⟨initState NUM_FRAMES, [], rfl, inv_init NUM_FRAMES, rfl, ?_, rfl⟩
    intro v
    simp only [pageSweep, vpnsOf, List.range_zero, List.map_nil, List.not_mem_nil, false_iff]
    omega
  | succ k ih =>
    obtain ⟨s, ts, hrun, hinv, hd, hmem, htlb⟩ := ih (by omega)
    have hn : NUM_FRAMES = 256 := rfl
    have hva : (k + 1) * 4096 + 0xabc < 2 ^ 32 := by omega
    have hvpn : get_vpn ((k + 1) * 4096 + 0xabc) = k + 1 := by
      rw [get_vpn_eq]; omega
    have hnew : k + 1 ∉ vpnsOf (pageSweep k) := by
      intro hc
      have := (hmem (k + 1)).mp hc
      omega
    have hvs : vpnsOf (pageSweep (k + 1)) = vpnsOf (pageSweep k) ++ [k + 1] := by
      rw [pageSweep_succ]
      simp only [vpnsOf, List.map_append, List.map_cons, List.map_nil, hvpn]
    obtain ⟨s1, t, ht, hinv1, _, _⟩ :=
      translate_step NUM_FRAMES (vpnsOf (pageSweep k)) s ((k + 1) * 4096 + 0xabc) 0
        NUM_FRAMES_pos hinv hva
    rw [hvpn] at hinv1
    refine ⟨s1, ts ++ [t], ?_, ?_, ?_, ?_, ?_⟩
    · rw [pageSweep_succ]
      exact run_snoc _ _ _ _ _ _ _ _ hrun ht
    · rw [hvs]; exact hinv1
    · rw [hvs, distinct_append_not_mem _ _ hnew, hd]
    · intro v
      rw [hvs, List.mem_append, hmem v, List.mem_singleton]
      omega
    · rcases translate_cases NUM_FRAMES (vpnsOf (pageSweep k)) s ((k + 1) * 4096 + 0xabc)
          NUM_FRAMES_pos hinv hva with
        ⟨_, _, _, _, _, _, hin, _⟩ | ⟨_, _, _, hin, _⟩ | ⟨hmiss, _, _, _, _, _, _, _, _, hC⟩
      · rw [hvpn] at hin; exact absurd hin hnew
      · rw [hvpn] at hin; exact absurd hin hnew
      · have h0 := hC 0
        rw [ht] at h0
        simp only [Option.some.injEq, Prod.mk.injEq] at h0
        rw [h0.1]
        simp only
        rw [hvpn, hd, if_pos (by omega)]
        rw [hvpn] at hmiss
        show _ = ((sweepTLB k).lookup (k + 1)).1.insert (k + 1) k
        rw [← htlb, lookup_miss s.tlb (k + 1) hmiss]

/-- The state after first touches of the pages 1..256 with 256 frames. -/
theorem sweep256_state :
    Inv NUM_FRAMES (vpnsOf (pageSweep 256)) (stateAfter NUM_FRAMES (pageSweep 256)) ∧
    distinct (vpnsOf (pageSweep 256)) = 256 ∧
    (∀ v, v ∈ vpnsOf (pageSweep 256) ↔ 1 ≤ v ∧ v ≤ 256) ∧
    (stateAfter NUM_FRAMES (pageSweep 256)).tlb = sweepTLB 256 := by
  obtain ⟨s, ts, hrun, h⟩ := sweep_state 256 (le_refl _)
  rw [stateAfter_of_run NUM_FRAMES (pageSweep 256) s ts hrun]
  exact h

theorem sweepTLB_256 :
    (sweepTLB 256).entries[1]? =
      some { vpn := 241, pfn := 240, timestamp := 241, valid := true } ∧
    (sweepTLB 256).victim = 1 ∧ (sweepTLB 256).clock = 256 ∧
    (sweepTLB 256).entries.length = 16 ∧
    ¬ ∃ e ∈ (sweepTLB 256).entries.set 1
        { vpn := 257, pfn := 240, timestamp := 257, valid := true },
      e.valid = true ∧ e.vpn = 241 := by decide!

/-- After first touches of the pages 1..256 every frame is allocated. -/
theorem sweep256_full :
    ∀ b ∈ (stateAfter NUM_FRAMES (pageSweep 256)).frame_allocated, b = true := by
  obtain ⟨hinv, hd, _, _⟩ := sweep256_state
  intro b hb
  obtain ⟨i, hi, rfl⟩ := List.getElem_of_mem hb
  rw [hinv.flags_len] at hi
  have hf := hinv.flags i hi
  rw [List.getElem?_eq_getElem (by rw [hinv.flags_len]; exact hi)] at hf
  rw [Option.some.inj hf, hd]
  have hn : NUM_FRAMES = 256 := rfl
  simp only [decide_eq_true_eq]
  omega

/-- After first touches of the pages 1..256, page 241 holds frame 240 in the page
table and in TLB slot 1, the slot `insert` will select; the fault of page 257 with draw
240 reuses frame 240 and overwrites that slot. -/
theorem sweep256_facts :
    walk (stateAfter NUM_FRAMES (pageSweep 256)).page_directory 241 = some 240 ∧
    walk (stateAfter NUM_FRAMES (pageSweep 256)).page_directory 257 = none ∧
    (stateAfter NUM_FRAMES (pageSweep 256)).tlb.entries[1]? =
      some { vpn := 241, pfn := 240, timestamp := 241, valid := true } ∧
    (stateAfter NUM_FRAMES (pageSweep 256)).tlb.victim = 1 ∧
    (stateAfter NUM_FRAMES (pageSweep 256)).tlb.holds 241 ∧
    get_vpn 0x101abc = 257 ∧
    ∃ s1 t, translate (stateAfter NUM_FRAMES (pageSweep 256)) 0x101abc 240 = some (s1, t) ∧
      t.fault = true ∧ t.pa = mkPa 240 0x101abc ∧
      s1.tlb.entries[1]? = some { vpn := 257, pfn := 240, timestamp := 257, valid := true } ∧
      ¬ s1.tlb.holds 241 ∧
      walk s1.page_directory 241 = some 240 ∧ walk s1.page_directory 257 = some 240 := by
  obtain ⟨hinv, hd, hmem, htlb⟩ := sweep256_state
  obtain ⟨hslot, hvic, hclk, hlen, hgone⟩ := sweepTLB_256
  have hvpn : get_vpn 0x101abc = 257 := by decide
  have hr : 240 % NUM_FRAMES = 240 := by decide
  have hs1 : (stateAfter NUM_FRAMES (pageSweep 256)).tlb.entries[1]? =
      some { vpn := 241, pfn := 240, timestamp := 241, valid := true } := by
    rw [htlb]; exact hslot
  have hw241 : walk (stateAfter NUM_FRAMES (pageSweep 256)).page_directory 241 = some 240 := by
    have h := hinv.tlb_agrees { vpn := 241, pfn := 240, timestamp := 241, valid := true }
      (List.getElem?_mem hs1) rfl
    simp only at h
    exact h
  have hw257 : walk (stateAfter NUM_FRAMES (pageSweep 256)).page_directory 257 = none := by
    cases hw : walk (stateAfter NUM_FRAMES (pageSweep 256)).page_directory 257 with
    | none => rfl
    | some f =>
      have := ((hinv.mapped 257).mp (by rw [hw]; rfl))
      have := (hmem 257).mp this
      omega
  obtain ⟨vs, hinv1, hinv2⟩ := reachable_inv2 NUM_FRAMES _ NUM_FRAMES_pos
    (stateAfter_reachable NUM_FRAMES NUM_FRAMES_pos (pageSweep 256) (sweep_inputs 256 (le_refl _)))
  obtain ⟨s1, t, ht, hf, hpa, hwn, _, hent, _, _⟩ :=
    fault_when_exhausted NUM_FRAMES vs _ 0x101abc 240 NUM_FRAMES_pos hinv1 hinv2 (by decide)
      sweep256_full (by rw [hvpn]; exact hw257)
  rw [hr] at hpa hwn hent
  rw [hvpn] at hwn hent
  rw [htlb, hvic, hclk] at hent
  refine ⟨hw241, hw257, hs1, by rw [htlb]; exact hvic, ?_, hvpn, s1, t, ht, hf, hpa, ?_, ?_, ?_,
    hwn⟩
  · exact ⟨_, List.getElem?_mem hs1, rfl, rfl⟩
  · rw [hent, List.getElem?_set_self (by rw [hlen]; decide)]
    rfl
  · unfold TLB.holds
    rw [hent]
    exact hgone
  · rcases translate_walk NUM_FRAMES vs _ s1 0x101abc 240 t NUM_FRAMES_pos hinv1 (by decide) ht
      with ⟨hff, _⟩ | ⟨_, _, pfn, _, _, _, hnw⟩
    · rw [hf] at hff; cases hff
    · rw [hnw 241, hvpn, if_neg (by decide)]
      exact hw241

/-! ## Translation from the initial state -/


/-- C1: from the initial state, for every sequence of 32-bit addresses and every
sequence of random draws, the run completes, the `i`-th call reports a fault exactly
when the page of the `i`-th address does not occur among the pages of the earlier
addresses, and the number of faults is the number of distinct pages. -/
theorem fault_once_per_page (inputs : List (Nat × Nat))
    (h32 : ∀ x ∈ inputs, x.1 < 2 ^ 32) :
    ∃ s1 ts, run (initState NUM_FRAMES) inputs = some (s1, ts) ∧
      ts.length = inputs.length ∧
      (∀ (i : Nat) (x : Nat × Nat) (t : Translation), inputs[i]? = some x → ts[i]? = some t →
        (t.fault = true ↔
          get_vpn x.1 ∉ (inputs.take i).map (fun y => get_vpn y.1))) ∧
      (ts.filter (fun t => t.fault)).length =
        ((inputs.map (fun y => get_vpn y.1)).toFinset).card := by
  obtain ⟨s1, ts, hrun, _, hlen, hidx, hcount⟩ :=
    run_spec NUM_FRAMES NUM_FRAMES_pos inputs [] (initState NUM_FRAMES)
      (inv_init NUM_FRAMES) h32
  refine ⟨s1, ts, hrun, hlen, ?_, ?_⟩
  · intro i x t hx ht
    have h := (hidx i x t hx ht).2.1
    simpa [vpnsOf] using h
  · simpa [vpnsOf, distinct] using hcount

theorem fault_once_per_page_witness :
    ∃ s1 ts, run (initState NUM_FRAMES) [(0x5abc, 3), (0x9abc, 1), (0x5def, 4), (0xdabc, 1)] =
        some (s1, ts) ∧
      ts.length = [(0x5abc, 3), (0x9abc, 1), (0x5def, 4), (0xdabc, 1)].length ∧
      (∀ (i : Nat) (x : Nat × Nat) (t : Translation),
        [(0x5abc, 3), (0x9abc, 1), (0x5def, 4), (0xdabc, 1)][i]? = some x → ts[i]? = some t →
        (t.fault = true ↔
          get_vpn x.1 ∉ ([(0x5abc, 3), (0x9abc, 1), (0x5def, 4), (0xdabc, 1)].take i).map
            (fun y => get_vpn y.1))) ∧
      (ts.filter (fun t => t.fault)).length =
        (([(0x5abc, 3), (0x9abc, 1), (0x5def, 4), (0xdabc, 1)].map
          (fun y => get_vpn y.1)).toFinset).card :=
  fault_once_per_page [(0x5abc, 3), (0x9abc, 1), (0x5def, 4), (0xdabc, 1)] (by decide)

/-- C2: in every state reachable from the initial state, translating the same
32-bit address twice in succession completes both times, the second call is a TLB
hit that reports no fault, and both calls return the same physical address. -/
theorem retranslate_same (s : State) (va r1 r2 : Nat) (hs : Reachable NUM_FRAMES s)
    (hva : va < 2 ^ 32) :
    ∃ s1 t1 s2 t2, translate s va r1 = some (s1, t1) ∧ translate s1 va r2 = some (s2, t2) ∧
      t2.pa = t1.pa ∧ t2.fault = false ∧
      (s1.tlb.lookup (get_vpn va)).2 ≠ none ∧ s2.tlb.hits = s1.tlb.hits + 1 := by
  obtain ⟨vs, hinv⟩ := reachable_inv NUM_FRAMES s NUM_FRAMES_pos hs
  obtain ⟨s1, t1, ht1, _, _, pfn, hpa, hlook⟩ :=
    translate_step NUM_FRAMES vs s va r1 NUM_FRAMES_pos hinv hva
  have hl : s1.tlb.lookup (get_vpn va) = ((s1.tlb.lookup (get_vpn va)).1, some pfn) := by
    rw [← hlook]
  have ht2 := translate_of_hit s1 va r2 _ _ hl
  refine ⟨s1, t1, _, _, ht1, ht2, by rw [hpa], rfl, by rw [hlook]; simp, ?_⟩
  exact lookup_hits s1.tlb (get_vpn va) pfn hlook

theorem retranslate_same_witness :
    ∃ s1 t1 s2 t2, translate (initState NUM_FRAMES) 0x7000a1f3 5 = some (s1, t1) ∧
      translate s1 0x7000a1f3 9 = some (s2, t2) ∧
      t2.pa = t1.pa ∧ t2.fault = false ∧
      (s1.tlb.lookup (get_vpn 0x7000a1f3)).2 ≠ none ∧ s2.tlb.hits = s1.tlb.hits + 1 :=
  retranslate_same (initState NUM_FRAMES) 0x7000a1f3 5 9 Reachable.init (by decide)

/-- C3: in every state reachable from the initial state and for every 32-bit `va`,
`translate` returns a physical address with the low 12 bits of `va` and a frame
number `pa >> 12` below 256; so `pa < 2^20`, and `pfn << 12` stays within 32 bits. -/
theorem offset_and_frame_range (s : State) (va r : Nat) (hs : Reachable NUM_FRAMES s)
    (hva : va < 2 ^ 32) :
    ∃ s1 t, translate s va r = some (s1, t) ∧
      t.pa &&& 0xFFF = va &&& 0xFFF ∧ t.pa >>> 12 < 256 ∧ t.pa < 2 ^ 20 ∧
      ∃ pfn, pfn < 256 ∧ pfn <<< 12 < 2 ^ 32 ∧ t.pa = (pfn <<< 12) ||| (va &&& 0xFFF) := by
  obtain ⟨vs, hinv⟩ := reachable_inv NUM_FRAMES s NUM_FRAMES_pos hs
  obtain ⟨s1, t, ht, _, hspec, _⟩ :=
    translate_step NUM_FRAMES vs s va r NUM_FRAMES_pos hinv hva
  obtain ⟨_, _, pfn, hlt, hpa, _⟩ := hspec
  have hlt1 : pfn < 256 := hlt
  have hpa2 : t.pa = pfn * 4096 + va % 4096 := by rw [hpa, mkPa_eq pfn va (by omega)]
  have hshift : pfn <<< 12 = pfn * 4096 := by rw [Nat.shiftLeft_eq]
  refine ⟨s1, t, ht, ?_, ?_, ?_, pfn, hlt1, ?_, ?_⟩
  · rw [and_FFF, and_FFF, hpa2]; omega
  · rw [Nat.shiftRight_eq_div_pow, hpa2]; omega
  · rw [hpa2]; omega
  · rw [hshift]; omega
  · rw [hpa]
    unfold mkPa get_offset
    rw [Nat.mod_eq_of_lt (by rw [hshift]; omega)]

theorem offset_and_frame_range_witness :
    ∃ s1 t, translate (initState NUM_FRAMES) 0x7000a1f3 5 = some (s1, t) ∧
      t.pa &&& 0xFFF = 0x7000a1f3 &&& 0xFFF ∧ t.pa >>> 12 < 256 ∧ t.pa < 2 ^ 20 ∧
      ∃ pfn, pfn < 256 ∧ pfn <<< 12 < 2 ^ 32 ∧ t.pa = (pfn <<< 12) ||| (0x7000a1f3 &&& 0xFFF) :=
  offset_and_frame_range (initState NUM_FRAMES) 0x7000a1f3 5 Reachable.init (by decide)

/-! ## Frames in order of first touch -/

theorem translation_eta (t : Translation) (pa : Nat) (fault : Bool) (h1 : t.ret = true)
    (h2 : t.pa = pa) (h3 : t.fault = fault) : t = { ret := true, pa := pa, fault := fault } := by
  cases t
  simp only at h1 h2 h3
  simp [h1, h2, h3]

/-- The scenario with two frames: pages 5, 9, 5, 13 give frame 0 with a fault,
frame 1 with a fault, frame 0 without fault, then a fault with frame 0 or 1,
whatever the draws. -/
theorem scenario_two_frames (r1 r2 r3 r4 : Nat) :
    ∃ s f, f < 2 ∧
      run (initState 2) [(0x5abc, r1), (0x9abc, r2), (0x5abc, r3), (0xdabc, r4)] =
        some (s, [{ ret := true, pa := 0xabc, fault := true },
                  { ret := true, pa := 0x1abc, fault := true },
                  { ret := true, pa := 0xabc, fault := false },
                  { ret := true, pa := f * 4096 + 0xabc, fault := true }]) := by
  obtain ⟨s, ts, hrun, _, hlen, hidx, _⟩ :=
    run_spec 2 (by decide) [(0x5abc, r1), (0x9abc, r2), (0x5abc, r3), (0xdabc, r4)] []
      (initState 2) (inv_init 2) (by
        intro x hx
        simp only [List.mem_cons, List.mem_singleton, List.not_mem_nil, or_false] at hx
        rcases hx with rfl | rfl | rfl | rfl <;> norm_num)
  match ts, hlen with
  | [t0, t1, t2, t3], _ =>
    have s0 : StepSpec 2 [] 0x5abc t0 := hidx 0 (0x5abc, r1) t0 rfl rfl
    have s1 : StepSpec 2 [get_vpn 0x5abc] 0x9abc t1 := hidx 1 (0x9abc, r2) t1 rfl rfl
    have s2 : StepSpec 2 [get_vpn 0x5abc, get_vpn 0x9abc] 0x5abc t2 :=
      hidx 2 (0x5abc, r3) t2 rfl rfl
    have s3 : StepSpec 2 [get_vpn 0x5abc, get_vpn 0x9abc, get_vpn 0x5abc] 0xdabc t3 :=
      hidx 3 (0xdabc, r4) t3 rfl rfl
    obtain ⟨h0r, h0f, p0, _, h0pa, h0k⟩ := s0
    obtain ⟨h1r, h1f, p1, _, h1pa, h1k⟩ := s1
    obtain ⟨h2r, h2f, p2, _, h2pa, h2k⟩ := s2
    obtain ⟨h3r, h3f, p3, h3lt, h3pa, _⟩ := s3
    have e0 := h0k (by decide)
    have e1 := h1k (by decide)
    have e2 := h2k (by decide)
    rw [show rank ([] ++ [get_vpn 0x5abc]) (get_vpn 0x5abc) = 0 by decide] at e0
    rw [show rank ([get_vpn 0x5abc] ++ [get_vpn 0x9abc]) (get_vpn 0x9abc) = 1 by decide] at e1
    rw [show rank ([get_vpn 0x5abc, get_vpn 0x9abc] ++ [get_vpn 0x5abc]) (get_vpn 0x5abc) = 0
      by decide] at e2
    subst e0; subst e1; subst e2
    refine ⟨s, p3, h3lt, ?_⟩
    rw [hrun]
    have f0 : t0.fault = true := h0f.mpr (by decide)
    have f1 : t1.fault = true := h1f.mpr (by decide)
    have f2 : t2.fault = false := by
      have : ¬ t2.fault = true := fun hc => (h2f.mp hc) (by decide)
      simpa using this
    have f3 : t3.fault = true := h3f.mpr (by decide)
    have a0 : t0.pa = 0xabc := h0pa.trans (show mkPa 0 0x5abc = 0xabc by decide)
    have a1 : t1.pa = 0x1abc := h1pa.trans (show mkPa 1 0x9abc = 0x1abc by decide)
    have a2 : t2.pa = 0xabc := h2pa.trans (show mkPa 0 0x5abc = 0xabc by decide)
    have a3 : t3.pa = p3 * 4096 + 0xabc :=
      h3pa.trans (mkPa_eq p3 0xdabc (by omega))
    rw [translation_eta t0 _ _ h0r a0 f0, translation_eta t1 _ _ h1r a1 f1,
      translation_eta t2 _ _ h2r a2 f2, translation_eta t3 _ _ h3r a3 f3]

/-- C4: with `n ≥ 1` frames, from the initial state and for all draws, a call faults
exactly on a page not seen before; the faulting page that is the `(k+1)`-th
distinct page (it has `k` distinct predecessors) with `k < n` gets frame `k`, in the
returned address and in the page table; every faulting page gets a frame below `n`;
once `n` distinct pages have been seen every frame is marked allocated. With two
frames, pages 5, 9, 5, 13 give frame 0 (fault), frame 1 (fault), frame 0 (no
fault), then a fault with frame 0 or 1, for all draws; with last draw 0 or 1 the
run has one TLB hit and three misses and the last page gets frame 0 or 1. -/
theorem frames_in_first_touch_order (n : Nat) (inputs : List (Nat × Nat)) (hn : 0 < n)
    (h32 : ∀ x ∈ inputs, x.1 < 2 ^ 32) :
    (∃ s1 ts, run (initState n) inputs = some (s1, ts) ∧ ts.length = inputs.length ∧
      (∀ (i : Nat) (x : Nat × Nat) (t : Translation), inputs[i]? = some x → ts[i]? = some t →
        (t.fault = true ↔ get_vpn x.1 ∉ (inputs.take i).map (fun y => get_vpn y.1)) ∧
        (t.fault = true →
          (∃ pfn, pfn < n ∧ t.pa = mkPa pfn x.1) ∧
          (((inputs.take i).map (fun y => get_vpn y.1)).toFinset.card < n →
            t.pa = mkPa ((inputs.take i).map (fun y => get_vpn y.1)).toFinset.card x.1))) ∧
      (∀ v ∈ inputs.map (fun y => get_vpn y.1),
        rank (inputs.map (fun y => get_vpn y.1)) v < n →
        walk s1.page_directory v = some (rank (inputs.map (fun y => get_vpn y.1)) v)) ∧
      (n ≤ (inputs.map (fun y => get_vpn y.1)).toFinset.card →
        ∀ j, j < n → s1.frame_allocated[j]? = some true)) ∧
    (∀ r1 r2 r3 r4 : Nat, ∃ s f, f < 2 ∧
      run (initState 2) [(0x5abc, r1), (0x9abc, r2), (0x5abc, r3), (0xdabc, r4)] =
        some (s, [{ ret := true, pa := 0xabc, fault := true },
                  { ret := true, pa := 0x1abc, fault := true },
                  { ret := true, pa := 0xabc, fault := false },
                  { ret := true, pa := f * 4096 + 0xabc, fault := true }])) ∧
    (run (initState 2) [(0x5abc, 0), (0x9abc, 0), (0x5abc, 0), (0xdabc, 0)]).map
        (fun x => (x.2.map (fun t => (t.pa, t.fault)), x.1.tlb.hits, x.1.tlb.misses)) =
      some ([(0xabc, true), (0x1abc, true), (0xabc, false), (0xabc, true)], 1, 3) ∧
    (run (initState 2) [(0x5abc, 0), (0x9abc, 0), (0x5abc, 0), (0xdabc, 1)]).map
        (fun x => (x.2.map (fun t => (t.pa, t.fault)), x.1.tlb.hits, x.1.tlb.misses)) =
      some ([(0xabc, true), (0x1abc, true), (0xabc, false), (0x1abc, true)], 1, 3) := by
  refine ⟨?_, scenario_two_frames, by decide!, by decide!⟩
  obtain ⟨s1, ts, hrun, hinv, hlen, hidx, _⟩ :=
    run_spec n hn inputs [] (initState n) (inv_init n) h32
  simp only [List.nil_append] at hinv hidx
  refine ⟨s1, ts, hrun, hlen, ?_, ?_, ?_⟩
  · intro i x t hx ht
    obtain ⟨_, hf, pfn, hlt, hpa, hk⟩ := hidx i x t hx ht
    refine ⟨hf, ?_⟩
    intro hfault
    have hnew := hf.mp hfault
    refine ⟨⟨pfn, hlt, hpa⟩, ?_⟩
    intro hcard
    rw [rank_append_self _ _ hnew] at hk
    rw [hpa, hk hcard]
    rfl
  · intro v hv hr
    have hsome := (hinv.mapped v).mpr hv
    cases hw : walk s1.page_directory v with
    | none => rw [hw] at hsome; cases hsome
    | some f => rw [hinv.ranked v f hw hr]; rfl
  · intro hfull j hj
    rw [hinv.flags j hj]
    have hmin : min (distinct (vpnsOf inputs)) n = n := Nat.min_eq_right hfull
    rw [hmin]
    simp [hj]

theorem frames_in_first_touch_order_witness :
    ∃ s1 ts, run (initState 3) (pageSweep 5) = some (s1, ts) ∧
      ts.length = (pageSweep 5).length ∧
      (∀ v ∈ (pageSweep 5).map (fun y => get_vpn y.1),
        rank ((pageSweep 5).map (fun y => get_vpn y.1)) v < 3 →
        walk s1.page_directory v = some (rank ((pageSweep 5).map (fun y => get_vpn y.1)) v)) ∧
      (3 ≤ ((pageSweep 5).map (fun y => get_vpn y.1)).toFinset.card →
        ∀ j, j < 3 → s1.frame_allocated[j]? = some true) := by
  obtain ⟨s1, ts, h1, h2, _, h4, h5⟩ :=
    (frames_in_first_touch_order 3 (pageSweep 5) (by decide) (by decide)).1
  exact ⟨s1, ts, h1, h2, h4, h5⟩

/-! ## The frame allocator -/

/-- C5: in every allocator state the program can be in (with `n ≥ 1` frames, 256 in
the code; `allocate_frame` is the only writer of `frame_allocated` and
`allocated_frames`), if some frame is marked free the call returns the smallest index
`i` with `frame_allocated[i] = false`, sets that flag, appends `i` to
`allocated_frames` and changes nothing else; if no frame is free the call returns
`allocated_frames[r mod allocated_frames.size()]`, an element of the vector, and
changes nothing. -/
theorem allocate_frame_contract (n : Nat) (s : State) (r : Nat) (hn : 0 < n)
    (hs : AllocReachable n s) :
    (∀ i, s.frame_allocated[i]? = some false →
      (∀ j, j < i → s.frame_allocated[j]? = some true) →
      allocate_frame s r =
        some ({ s with
                frame_allocated := s.frame_allocated.set i true
                allocated_frames := s.allocated_frames ++ [i] }, i)) ∧
    ((∃ b ∈ s.frame_allocated, b = false) →
      ∃ i, s.frame_allocated[i]? = some false ∧
        (∀ j, j < i → s.frame_allocated[j]? = some true) ∧
        allocate_frame s r =
          some ({ s with
                  frame_allocated := s.frame_allocated.set i true
                  allocated_frames := s.allocated_frames ++ [i] }, i)) ∧
    ((∀ b ∈ s.frame_allocated, b = true) →
      ∃ v, s.allocated_frames[r % s.allocated_frames.length]? = some v ∧
        v ∈ s.allocated_frames ∧ allocate_frame s r = some (s, v)) := by
  refine ⟨?_, ?_, ?_⟩
  · intro i hi hb
    exact allocate_frame_of_free s r i hi hb
  · rintro ⟨b, hb, hbf⟩
    cases hff : firstFree s.frame_allocated 0 with
    | none =>
      have := (firstFree_eq_none s.frame_allocated 0).mp hff b hb
      rw [hbf] at this
      cases this
    | some i =>
      obtain ⟨k, hk, hkf, hkb⟩ := firstFree_eq_some s.frame_allocated 0 i hff
      exact ⟨k, hkf, hkb, allocate_frame_of_free s r k hkf hkb⟩
  · intro hall
    exact allocate_frame_of_full s r hall (allocReachable_nonempty n s hn hs hall)

theorem allocate_frame_contract_witness :
    allocate_frame (stateAfter NUM_FRAMES (pageSweep 2)) 7 =
      some ({ stateAfter NUM_FRAMES (pageSweep 2) with
              frame_allocated := (stateAfter NUM_FRAMES (pageSweep 2)).frame_allocated.set 2 true
              allocated_frames := (stateAfter NUM_FRAMES (pageSweep 2)).allocated_frames ++ [2] },
            2) ∧
    ∃ v, (stateAfter NUM_FRAMES (pageSweep 256)).allocated_frames[
          7 % (stateAfter NUM_FRAMES (pageSweep 256)).allocated_frames.length]? = some v ∧
      v ∈ (stateAfter NUM_FRAMES (pageSweep 256)).allocated_frames ∧
      allocate_frame (stateAfter NUM_FRAMES (pageSweep 256)) 7 =
        some (stateAfter NUM_FRAMES (pageSweep 256), v) :=
  ⟨(allocate_frame_contract NUM_FRAMES (stateAfter NUM_FRAMES (pageSweep 2)) 7 NUM_FRAMES_pos
      (reachable_allocReachable NUM_FRAMES _
        (stateAfter_reachable NUM_FRAMES NUM_FRAMES_pos (pageSweep 2) (by decide)))).1 2
      (by decide!) (by
        intro j hj
        interval_cases j <;> decide!),
   (allocate_frame_contract NUM_FRAMES (stateAfter NUM_FRAMES (pageSweep 256)) 7 NUM_FRAMES_pos
      (reachable_allocReachable NUM_FRAMES _
        (stateAfter_reachable NUM_FRAMES NUM_FRAMES_pos (pageSweep 256)
          (sweep_inputs 256 (le_refl _))))).2.2
      sweep256_full⟩


/-! ## Address decomposition -/

/-- C6: for every 32-bit `va` the three fields are in range (`l1`, `l2` below 1024,
offset below 4096, vpn below 2^20), the vpn is `l1 * 1024 + l2`, and vpn and offset
reconstruct `va`. -/
theorem address_decomposition (va : Nat) (h : va < 2 ^ 32) :
    get_l1_index va < 1024 ∧ get_l2_index va < 1024 ∧ get_offset va < 4096 ∧
    get_vpn va < 2 ^ 20 ∧ get_vpn va = get_l1_index va * 1024 + get_l2_index va ∧
    va = get_vpn va * 4096 + get_offset va := by
  rw [get_l1_index_eq, get_l2_index_eq, get_offset_eq, get_vpn_eq]
  omega

theorem address_decomposition_witness :
    get_l1_index 0x7000a1f3 < 1024 ∧ get_l2_index 0x7000a1f3 < 1024 ∧
    get_offset 0x7000a1f3 < 4096 ∧ get_vpn 0x7000a1f3 < 2 ^ 20 ∧
    get_vpn 0x7000a1f3 = get_l1_index 0x7000a1f3 * 1024 + get_l2_index 0x7000a1f3 ∧
    0x7000a1f3 = get_vpn 0x7000a1f3 * 4096 + get_offset 0x7000a1f3 :=
  address_decomposition 0x7000a1f3 (by decide)


/-! ## TLB replacement -/

theorem filledTLB_reachable (k : Nat) : TLB.Reachable (filledTLB k) := by
  induction k with
  | zero => exact TLB.Reachable.empty
  | succ k ih => exact TLB.Reachable.insert _ _ _ ih

/-- C7: when all 16 slots are valid, `insert` overwrites exactly the slot of least
timestamp (the lowest index among equals) with the new mapping stamped with the
incremented clock, leaves the other slots and both counters alone, and the TLB
still has at most 16 valid entries; translating one address on each of 17 distinct
pages from the initial state evicts the first page and keeps the other 16. -/
theorem insert_evicts_lru (t : TLB) (vpn pfn : Nat)
    (hlen : t.entries.length = 16) (hfull : t.full) :
    (∃ j e, j < 16 ∧ t.entries[j]? = some e ∧
      (∀ e1 ∈ t.entries, e.timestamp ≤ e1.timestamp) ∧
      (∀ i e1, i < j → t.entries[i]? = some e1 → e.timestamp < e1.timestamp) ∧
      (t.insert vpn pfn).entries = t.entries.set j
        { vpn := vpn, pfn := pfn, timestamp := (t.clock + 1) % 2 ^ 64, valid := true } ∧
      (t.insert vpn pfn).entries[j]? =
        some { vpn := vpn, pfn := pfn, timestamp := (t.clock + 1) % 2 ^ 64, valid := true } ∧
      (t.clock + 1 < 2 ^ 64 → (t.insert vpn pfn).entries[j]? =
        some { vpn := vpn, pfn := pfn, timestamp := t.clock + 1, valid := true }) ∧
      ∀ i, i ≠ j → (t.insert vpn pfn).entries[i]? = t.entries[i]?) ∧
    (t.insert vpn pfn).hits = t.hits ∧ (t.insert vpn pfn).misses = t.misses ∧
    (t.insert vpn pfn).entries.length = 16 ∧ (t.insert vpn pfn).validCount ≤ 16 ∧
    (run (initState NUM_FRAMES) (pageSweep 17)).map
        (fun x => (List.range 18).map (fun p => decide (x.1.tlb.holds p))) =
      some [false, false, true, true, true, true, true, true, true, true, true, true,
        true, true, true, true, true, true] := by
  have hne : t.entries ≠ [] := by
    intro hc; rw [hc] at hlen; simp at hlen
  obtain ⟨e, hje, hmin, hb⟩ := victim_full t hne hfull
  have hlt := victim_lt t hne
  have hlen1 : (t.insert vpn pfn).entries.length = 16 := by simp [TLB.insert, hlen]
  refine ⟨⟨t.victim, e, by omega, hje, hmin, hb, rfl, ?_, ?_, ?_⟩, rfl, rfl, hlen1, ?_, ?_⟩
  · simp [TLB.insert, hlt]
  · intro h
    simp only [TLB.insert, List.getElem?_set_self hlt, Nat.mod_eq_of_lt h]
  · intro i hi
    simp only [TLB.insert]
    rw [List.getElem?_set_ne (Ne.symm hi)]
  · unfold TLB.validCount
    rw [← hlen1]
    exact List.length_filter_le _ _
  · decide!

theorem insert_evicts_lru_witness :
    (filledTLB 16).entries.length = 16 ∧ (filledTLB 16).full ∧
    ((filledTLB 16).insert 99 7).hits = (filledTLB 16).hits ∧
    ((filledTLB 16).insert 99 7).misses = (filledTLB 16).misses ∧
    ((filledTLB 16).insert 99 7).entries.length = 16 ∧
    ((filledTLB 16).insert 99 7).validCount ≤ 16 :=
  have h := insert_evicts_lru (filledTLB 16) 99 7 (by decide) (by decide)
  ⟨by decide, by decide, h.2.1, h.2.2.1, h.2.2.2.1, h.2.2.2.2.1⟩

/-- C8: in every TLB state built from the empty TLB by lookup and insert calls, if
some slot (slot 0 included) is invalid then `insert` writes the new entry into a
slot that was invalid, and every valid entry stays where it was. -/
theorem insert_prefers_invalid (t : TLB) (vpn pfn : Nat) (hr : TLB.Reachable t)
    (hinv : ∃ e ∈ t.entries, e.valid = false) :
    ∃ j e, j < 16 ∧ t.entries[j]? = some e ∧ e.valid = false ∧
      (t.insert vpn pfn).entries = t.entries.set j
        { vpn := vpn, pfn := pfn, timestamp := (t.clock + 1) % 2 ^ 64, valid := true } ∧
      ∀ (i : Nat) (e1 : TLBEntry), t.entries[i]? = some e1 → e1.valid = true →
        (t.insert vpn pfn).entries[i]? = some e1 := by
  obtain ⟨hlen, hz⟩ := hr.inv
  obtain ⟨e, hje, hf⟩ := victim_invalid t hz hinv
  have hne : t.entries ≠ [] := by
    intro hc; rw [hc] at hlen; simp at hlen
  have hlt := victim_lt t hne
  refine ⟨t.victim, e, by omega, hje, hf, rfl, ?_⟩
  intro i e1 hie hv
  have hne1 : t.victim ≠ i := by
    intro hc
    rw [hc] at hje
    rw [hje] at hie
    simp only [Option.some.injEq] at hie
    rw [hie] at hf; rw [hf] at hv; cases hv
  simp only [TLB.insert]
  rw [List.getElem?_set_ne hne1]
  exact hie

theorem insert_prefers_invalid_witness :
    ∃ j e, j < 16 ∧ (filledTLB 15).entries[j]? = some e ∧ e.valid = false ∧
      ((filledTLB 15).insert 99 7).entries = (filledTLB 15).entries.set j
        { vpn := 99, pfn := 7, timestamp := ((filledTLB 15).clock + 1) % 2 ^ 64,
          valid := true } ∧
      ∀ (i : Nat) (e1 : TLBEntry), (filledTLB 15).entries[i]? = some e1 → e1.valid = true →
        ((filledTLB 15).insert 99 7).entries[i]? = some e1 :=
  insert_prefers_invalid (filledTLB 15) 99 7 (filledTLB_reachable 15)
    ⟨{}, by decide, rfl⟩


/-! ## TLB hits -/

/-- C9: in every state, if the valid TLB entry that holds the page of `va` (slot
`i`, the slot the lookup matches: the first valid one with that page) has frame `f`,
then `translate(va)` returns `pa = (f << 12) | (va & 0xFFF)` with `fault = false`,
leaves the page directory, `frame_allocated` and `allocated_frames` unchanged, and in
the TLB changes only the timestamp of slot `i`, the clock and the hit counter; and
in every reachable state slot `i` is the only valid slot that holds the page. -/
theorem tlb_hit_frame (s : State) (va r i : Nat) (e : TLBEntry)
    (hi : s.tlb.entries[i]? = some e) (hv : e.valid = true) (hvpn : e.vpn = get_vpn va)
    (hfirst : ∀ j e1, j < i → s.tlb.entries[j]? = some e1 →
      ¬ (e1.valid = true ∧ e1.vpn = get_vpn va)) :
    (∃ s1 t, translate s va r = some (s1, t) ∧
      t.ret = true ∧ t.pa = ((e.pfn <<< 12) % 2 ^ 32) ||| (va &&& 0xFFF) ∧ t.fault = false ∧
      s1.page_directory = s.page_directory ∧
      s1.frame_allocated = s.frame_allocated ∧
      s1.allocated_frames = s.allocated_frames ∧
      s1.tlb.entries = s.tlb.entries.set i { e with timestamp := (s.tlb.clock + 1) % 2 ^ 64 } ∧
      (∀ j, j ≠ i → s1.tlb.entries[j]? = s.tlb.entries[j]?) ∧
      s1.tlb.clock = (s.tlb.clock + 1) % 2 ^ 64 ∧
      s1.tlb.hits = s.tlb.hits + 1 ∧
      s1.tlb.misses = s.tlb.misses) ∧
    (Reachable NUM_FRAMES s → ∀ (j : Nat) (e1 : TLBEntry), s.tlb.entries[j]? = some e1 →
      e1.valid = true → e1.vpn = get_vpn va → j = i ∧ e1 = e) := by
  have hl := lookup_hit s.tlb (get_vpn va) i e hi hv hvpn hfirst
  refine ⟨⟨_, _, translate_of_hit s va r _ _ hl, rfl, rfl, rfl, rfl, rfl, rfl, rfl, ?_, rfl, rfl,
    rfl⟩, ?_⟩
  · intro j hj
    simp only
    rw [List.getElem?_set_ne (Ne.symm hj)]
  · intro hs j e1 hj hv1 hvpn1
    obtain ⟨vs, _, hinv2⟩ := reachable_inv2 NUM_FRAMES s NUM_FRAMES_pos hs
    have hji : j = i := hinv2.nodup j i e1 e hj hi hv1 hv (by rw [hvpn1, hvpn])
    subst hji
    rw [hi] at hj
    exact ⟨rfl, (Option.some.inj hj).symm⟩

theorem tlb_hit_frame_witness :
    ∃ s1 t, translate (stateAfter NUM_FRAMES (pageSweep 3)) 0x2abc 0 = some (s1, t) ∧
      t.ret = true ∧ t.pa = ((1 <<< 12) % 2 ^ 32) ||| (0x2abc &&& 0xFFF) ∧ t.fault = false ∧
      s1.page_directory = (stateAfter NUM_FRAMES (pageSweep 3)).page_directory ∧
      s1.frame_allocated = (stateAfter NUM_FRAMES (pageSweep 3)).frame_allocated ∧
      s1.allocated_frames = (stateAfter NUM_FRAMES (pageSweep 3)).allocated_frames := by
  obtain ⟨⟨s1, t, h1, h2, h3, h4, h5, h6, h7, _⟩, _⟩ :=
    tlb_hit_frame (stateAfter NUM_FRAMES (pageSweep 3)) 0x2abc 0 2
      { vpn := 2, pfn := 1, timestamp := 2, valid := true }
      (by decide!) (by decide) (by decide!) (by
        intro j e1 hj hje hc
        have h0 : (stateAfter NUM_FRAMES (pageSweep 3)).tlb.entries[0]? =
            some ({} : TLBEntry) := by decide!
        have h1 : (stateAfter NUM_FRAMES (pageSweep 3)).tlb.entries[1]? =
            some { vpn := 1, pfn := 0, timestamp := 1, valid := true } := by decide!
        have h2 : get_vpn 0x2abc = 2 := by decide
        rw [h2] at hc
        interval_cases j
        · rw [h0] at hje
          rw [← Option.some.inj hje] at hc
          exact absurd hc.1 (by decide)
        · rw [h1] at hje
          rw [← Option.some.inj hje] at hc
          exact absurd hc.2 (by decide))
  exact ⟨s1, t, h1, h2, h3, h4, h5, h6, h7⟩

/-! ## Totality -/

/-- C10: from the initial state every run over 32-bit addresses completes with
every call returning true; and in every reachable state a call of `translate`
completes, the directory and table indices are below 1024 (the directory has 1024
entries), a present directory entry owns a 1024-entry table, and when no frame is
free `allocated_frames` is not empty, so the modulus is not zero and the victim
index is within the vector. -/
theorem translate_total (inputs : List (Nat × Nat)) (s : State) (va r : Nat)
    (h32 : ∀ x ∈ inputs, x.1 < 2 ^ 32) (hs : Reachable NUM_FRAMES s) (hva : va < 2 ^ 32) :
    (∃ s1 ts, run (initState NUM_FRAMES) inputs = some (s1, ts) ∧
      ts.length = inputs.length ∧ ∀ t ∈ ts, t.ret = true) ∧
    (∃ s1 t, translate s va r = some (s1, t) ∧ t.ret = true ∧ Reachable NUM_FRAMES s1) ∧
    s.page_directory.length = 1024 ∧ get_l1_index va < 1024 ∧ get_l2_index va < 1024 ∧
    (∀ pde, s.page_directory[get_l1_index va]? = some pde → pde.present = true →
      ∃ table, pde.pt = some table ∧ table.length = 1024) ∧
    ((∀ b ∈ s.frame_allocated, b = true) →
      s.allocated_frames.length ≠ 0 ∧
      r % s.allocated_frames.length < s.allocated_frames.length) := by
  obtain ⟨vs, hinv⟩ := reachable_inv NUM_FRAMES s NUM_FRAMES_pos hs
  refine ⟨?_, ?_, hinv.pd_len, ?_, ?_, ?_, ?_⟩
  · obtain ⟨s1, ts, hrun, _, hlen, hidx, _⟩ :=
      run_spec NUM_FRAMES NUM_FRAMES_pos inputs [] (initState NUM_FRAMES)
        (inv_init NUM_FRAMES) h32
    refine ⟨s1, ts, hrun, hlen, ?_⟩
    intro t ht
    obtain ⟨i, hi, hit⟩ := List.getElem_of_mem ht
    have hi2 : i < inputs.length := by omega
    exact (hidx i inputs[i] t (List.getElem?_eq_getElem hi2)
      (by rw [List.getElem?_eq_getElem hi, hit])).1
  · obtain ⟨s1, t, ht, _, hspec, _⟩ :=
      translate_step NUM_FRAMES vs s va r NUM_FRAMES_pos hinv hva
    exact ⟨s1, t, ht, hspec.1, Reachable.step s s1 va r t hs hva ht⟩
  · rw [get_l1_index_eq]; omega
  · rw [get_l2_index_eq]; omega
  · intro pde hpde hp
    exact hinv.tables _ pde hpde hp
  · intro hall
    have hlast := hinv.flags (NUM_FRAMES - 1) (by decide)
    have hmem : (true : Bool) = decide (NUM_FRAMES - 1 < min (distinct vs) NUM_FRAMES) := by
      have h1 := hall _ (List.getElem?_mem hlast)
      exact h1.symm
    have hmin : NUM_FRAMES - 1 < min (distinct vs) NUM_FRAMES := by
      simpa using hmem.symm
    have hlen : s.allocated_frames.length = min (distinct vs) NUM_FRAMES := by
      rw [hinv.alloc]; simp
    have hpos : 0 < s.allocated_frames.length := by omega
    exact ⟨by omega, Nat.mod_lt _ hpos⟩

theorem translate_total_witness :
    (∃ s1 ts, run (initState NUM_FRAMES) (pageSweep 17) = some (s1, ts) ∧
      ts.length = (pageSweep 17).length ∧ ∀ t ∈ ts, t.ret = true) ∧
    (∃ s1 t, translate (initState NUM_FRAMES) 0x7000a1f3 5 = some (s1, t) ∧ t.ret = true ∧
      Reachable NUM_FRAMES s1) :=
  have h := translate_total (pageSweep 17) (initState NUM_FRAMES) 0x7000a1f3 5
    (by decide) Reachable.init (by decide)
  ⟨h.1, h.2.1⟩

/-! ## Page-table entries and their copies in the TLB -/

/-- C11: in every reachable state, a call of `translate` (any 32-bit address, any
draw) completes and keeps every valid page-table entry valid with the same frame,
also under exhaustion; an entry that becomes valid in the call is the entry of the
translated page, and the call reports a fault. -/
theorem page_table_write_once (s : State) (va r : Nat) (hs : Reachable NUM_FRAMES s)
    (hva : va < 2 ^ 32) :
    ∃ s1 t, translate s va r = some (s1, t) ∧
      (∀ v f, walk s.page_directory v = some f → walk s1.page_directory v = some f) ∧
      (∀ v, walk s.page_directory v = none → walk s1.page_directory v ≠ none →
        v = get_vpn va ∧ t.fault = true) := by
  obtain ⟨vs, hinv⟩ := reachable_inv NUM_FRAMES s NUM_FRAMES_pos hs
  obtain ⟨s1, t, ht, _⟩ := translate_step NUM_FRAMES vs s va r NUM_FRAMES_pos hinv hva
  refine ⟨s1, t, ht, ?_, ?_⟩
  · intro v f hv
    rcases translate_walk NUM_FRAMES vs s s1 va r t NUM_FRAMES_pos hinv hva ht with
      ⟨_, hsame⟩ | ⟨_, hnone, pfn, _, _, _, hnew⟩
    · rw [hsame v]; exact hv
    · have hne : v ≠ get_vpn va := by
        intro hc; rw [hc, hnone] at hv; cases hv
      rw [hnew v, if_neg hne]; exact hv
  · intro v hv hv1
    rcases translate_walk NUM_FRAMES vs s s1 va r t NUM_FRAMES_pos hinv hva ht with
      ⟨_, hsame⟩ | ⟨hf, _, pfn, _, _, _, hnew⟩
    · rw [hsame v] at hv1; exact absurd hv hv1
    · refine ⟨?_, hf⟩
      by_contra hne
      rw [hnew v, if_neg hne] at hv1
      exact hv1 hv

theorem page_table_write_once_witness :
    ∃ s1 t, translate (stateAfter NUM_FRAMES (pageSweep 3)) 0x7000a1f3 5 = some (s1, t) ∧
      (∀ v f, walk (stateAfter NUM_FRAMES (pageSweep 3)).page_directory v = some f →
        walk s1.page_directory v = some f) ∧
      (∀ v, walk (stateAfter NUM_FRAMES (pageSweep 3)).page_directory v = none →
        walk s1.page_directory v ≠ none → v = get_vpn 0x7000a1f3 ∧ t.fault = true) :=
  page_table_write_once (stateAfter NUM_FRAMES (pageSweep 3)) 0x7000a1f3 5
    (stateAfter_reachable NUM_FRAMES NUM_FRAMES_pos (pageSweep 3) (by decide)) (by decide)

/-- C12: in every reachable state (also after the frame pool is exhausted), every
valid TLB entry `(vpn, pfn)` has a present directory entry whose table holds, at
the index of `vpn`, a valid page-table entry with frame `pfn`. -/
theorem tlb_agrees_with_page_table (s : State) (e : TLBEntry) (hs : Reachable NUM_FRAMES s)
    (he : e ∈ s.tlb.entries) (hv : e.valid = true) :
    e.vpn < 2 ^ 20 ∧
    get_l1_index (e.vpn <<< 12) = e.vpn / 1024 ∧ get_l2_index (e.vpn <<< 12) = e.vpn % 1024 ∧
    ∃ pde table pte, s.page_directory[get_l1_index (e.vpn <<< 12)]? = some pde ∧
      pde.present = true ∧ pde.pt = some table ∧
      table[get_l2_index (e.vpn <<< 12)]? = some pte ∧
      pte.valid = true ∧ pte.frame = e.pfn := by
  obtain ⟨vs, hinv⟩ := reachable_inv NUM_FRAMES s NUM_FRAMES_pos hs
  have hw := hinv.tlb_agrees e he hv
  obtain ⟨pde, table, pte, hpd, hp, hpt, hte, hpv, hf⟩ := (walk_eq_some _ _ _).mp hw
  have hlt : e.vpn / 1024 < 1024 := by
    by_contra hc
    rw [List.getElem?_eq_none (by rw [hinv.pd_len]; omega)] at hpd
    cases hpd
  have h20 : e.vpn < 2 ^ 20 := by omega
  have h1 : get_l1_index (e.vpn <<< 12) = e.vpn / 1024 := by
    rw [get_l1_index_eq, Nat.shiftLeft_eq]; omega
  have h2 : get_l2_index (e.vpn <<< 12) = e.vpn % 1024 := by
    rw [get_l2_index_eq, Nat.shiftLeft_eq]; omega
  refine ⟨h20, h1, h2, pde, table, pte, ?_, hp, hpt, ?_, hpv, hf⟩
  · rw [h1]; exact hpd
  · rw [h2]; exact hte

theorem tlb_agrees_with_page_table_witness :
    ∃ pde table pte,
      (stateAfter NUM_FRAMES (pageSweep 3)).page_directory[get_l1_index (2 <<< 12)]? =
        some pde ∧
      pde.present = true ∧ pde.pt = some table ∧
      table[get_l2_index (2 <<< 12)]? = some pte ∧ pte.valid = true ∧ pte.frame = 1 :=
  (tlb_agrees_with_page_table (stateAfter NUM_FRAMES (pageSweep 3))
    { vpn := 2, pfn := 1, timestamp := 2, valid := true }
    (stateAfter_reachable NUM_FRAMES NUM_FRAMES_pos (pageSweep 3) (by decide))
    (by decide!) rfl).2.2.2

/-! ## No duplicates in the TLB -/

/-- C18: in every state reachable by `translate` calls no two valid TLB slots hold
the same virtual page number; `insert` alone does not keep this: after
`insert(5, 1); insert(5, 2)` on the empty TLB, slots 1 and 2 are both valid with
page 5. -/
theorem tlb_no_duplicates (s : State) (i j : Nat) (e1 e2 : TLBEntry)
    (hs : Reachable NUM_FRAMES s)
    (h1 : s.tlb.entries[i]? = some e1) (h2 : s.tlb.entries[j]? = some e2)
    (hv1 : e1.valid = true) (hv2 : e2.valid = true) (hvpn : e1.vpn = e2.vpn) :
    i = j ∧
    ((TLB.empty.insert 5 1).insert 5 2).entries[1]? =
      some { vpn := 5, pfn := 1, timestamp := 1, valid := true } ∧
    ((TLB.empty.insert 5 1).insert 5 2).entries[2]? =
      some { vpn := 5, pfn := 2, timestamp := 2, valid := true } := by
  obtain ⟨vs, _, hinv2⟩ := reachable_inv2 NUM_FRAMES s NUM_FRAMES_pos hs
  exact ⟨hinv2.nodup i j e1 e2 h1 h2 hv1 hv2 hvpn, by decide, by decide⟩

theorem tlb_no_duplicates_witness :
    (2 : Nat) = 2 ∧
    ((TLB.empty.insert 5 1).insert 5 2).entries[1]? =
      some { vpn := 5, pfn := 1, timestamp := 1, valid := true } ∧
    ((TLB.empty.insert 5 1).insert 5 2).entries[2]? =
      some { vpn := 5, pfn := 2, timestamp := 2, valid := true } :=
  tlb_no_duplicates (stateAfter NUM_FRAMES (pageSweep 3)) 2 2
    { vpn := 2, pfn := 1, timestamp := 2, valid := true }
    { vpn := 2, pfn := 1, timestamp := 2, valid := true }
    (stateAfter_reachable NUM_FRAMES NUM_FRAMES_pos (pageSweep 3) (by decide))
    (by decide!) (by decide!) rfl rfl rfl

/-! ## Second-level tables -/

/-- C13: after any run from the initial state the directory entry at index `d` is
present exactly when some translated address has first-level index `d`; and in every
reachable state a call of `translate` keeps a present entry present with its table
(which at most gains the faulting entry, overwriting an invalid one), and leaves an
absent entry absent unless it is the entry indexed by `va`, which then gets a fresh
table of `PT_ENTRIES` invalid entries holding only the faulting entry. -/
theorem lazy_tables (inputs : List (Nat × Nat)) (s : State) (va r : Nat)
    (h32 : ∀ x ∈ inputs, x.1 < 2 ^ 32) (hs : Reachable NUM_FRAMES s) (hva : va < 2 ^ 32) :
    (∃ s1 ts, run (initState NUM_FRAMES) inputs = some (s1, ts) ∧
      ∀ (d : Nat) (pde : PageDirectoryEntry), s1.page_directory[d]? = some pde →
        (pde.present = true ↔ ∃ x ∈ inputs, get_l1_index x.1 = d)) ∧
    (∃ s1 t, translate s va r = some (s1, t) ∧
      ∀ (d : Nat) (pde : PageDirectoryEntry), s.page_directory[d]? = some pde →
        (pde.present = true → ∃ table table1, pde.pt = some table ∧
          s1.page_directory[d]? = some { present := true, pt := some table1 } ∧
          (table1 = table ∨
            ∃ pfn pte, d = get_l1_index va ∧ t.fault = true ∧
              table[get_l2_index va]? = some pte ∧ pte.valid = false ∧
              table1 = table.set (get_l2_index va) { valid := true, frame := pfn })) ∧
        (pde.present = false →
          s1.page_directory[d]? = some pde ∨
          (d = get_l1_index va ∧ t.fault = true ∧
            ∃ pfn, s1.page_directory[d]? =
              some { present := true,
                     pt := some ((List.replicate PT_ENTRIES {}).set (get_l2_index va)
                       { valid := true, frame := pfn }) }))) := by
  constructor
  · obtain ⟨s1, ts, hrun, _, hinv2⟩ :=
      run_inv2 NUM_FRAMES NUM_FRAMES_pos inputs [] (initState NUM_FRAMES)
        (inv_init NUM_FRAMES) (inv2_init NUM_FRAMES) h32
    refine ⟨s1, ts, hrun, ?_⟩
    intro d pde hd
    rw [hinv2.dir d pde hd]
    simp only [List.nil_append, vpnsOf, List.mem_map]
    constructor
    · rintro ⟨v, ⟨x, hx, rfl⟩, hvd⟩
      exact ⟨x, hx, by rw [get_l1_index_vpn x.1 (h32 x hx)]; exact hvd⟩
    · rintro ⟨x, hx, hxd⟩
      exact ⟨get_vpn x.1, ⟨x, hx, rfl⟩, by rw [← get_l1_index_vpn x.1 (h32 x hx)]; exact hxd⟩
  · obtain ⟨vs, hinv⟩ := reachable_inv NUM_FRAMES s NUM_FRAMES_pos hs
    obtain ⟨s1, t, ht, _⟩ := translate_step NUM_FRAMES vs s va r NUM_FRAMES_pos hinv hva
    exact ⟨s1, t, ht, fun d pde hd =>
      translate_dir NUM_FRAMES vs s s1 va r t NUM_FRAMES_pos hinv hva ht d pde hd⟩

theorem lazy_tables_witness :
    ∃ s1 ts, run (initState NUM_FRAMES) (pageSweep 3) = some (s1, ts) ∧
      ∀ (d : Nat) (pde : PageDirectoryEntry), s1.page_directory[d]? = some pde →
        (pde.present = true ↔ ∃ x ∈ pageSweep 3, get_l1_index x.1 = d) :=
  (lazy_tables (pageSweep 3) (stateAfter NUM_FRAMES (pageSweep 3)) 0x7000a1f3 5 (by decide)
    (stateAfter_reachable NUM_FRAMES NUM_FRAMES_pos (pageSweep 3) (by decide)) (by decide)).1

/-! ## Determinism -/

/-- C14: two runs from the initial state over the same 32-bit addresses, with at
most 256 distinct pages, complete with the same results and the same final state
whatever their draws; and two runs over the same addresses with the same draws are
identical for any address sequence. -/
theorem deterministic_while_frames_remain (inputs1 inputs2 : List (Nat × Nat))
    (haddr : inputs1.map (fun x => x.1) = inputs2.map (fun x => x.1))
    (h32 : ∀ x ∈ inputs1, x.1 < 2 ^ 32) :
    (((inputs1.map (fun y => get_vpn y.1)).toFinset).card ≤ 256 →
      ∃ s1 ts, run (initState NUM_FRAMES) inputs1 = some (s1, ts) ∧
        run (initState NUM_FRAMES) inputs2 = some (s1, ts)) ∧
    (inputs1.map (fun x => x.2) = inputs2.map (fun x => x.2) →
      run (initState NUM_FRAMES) inputs1 = run (initState NUM_FRAMES) inputs2) := by
  constructor
  · intro hcard
    obtain ⟨s1, ts, hrun, _⟩ :=
      run_spec NUM_FRAMES NUM_FRAMES_pos inputs1 [] (initState NUM_FRAMES)
        (inv_init NUM_FRAMES) h32
    refine ⟨s1, ts, hrun, ?_⟩
    rw [← run_draw_irrelevant NUM_FRAMES NUM_FRAMES_pos inputs1 inputs2 []
      (initState NUM_FRAMES) (inv_init NUM_FRAMES) haddr h32 (by simpa [vpnsOf, distinct] using hcard)]
    exact hrun
  · intro hdraw
    have heq : inputs1 = inputs2 := by
      apply List.ext_getElem?
      intro i
      have h1 := congrArg (fun l => l[i]?) haddr
      have h2 := congrArg (fun l => l[i]?) hdraw
      simp only [List.getElem?_map] at h1 h2
      cases ha : inputs1[i]? with
      | none =>
        cases hb : inputs2[i]? with
        | none => rfl
        | some y => rw [ha, hb] at h1; simp at h1
      | some x =>
        cases hb : inputs2[i]? with
        | none => rw [ha, hb] at h1; simp at h1
        | some y =>
          rw [ha, hb] at h1 h2
          simp only [Option.map_some', Option.some.injEq] at h1 h2
          rw [Prod.ext h1 h2]
    rw [heq]

theorem deterministic_while_frames_remain_witness :
    ∃ s1 ts,
      run (initState NUM_FRAMES) [(0x5abc, 3), (0x9abc, 1), (0x5def, 4), (0xdabc, 1)] =
        some (s1, ts) ∧
      run (initState NUM_FRAMES) [(0x5abc, 2), (0x9abc, 7), (0x5def, 1), (0xdabc, 8)] =
        some (s1, ts) :=
  (deterministic_while_frames_remain
    [(0x5abc, 3), (0x9abc, 1), (0x5def, 4), (0xdabc, 1)]
    [(0x5abc, 2), (0x9abc, 7), (0x5def, 1), (0xdabc, 8)] (by decide) (by decide)).1 (by decide)

/-! ## Aliasing of frames -/

/-- C15 as stated fails for the TLB: with 256 frames, after the first touches of
pages 1..256 every frame is allocated and page 241 holds frame 240, in the page table
and in TLB slot 1, the least recently used slot. The faulting call for page 257 with a
draw `r = 240` gives page 257 frame 240 and writes its entry into slot 1: after that
very call no valid TLB slot holds page 241, the page that already held the frame,
while its page-table entry stays. -/
theorem aliasing_fault_evicts_holder :
    Reachable NUM_FRAMES (stateAfter NUM_FRAMES (pageSweep 256)) ∧
    (∀ b ∈ (stateAfter NUM_FRAMES (pageSweep 256)).frame_allocated, b = true) ∧
    walk (stateAfter NUM_FRAMES (pageSweep 256)).page_directory 241 = some 240 ∧
    walk (stateAfter NUM_FRAMES (pageSweep 256)).page_directory 257 = none ∧
    (stateAfter NUM_FRAMES (pageSweep 256)).tlb.entries[1]? =
      some { vpn := 241, pfn := 240, timestamp := 241, valid := true } ∧
    (stateAfter NUM_FRAMES (pageSweep 256)).tlb.victim = 1 ∧
    (stateAfter NUM_FRAMES (pageSweep 256)).tlb.holds 241 ∧
    get_vpn 0x101abc = 257 ∧
    ∃ s1 t, translate (stateAfter NUM_FRAMES (pageSweep 256)) 0x101abc 240 = some (s1, t) ∧
      t.fault = true ∧ t.pa = mkPa 240 0x101abc ∧
      s1.tlb.entries[1]? = some { vpn := 257, pfn := 240, timestamp := 257, valid := true } ∧
      ¬ s1.tlb.holds 241 ∧
      walk s1.page_directory 241 = some 240 ∧ walk s1.page_directory 257 = some 240 :=
  ⟨stateAfter_reachable NUM_FRAMES NUM_FRAMES_pos (pageSweep 256) (sweep_inputs 256 (le_refl _)),
    sweep256_full, sweep256_facts⟩

/-- C15, amended: with `n ≥ 1` frames (256 in the code), after any run over more than
`n` distinct pages the page table maps two distinct pages to the same frame; and a
faulting call in a reachable state with every frame allocated gives the new page a
frame that another page holds and keeps in the page table, leaves every valid
page-table entry valid with its frame, clears no valid TLB slot, and changes no TLB
slot other than the one `insert` selects, which receives the entry of the new page
(so the TLB entry of the page that held the frame survives exactly when it is not in
that slot). With two frames and pages 1, 2, 3 (draw 0), pages 1 and 3 both map to
frame 0 in the page table and in two valid TLB slots. -/
theorem frame_aliasing (n : Nat) (inputs : List (Nat × Nat)) (s : State) (va r : Nat)
    (hn : 0 < n) (h32 : ∀ x ∈ inputs, x.1 < 2 ^ 32)
    (hmore : n < ((inputs.map (fun y => get_vpn y.1)).toFinset).card)
    (hs : Reachable n s) (hva : va < 2 ^ 32)
    (hfull : ∀ b ∈ s.frame_allocated, b = true)
    (hnew : walk s.page_directory (get_vpn va) = none) :
    (∃ s1 ts, run (initState n) inputs = some (s1, ts) ∧
      ∃ v w f, v ≠ w ∧ walk s1.page_directory v = some f ∧
        walk s1.page_directory w = some f) ∧
    (∃ s1 t, translate s va r = some (s1, t) ∧ t.fault = true ∧
      (∃ f p, f < n ∧ p ≠ get_vpn va ∧ t.pa = mkPa f va ∧
        walk s.page_directory p = some f ∧ walk s1.page_directory p = some f ∧
        walk s1.page_directory (get_vpn va) = some f ∧
        s1.tlb.entries[s.tlb.victim]? =
          some { vpn := get_vpn va, pfn := f, timestamp := (s.tlb.clock + 1) % 2 ^ 64,
                 valid := true }) ∧
      (∀ v g, walk s.page_directory v = some g → walk s1.page_directory v = some g) ∧
      (∀ (i : Nat) (e : TLBEntry), s.tlb.entries[i]? = some e → e.valid = true →
        ∃ e1, s1.tlb.entries[i]? = some e1 ∧ e1.valid = true) ∧
      (∀ i, i ≠ s.tlb.victim → s1.tlb.entries[i]? = s.tlb.entries[i]?)) ∧
    ((stateAfter 2 (pageSweep 3)).tlb.entries[1]? =
        some { vpn := 1, pfn := 0, timestamp := 1, valid := true } ∧
      (stateAfter 2 (pageSweep 3)).tlb.entries[3]? =
        some { vpn := 3, pfn := 0, timestamp := 3, valid := true } ∧
      walk (stateAfter 2 (pageSweep 3)).page_directory 1 = some 0 ∧
      walk (stateAfter 2 (pageSweep 3)).page_directory 3 = some 0) := by
  refine ⟨?_, ?_, by decide!⟩
  · obtain ⟨s1, ts, hrun, hinv, _⟩ :=
      run_spec n hn inputs [] (initState n) (inv_init n) h32
    exact ⟨s1, ts, hrun, shared_frame n _ s1 hinv (by simpa [vpnsOf, distinct] using hmore)⟩
  · obtain ⟨vs, hinv, hinv2⟩ := reachable_inv2 n s hn hs
    obtain ⟨s1, t, ht, hf, hpa, hwn, ⟨p, hpne, hp, hp1⟩, htlb, _, _⟩ :=
      fault_when_exhausted n vs s va r hn hinv hinv2 hva hfull hnew
    have hne : s.tlb.entries ≠ [] := by
      intro hc
      have := hinv.tlb_len
      rw [hc] at this
      simp at this
    have hvic := victim_lt s.tlb hne
    refine ⟨s1, t, ht, hf, ⟨r % n, p, Nat.mod_lt _ hn, hpne, hpa, hp, hp1, hwn, ?_⟩, ?_, ?_, ?_⟩
    · rw [htlb, List.getElem?_set_self hvic]
    · intro v g hv
      rcases translate_walk n vs s s1 va r t hn hinv hva ht with
        ⟨_, hsame⟩ | ⟨_, hnone, pfn, _, _, _, hnw⟩
      · rw [hsame v]; exact hv
      · have hvne : v ≠ get_vpn va := by
          intro hc; rw [hc, hnone] at hv; cases hv
        rw [hnw v, if_neg hvne]; exact hv
    · intro i e hi hv
      rw [htlb]
      by_cases hiv : s.tlb.victim = i
      · subst hiv
        rw [List.getElem?_set_self hvic]
        exact ⟨_, rfl, rfl⟩
      · rw [List.getElem?_set_ne hiv]
        exact ⟨e, hi, hv⟩
    · intro i hi
      rw [htlb, List.getElem?_set_ne (Ne.symm hi)]

theorem frame_aliasing_witness :
    (∃ s1 ts, run (initState 2) (pageSweep 3) = some (s1, ts) ∧
      ∃ v w f, v ≠ w ∧ walk s1.page_directory v = some f ∧
        walk s1.page_directory w = some f) ∧
    (∃ s1 t, translate (stateAfter 2 (pageSweep 2)) 0x3abc 1 = some (s1, t) ∧
      t.fault = true ∧
      (∃ f p, f < 2 ∧ p ≠ get_vpn 0x3abc ∧ t.pa = mkPa f 0x3abc ∧
        walk (stateAfter 2 (pageSweep 2)).page_directory p = some f ∧
        walk s1.page_directory p = some f ∧
        walk s1.page_directory (get_vpn 0x3abc) = some f)) := by
  have h := frame_aliasing 2 (pageSweep 3) (stateAfter 2 (pageSweep 2)) 0x3abc 1 (by decide)
    (by decide) (by decide) (stateAfter_reachable 2 (by decide) (pageSweep 2) (by decide))
    (by decide) (by decide!) (by decide!)
  obtain ⟨h1, ⟨s1, t, h2, h3, ⟨f, p, hf, hp, hpa, hw, hw1, hwn, _⟩, _⟩, _⟩ := h
  exact ⟨h1, s1, t, h2, h3, f, p, hf, hp, hpa, hw, hw1, hwn⟩

/-! ## The TLB clock -/

/-- C17 as stated fails: a lookup that misses leaves the clock where it was; on the
empty TLB the clock is 0 before and after `lookup(5)`. -/
theorem lookup_miss_keeps_clock :
    (TLB.empty.lookup 5).2 = none ∧ TLB.empty.clock = 0 ∧ (TLB.empty.lookup 5).1.clock = 0 ∧
    ¬ TLB.empty.clock < (TLB.empty.lookup 5).1.clock := by
  decide

/-- C17, amended: in every TLB state with 16 slots whose clock does not wrap in the
call, `insert` and a `lookup` that hits leave the clock strictly greater and store
the new clock value as the timestamp of the slot they touch; a `lookup` that misses
leaves the clock unchanged. -/
theorem clock_advances_on_stamp (t : TLB) (vpn pfn : Nat) (hlen : t.entries.length = 16)
    (hnw : t.clock + 1 < 2 ^ 64) :
    (t.clock < (t.insert vpn pfn).clock ∧
      (t.insert vpn pfn).entries[t.victim]? =
        some { vpn := vpn, pfn := pfn, timestamp := (t.insert vpn pfn).clock, valid := true }) ∧
    (∀ f, (t.lookup vpn).2 = some f →
      t.clock < (t.lookup vpn).1.clock ∧
      ∃ (i : Nat) (e : TLBEntry), t.entries[i]? = some e ∧ e.valid = true ∧ e.vpn = vpn ∧
        e.pfn = f ∧
        (∀ (j : Nat) (e1 : TLBEntry), j < i → t.entries[j]? = some e1 →
          ¬ (e1.valid = true ∧ e1.vpn = vpn)) ∧
        (t.lookup vpn).1.entries[i]? =
          some { e with timestamp := (t.lookup vpn).1.clock }) ∧
    ((t.lookup vpn).2 = none → (t.lookup vpn).1.clock = t.clock) := by
  have hne : t.entries ≠ [] := by
    intro hc; rw [hc] at hlen; simp at hlen
  have hvic := victim_lt t hne
  have hmod : (t.clock + 1) % 2 ^ 64 = t.clock + 1 := Nat.mod_eq_of_lt hnw
  refine ⟨⟨?_, ?_⟩, ?_, ?_⟩
  · simp only [TLB.insert, hmod]; omega
  · simp only [TLB.insert, List.getElem?_set_self hvic]
  · intro f hf
    rcases lookup_cases t vpn with ⟨_, hl⟩ | ⟨i, e, hi, hv, hvpn, hfirst, hl⟩
    · rw [hl] at hf; cases hf
    · rw [hl] at hf ⊢
      simp only [Option.some.injEq] at hf
      have hlt : i < t.entries.length := by
        by_contra hc
        rw [List.getElem?_eq_none (by omega)] at hi
        cases hi
      refine ⟨by simp only [hmod]; omega, i, e, hi, hv, hvpn, hf, hfirst, ?_⟩
      simp only [List.getElem?_set_self hlt]
  · intro hnone
    rcases lookup_cases t vpn with ⟨_, hl⟩ | ⟨i, e, _, _, _, _, hl⟩
    · rw [hl]
    · rw [hl] at hnone; cases hnone

theorem clock_advances_on_stamp_witness :
    (filledTLB 3).clock < ((filledTLB 3).insert 9 4).clock ∧
    ((filledTLB 3).insert 9 4).entries[(filledTLB 3).victim]? =
      some { vpn := 9, pfn := 4, timestamp := ((filledTLB 3).insert 9 4).clock,
             valid := true } :=
  (clock_advances_on_stamp (filledTLB 3) 9 4 (by decide) (by decide)).1

/-- C20: in every TLB state reached from the empty TLB by lookup and insert calls
without clock wrap-around, an invalid slot has timestamp 0, a valid slot has a
timestamp between 1 and the clock, valid slots have pairwise distinct timestamps,
and when all 16 slots are valid the slot `insert` selects is strictly older than
every other slot, so no tie is broken by index. -/
theorem timestamp_invariant (t : TLB) (h : TLB.ReachableNoWrap t) :
    t.entries.length = 16 ∧
    (∀ e ∈ t.entries, e.valid = false → e.timestamp = 0) ∧
    (∀ e ∈ t.entries, e.valid = true → 1 ≤ e.timestamp ∧ e.timestamp ≤ t.clock) ∧
    (∀ (i j : Nat) (e1 e2 : TLBEntry), t.entries[i]? = some e1 → t.entries[j]? = some e2 →
      e1.valid = true → e2.valid = true → e1.timestamp = e2.timestamp → i = j) ∧
    (t.full → ∃ e, t.entries[t.victim]? = some e ∧
      ∀ (i : Nat) (e1 : TLBEntry), i ≠ t.victim → t.entries[i]? = some e1 →
        e.timestamp < e1.timestamp) := by
  have hinv := h.tsInv
  refine ⟨hinv.len, hinv.invalid_zero, hinv.valid_range, hinv.distinct_ts, ?_⟩
  intro hfull
  have hne : t.entries ≠ [] := by
    intro hc
    have := hinv.len
    rw [hc] at this
    simp at this
  obtain ⟨e, hje, hmin, _⟩ := victim_full t hne hfull
  refine ⟨e, hje, ?_⟩
  intro i e1 hi hie
  have hle := hmin e1 (List.getElem?_mem hie)
  have hneq : e.timestamp ≠ e1.timestamp := by
    intro hc
    exact hi (hinv.distinct_ts i t.victim e1 e hie hje
      (hfull e1 (List.getElem?_mem hie)) (hfull e (List.getElem?_mem hje)) hc.symm)
  omega

theorem timestamp_invariant_witness :
    (filledTLB 16).entries.length = 16 ∧
    (∀ e ∈ (filledTLB 16).entries, e.valid = false → e.timestamp = 0) ∧
    (∀ e ∈ (filledTLB 16).entries, e.valid = true →
      1 ≤ e.timestamp ∧ e.timestamp ≤ (filledTLB 16).clock) :=
  have h := timestamp_invariant (filledTLB 16) (filledTLB_noWrap 16 (by decide)).1
  ⟨h.1, h.2.1, h.2.2.1⟩

/-! ## The two TLB implementations -/

end Sim
